import Mathlib

/-!
Verification development for the document-formatting transcoder
(`utils.py`, `ai_agent.py`): a shallow embedding of its string-processing
core in Lean 4, together with theorems about the embedded functions.

Python strings are modeled as `List Char`; Python `re` searches are
embedded as explicit leftmost-match scanners (each definition carries the
regex it implements); functions that raise exceptions return `Option`
(`none` = exception).
-/

set_option maxHeartbeats 1000000
set_option maxRecDepth 16384

namespace DocChecker

/-! ## Basic string model -/

/-- Python `str.strip()` whitespace class (ASCII part, which is all the
    repository's strings use). -/
def pyIsSpace (c : Char) : Bool :=
  c == ' ' || c == '\t' || c == '\n' || c == '\r' || c == '\x0b' || c == '\x0c'

/-- Python `str.strip()`. -/
def pyStrip (s : List Char) : List Char :=
  ((s.dropWhile pyIsSpace).reverse.dropWhile pyIsSpace).reverse

/-- `t[i]` as an optional lookup. -/
def charAt (t : List Char) (i : Nat) : Option Char := t[i]?

/-- `t[a:b]` for already-normalized 0 ≤ a ≤ b indices. -/
def slice (t : List Char) (a b : Nat) : List Char := (t.take b).drop a

/-! ## Chunker (`utils.chunk_text`, lines 288-307)

```
chunks = []
start = 0
text_len = len(text)
while start < text_len:
    end = min(start + chunk_size, text_len)
    chunks.append(text[start:end])
    start = end
return chunks
```

The loop is embedded with explicit fuel; `none` means the fuel ran out,
i.e. the Python loop had not terminated after that many iterations.
`chunk_size` is a Python `int`, hence modeled as `Int`. -/

/-- Python slice-index normalization: negative indices count from the end
    and clamp at 0; non-negative ones clamp at the length. -/
def pyNormIdx (len : Nat) (i : Int) : Nat :=
  if i < 0 then ((len : Int) + i).toNat else min i.toNat len

/-- Python `t[a:b]`. -/
def pySlice (t : List Char) (a b : Int) : List Char :=
  (t.take (pyNormIdx t.length b)).drop (pyNormIdx t.length a)

/-- The `while start < text_len` loop of `chunk_text`. -/
def chunkLoop (t : List Char) (size : Int) : Nat → Int → Option (List (List Char))
  | 0, _ => none
  | fuel+1, start =>
    if start < (t.length : Int) then
      let e : Int := min (start + size) (t.length : Int)
      match chunkLoop t size fuel e with
      | some rest => some (pySlice t start e :: rest)
      | none => none
    else
      some []

/-- `chunk_text(text, chunk_size)`, run with enough fuel for every
    terminating execution (`len(text) + 1` loop entries). -/
def chunk_text (t : List Char) (size : Int) : Option (List (List Char)) :=
  chunkLoop t size (t.length + 1) 0

/-- Reference chunking function: greedy `size`-sized slices. -/
def chunksOf (size : Nat) (t : List Char) : List (List Char) :=
  if h : t = [] ∨ size = 0 then []
  else t.take size :: chunksOf size (t.drop size)
termination_by t.length
decreasing_by
  push_neg at h
  simp only [List.length_drop]
  have h1 : t.length ≠ 0 := fun hl => h.1 (List.length_eq_zero.mp hl)
  omega

theorem chunksOf_nil (size : Nat) : chunksOf size [] = [] := by
  rw [chunksOf]; simp

theorem chunksOf_pos (size : Nat) (t : List Char) (ht : t ≠ []) (hs : size ≠ 0) :
    chunksOf size t = t.take size :: chunksOf size (t.drop size) := by
  rw [chunksOf]; simp [ht, hs]

theorem chunksOf_flatten (size : Nat) (hs : size ≠ 0) :
    ∀ t : List Char, (chunksOf size t).flatten = t := by
  intro t
  induction t using chunksOf.induct size with
  | case1 t h =>
    rcases h with h | h
    · subst h; simp [chunksOf_nil]
    · exact absurd h hs
  | case2 t h ih =>
    push_neg at h
    rw [chunksOf_pos size t h.1 h.2]
    simp [ih]

theorem chunksOf_mem (size : Nat) (hs : size ≠ 0) :
    ∀ t : List Char, ∀ c ∈ chunksOf size t, c.length ≤ size ∧ c ≠ [] := by
  intro t
  induction t using chunksOf.induct size with
  | case1 t h =>
    rcases h with h | h
    · subst h; simp [chunksOf_nil]
    · exact absurd h hs
  | case2 t h ih =>
    push_neg at h
    rw [chunksOf_pos size t h.1 h.2]
    intro c hc
    rcases List.mem_cons.mp hc with hc | hc
    · subst hc
      refine ⟨by simpa using List.length_take_le size t, ?_⟩
      simp only [ne_eq, List.take_eq_nil_iff, not_or]
      exact ⟨hs, h.1⟩
    · exact ih c hc

theorem chunksOf_count (size : Nat) (hs : size ≠ 0) :
    ∀ t : List Char, (chunksOf size t).length = (t.length + size - 1) / size := by
  intro t
  induction t using chunksOf.induct size with
  | case1 t h =>
    rcases h with h | h
    · subst h
      rw [chunksOf_nil]
      simp only [List.length_nil, Nat.zero_add]
      exact (Nat.div_eq_of_lt (by omega)).symm
    · exact absurd h hs
  | case2 t h ih =>
    push_neg at h
    rw [chunksOf_pos size t h.1 h.2]
    have hlen : t.length ≠ 0 := fun hl => h.1 (List.length_eq_zero.mp hl)
    simp only [List.length_cons, ih, List.length_drop]
    have hsz : 0 < size := Nat.pos_of_ne_zero h.2
    rcases le_or_lt t.length size with hle | hlt
    · have h1 : t.length - size = 0 := Nat.sub_eq_zero_of_le hle
      rw [h1]
      have h2 : (0 + size - 1) / size = 0 := by
        apply Nat.div_eq_of_lt; omega
      rw [h2]
      have h3 : t.length + size - 1 = (t.length - 1) + size := by omega
      rw [h3, Nat.add_div_right _ hsz]
      have h4 : (t.length - 1) / size = 0 := Nat.div_eq_of_lt (by omega)
      omega
    · have h3 : t.length + size - 1 = (t.length - 1) + size := by omega
      rw [h3, Nat.add_div_right _ hsz]
      have h4 : t.length - size + size - 1 = (t.length - 1 - size) + size := by omega
      rw [h4, Nat.add_div_right _ hsz]
      have h5 : (t.length - 1) / size = (t.length - 1 - size) / size + 1 := by
        rw [Nat.div_eq_sub_div hsz (by omega)]
      omega

theorem pyNormIdx_ofNat (len n : Nat) (h : n ≤ len) : pyNormIdx len (n : Int) = n := by
  unfold pyNormIdx
  rw [if_neg (by omega)]
  simp
  omega

theorem chunkLoop_eq_chunksOf (t : List Char) (s : Nat) (hs : s ≠ 0) :
    ∀ fuel (start : Nat), start ≤ t.length → t.length - start < fuel →
    chunkLoop t (s : Int) fuel (start : Int) = some (chunksOf s (t.drop start)) := by
  intro fuel
  induction fuel with
  | zero => intro start _ h2; omega
  | succ fuel ih =>
    intro start h1 h2
    rw [chunkLoop]
    rcases lt_or_ge start t.length with hlt | hge
    · have hguard : (start : Int) < (t.length : Int) := by exact_mod_cast hlt
      rw [if_pos hguard]
      set eN : Nat := min (start + s) t.length with heN
      have hcast : min ((start : Int) + (s : Int)) ((t.length : Int)) = ((eN : Int)) := by
        simp only [heN]
        push_cast
        ring
      have hstep : start + 1 ≤ eN := by omega
      have hle : eN ≤ t.length := by omega
      have hrec := ih eN hle (by omega)
      simp only [hcast, hrec]
      congr 1
      have hslice : pySlice t (start : Int) ((eN : Int)) = (t.drop start).take s := by
        unfold pySlice
        rw [pyNormIdx_ofNat t.length start h1, pyNormIdx_ofNat t.length eN hle]
        rw [List.drop_take]
        apply List.take_eq_take.mpr
        simp only [List.length_drop]
        omega
      have hdrop : t.drop eN = (t.drop start).drop s := by
        rw [List.drop_drop]
        rcases le_or_lt (start + s) t.length with hc | hc
        · congr 1; omega
        · rw [List.drop_eq_nil_of_le (by omega), List.drop_eq_nil_of_le (by omega)]
      rw [chunksOf_pos s (t.drop start) (by simp; omega) hs]
      rw [hslice, hdrop]
    · have hguard : ¬ ((start : Int) < (t.length : Int)) := by
        push_cast
        omega
      rw [if_neg hguard]
      have : start = t.length := by omega
      subst this
      simp [chunksOf_nil]

theorem chunk_text_eq (t : List Char) (size : Int) (hs : 0 < size) :
    chunk_text t size = some (chunksOf size.toNat t) := by
  have h1 : ((size.toNat : Nat) : Int) = size := Int.toNat_of_nonneg (le_of_lt hs)
  have h2 := chunkLoop_eq_chunksOf t size.toNat (by omega) (t.length + 1) 0
    (Nat.zero_le _) (by omega)
  rw [h1] at h2
  simpa [chunk_text] using h2

theorem chunkLoop_nonpos (t : List Char) (s : Int) (hs : s ≤ 0) :
    ∀ fuel (start : Int), start < (t.length : Int) → chunkLoop t s fuel start = none := by
  intro fuel
  induction fuel with
  | zero => intro start _; rfl
  | succ fuel ih =>
    intro start h
    rw [chunkLoop, if_pos h]
    have hm : min (start + s) (t.length : Int) < (t.length : Int) := by omega
    simp only [ih _ hm]

/-- C2 — Chunker correctness: for every text `T` and every `size > 0`,
`chunk_text` terminates and returns chunks whose concatenation is exactly
`T`, in which every chunk is nonempty of length at most `size`, and whose
count is `ceil(len(T)/size)` (so `0` chunks for empty `T`). -/
theorem c2_chunk_text_correct (t : List Char) (size : Int) (hs : 0 < size) :
    ∃ cs, chunk_text t size = some cs ∧ cs.flatten = t ∧
      (∀ c ∈ cs, c.length ≤ size.toNat ∧ c ≠ []) ∧
      cs.length = (t.length + size.toNat - 1) / size.toNat := by
  have hsz : size.toNat ≠ 0 := by omega
  exact ⟨chunksOf size.toNat t, chunk_text_eq t size hs,
    chunksOf_flatten size.toNat hsz t, chunksOf_mem size.toNat hsz t,
    chunksOf_count size.toNat hsz t⟩

theorem c2_chunk_text_correct_witness :
    (0 : Int) < 2 ∧ ∃ cs, chunk_text "abcde".toList 2 = some cs ∧
      cs.flatten = "abcde".toList ∧
      (∀ c ∈ cs, c.length ≤ (2 : Int).toNat ∧ c ≠ []) ∧
      cs.length = ("abcde".toList.length + (2 : Int).toNat - 1) / (2 : Int).toNat :=
  ⟨by decide, c2_chunk_text_correct "abcde".toList 2 (by decide)⟩

/-- C10 — Chunker termination precondition: with `chunk_size ≥ 1` the loop
of `chunk_text` terminates on every text (fuel `len(text)+1` suffices, since
the start offset strictly increases each iteration), while for
`chunk_size ≤ 0` and non-empty text the loop guard never becomes false: no
amount of fuel makes the loop finish, so `chunk_size ≥ 1` is a necessary
precondition for totality (and the function itself contains no guard
against non-positive sizes). -/
theorem c10_chunk_text_termination :
    (∀ (t : List Char) (size : Int), 0 < size → (chunk_text t size).isSome = true) ∧
    (∀ (t : List Char) (size : Int), size ≤ 0 → t ≠ [] →
      ∀ fuel, chunkLoop t size fuel 0 = none) := by
  constructor
  · intro t size hs
    rw [chunk_text_eq t size hs]
    rfl
  · intro t size hs ht fuel
    apply chunkLoop_nonpos t size hs
    have : 0 < t.length := List.length_pos.mpr ht
    exact_mod_cast this

theorem c10_chunk_text_termination_witness :
    (chunk_text "ab".toList 1).isSome = true ∧ chunkLoop "ab".toList 0 5 0 = none :=
  ⟨c10_chunk_text_termination.1 "ab".toList 1 (by decide),
   c10_chunk_text_termination.2 "ab".toList 0 (by decide) (by decide) 5⟩

/-! ## charAt toolkit -/

theorem charAt_cons_zero (a : Char) (l : List Char) : charAt (a :: l) 0 = some a := by
  simp [charAt]

theorem charAt_cons_succ (a : Char) (l : List Char) (i : Nat) :
    charAt (a :: l) (i+1) = charAt l i := by
  simp [charAt]

theorem charAt_nil (i : Nat) : charAt [] i = none := by
  simp [charAt]

theorem charAt_append_lt (xs ys : List Char) (i : Nat) (h : i < xs.length) :
    charAt (xs ++ ys) i = charAt xs i := by
  simp [charAt, List.getElem?_append_left h]

theorem charAt_append_ge (xs ys : List Char) (i : Nat) (h : xs.length ≤ i) :
    charAt (xs ++ ys) i = charAt ys (i - xs.length) := by
  simp [charAt, List.getElem?_append_right h]

theorem charAt_eq_none (t : List Char) (i : Nat) (h : t.length ≤ i) :
    charAt t i = none := by
  simp [charAt, List.getElem?_eq_none h]

theorem charAt_lt_length (t : List Char) (i : Nat) (c : Char) (h : charAt t i = some c) :
    i < t.length := by
  by_contra hc
  rw [charAt_eq_none t i (by omega)] at h
  exact Option.noConfusion h

theorem charAt_mem (t : List Char) (i : Nat) (c : Char) (h : charAt t i = some c) :
    c ∈ t := by
  simp only [charAt] at h
  exact List.getElem?_mem h

theorem charAt_drop_cons (t : List Char) (i : Nat) (c : Char) (h : charAt t i = some c) :
    t.drop i = c :: t.drop (i+1) := by
  have hlt := charAt_lt_length t i c h
  rw [List.drop_eq_getElem_cons hlt]
  simp only [charAt] at h
  rw [List.getElem?_eq_getElem hlt] at h
  simp at h
  rw [h]

theorem slice_append_drop (t : List Char) (a b : Nat) (hab : a ≤ b) :
    slice t a b ++ t.drop b = t.drop a := by
  unfold slice
  rcases le_or_lt a t.length with ha | ha
  · conv_rhs => rw [← List.take_append_drop b t]
    rw [List.drop_append_eq_append_drop]
    have hmin : a - (t.take b).length = 0 := by
      simp only [List.length_take]
      omega
    rw [hmin, List.drop_zero]
  · have h1 : (t.take b).drop a = [] := List.drop_eq_nil_of_le (by rw [List.length_take]; omega)
    have h2 : t.drop b = [] := List.drop_eq_nil_of_le (by omega)
    have h3 : t.drop a = [] := List.drop_eq_nil_of_le (by omega)
    rw [h1, h2, h3]
    rfl

theorem slice_length (t : List Char) (a b : Nat) (hb : b ≤ t.length) :
    (slice t a b).length = b - a := by
  simp [slice, List.length_take]
  omega

theorem take_append_slice (t : List Char) (a b : Nat) (hab : a ≤ b) :
    t.take a ++ slice t a b = t.take b := by
  unfold slice
  conv_lhs => rw [show t.take a = (t.take b).take a by rw [List.take_take, Nat.min_eq_left hab]]
  exact List.take_append_drop a (t.take b)

/-! ## Inline-format tokenizer (`utils._add_runs_from_text`, lines 327-390)

The three regexes
```
bold_re      = \*\*(.+?)\*\*            (DOTALL)
underline_re = __(.+?)__                 (DOTALL)
italic_re    = (?<!\*)\*(?!\*)(.+?)(?<!\*)\*(?!\*)   (DOTALL)
```
are embedded as explicit leftmost-match scanners: `re.search` finds the
smallest start position at which the whole pattern can match, and a
non-greedy `(.+?)` group makes the closing delimiter the first possible
one after a non-empty body. -/

/-- One regex match: `m.start()`, `m.group(1)`, `m.end()`. -/
structure PatMatch where
  mstart : Nat
  group : List Char
  mend : Nat
deriving DecidableEq, Repr

/-- Leftmost-scan driver: try `f` at indices `i, i+1, ...` (`fuel` many). -/
def scanFrom {α : Type} (f : Nat → Option α) : Nat → Nat → Option α
  | _, 0 => none
  | i, fuel+1 =>
    match f i with
    | some a => some a
    | none => scanFrom f (i+1) fuel

theorem scanFrom_some {α : Type} (f : Nat → Option α) :
    ∀ fuel i a, scanFrom f i fuel = some a → ∃ j, i ≤ j ∧ f j = some a := by
  intro fuel
  induction fuel with
  | zero => intro i a h; exact Option.noConfusion h
  | succ fuel ih =>
    intro i a h
    rw [scanFrom] at h
    cases hf : f i with
    | some b =>
      rw [hf] at h
      exact ⟨i, le_refl i, by rw [hf]; exact h⟩
    | none =>
      rw [hf] at h
      obtain ⟨j, hj, hfj⟩ := ih (i+1) a h
      exact ⟨j, by omega, hfj⟩

theorem scanFrom_hit {α : Type} (f : Nat → Option α) (i fuel : Nat) (a : α)
    (h : f i = some a) : scanFrom f i (fuel+1) = some a := by
  rw [scanFrom, h]

theorem scanFrom_skip {α : Type} (f : Nat → Option α) :
    ∀ d fuel i, (∀ k, i ≤ k → k < i + d → f k = none) →
      scanFrom f i (d + fuel) = scanFrom f (i + d) fuel := by
  intro d
  induction d with
  | zero => intro fuel i _; simp
  | succ d ih =>
    intro fuel i h
    have h0 : f i = none := h i (le_refl i) (by omega)
    have h1 : d + 1 + fuel = (d + fuel) + 1 := by omega
    rw [h1, scanFrom, h0]
    have h2 := ih fuel (i+1) (fun k hk1 hk2 => h k (by omega) (by omega))
    have h3 : i + 1 + d = i + (d + 1) := by omega
    rw [h3] at h2
    exact h2

theorem scanFrom_none {α : Type} (f : Nat → Option α) :
    ∀ fuel i, (∀ k, i ≤ k → f k = none) → scanFrom f i fuel = none := by
  intro fuel
  induction fuel with
  | zero => intro i _; rfl
  | succ fuel ih =>
    intro i h
    rw [scanFrom, h i (le_refl i)]
    exact ih (i+1) (fun k hk => h k (by omega))

/-- Is the two-character run `cc` present at index `i`? -/
def twoAt (c : Char) (t : List Char) (i : Nat) : Bool :=
  charAt t i == some c && charAt t (i+1) == some c

/-- `\*(?!\*)` with `(?<!\*)`: a `*` at `i` that is not adjacent to
    another `*` (used for both italic delimiters). -/
def loneStarAt (t : List Char) (i : Nat) : Bool :=
  charAt t i == some '*' && !(charAt t (i+1) == some '*') &&
    (i == 0 || !(charAt t (i-1) == some '*'))

/-- Match attempt of `\*\*(.+?)\*\*` anchored at start `i`. -/
def boldAt (t : List Char) (i : Nat) : Option PatMatch :=
  if twoAt '*' t i then
    match scanFrom (fun j => if twoAt '*' t j then some j else none) (i+3) t.length with
    | some j => some ⟨i, slice t (i+2) j, j+2⟩
    | none => none
  else none

/-- Match attempt of `__(.+?)__` anchored at start `i`. -/
def underlineAt (t : List Char) (i : Nat) : Option PatMatch :=
  if twoAt '_' t i then
    match scanFrom (fun j => if twoAt '_' t j then some j else none) (i+3) t.length with
    | some j => some ⟨i, slice t (i+2) j, j+2⟩
    | none => none
  else none

/-- Match attempt of the italic regex anchored at start `i`. -/
def italicAt (t : List Char) (i : Nat) : Option PatMatch :=
  if loneStarAt t i then
    match scanFrom (fun j => if loneStarAt t j then some j else none) (i+2) t.length with
    | some j => some ⟨i, slice t (i+1) j, j+1⟩
    | none => none
  else none

/-- `bold_re.search(text)`. -/
def findBold (t : List Char) : Option PatMatch := scanFrom (boldAt t) 0 (t.length + 1)

/-- `underline_re.search(text)`. -/
def findUnderline (t : List Char) : Option PatMatch := scanFrom (underlineAt t) 0 (t.length + 1)

/-- `italic_re.search(text)`. -/
def findItalic (t : List Char) : Option PatMatch := scanFrom (italicAt t) 0 (t.length + 1)

/-- The `"b" / "u" / "i"` tags of the candidate list. -/
inductive MKind
  | b
  | u
  | i
deriving DecidableEq, Repr

/-- `matches = [(m_b,"b"), (m_u,"u"), (m_i,"i")]`, `None`s dropped. -/
def candidates (t : List Char) : List (MKind × PatMatch) :=
  ((findBold t).map (fun m => (MKind.b, m))).toList ++
  ((findUnderline t).map (fun m => (MKind.u, m))).toList ++
  ((findItalic t).map (fun m => (MKind.i, m))).toList

/-- Python `min(matches, key=lambda mt: mt[0].start())`: the first element
    whose start index is minimal. -/
def minByStart : List (MKind × PatMatch) → Option (MKind × PatMatch)
  | [] => none
  | x :: xs =>
    match minByStart xs with
    | none => some x
    | some y => if x.2.mstart ≤ y.2.mstart then some x else some y

/-- Choose the earliest match among bold, underline, italic. -/
def pickEarliest (t : List Char) : Option (MKind × PatMatch) :=
  minByStart (candidates t)

/-- `docx.shared.RGBColor`. -/
structure Rgb where
  r : Nat
  g : Nat
  b : Nat
deriving DecidableEq, Repr

/-- One `python-docx` run as the reconstructor creates it. -/
structure MRun where
  rtext : List Char
  bold : Bool
  italic : Bool
  underline : Bool
  color : Option Rgb
deriving DecidableEq, Repr

/-- `para.add_run(text)` (+ optional color), no style flags. -/
def plainRun (t : List Char) (c : Option Rgb) : MRun := ⟨t, false, false, false, c⟩

/-- The formatted run for a match of kind `k`. -/
def fmtRun (k : MKind) (t : List Char) (c : Option Rgb) : MRun :=
  match k with
  | .b => ⟨t, true, false, false, c⟩
  | .u => ⟨t, false, false, true, c⟩
  | .i => ⟨t, false, true, false, c⟩

/-- The `while text:` loop of `_add_runs_from_text` (fuel-indexed; each
    iteration consumes `m.end() ≥ 3` characters, so fuel `len+1` always
    suffices — see `addRuns`). -/
def addRunsFuel (c : Option Rgb) : Nat → List Char → List MRun
  | 0, _ => []
  | fuel+1, t =>
    if t = [] then []
    else
      match pickEarliest t with
      | none => [plainRun t c]
      | some (k, m) =>
        (if 0 < m.mstart then [plainRun (t.take m.mstart) c] else []) ++
        fmtRun k m.group c :: addRunsFuel c fuel (t.drop m.mend)

/-- `_add_runs_from_text(para, text, color_rgb)`: the run list appended. -/
def addRuns (c : Option Rgb) (t : List Char) : List MRun :=
  addRunsFuel c (t.length + 1) t

/-! ## Match-shape lemmas: what a successful regex match says about the string -/

/-- The exact substring a match of kind `k` with group `g` consumed; it is
    also the inline wrapper the DOCX extractor emits for that single style. -/
def markWrap (k : MKind) (g : List Char) : List Char :=
  match k with
  | .b => '*' :: '*' :: (g ++ ['*', '*'])
  | .u => '_' :: '_' :: (g ++ ['_', '_'])
  | .i => '*' :: (g ++ ['*'])

theorem twoAt_iff (c : Char) (t : List Char) (i : Nat) :
    twoAt c t i = true ↔ charAt t i = some c ∧ charAt t (i+1) = some c := by
  simp [twoAt]

theorem boldAt_shape (t : List Char) (i : Nat) (m : PatMatch)
    (h : boldAt t i = some m) :
    m.mstart = i ∧ t.drop m.mstart = markWrap MKind.b m.group ++ t.drop m.mend ∧
      m.group ≠ [] ∧ m.mstart + 2 < m.mend := by
  unfold boldAt at h
  by_cases htwo : twoAt '*' t i = true
  case neg => rw [if_neg htwo] at h; exact Option.noConfusion h
  rw [if_pos htwo] at h
  cases hscan : scanFrom (fun j => if twoAt '*' t j then some j else none) (i+3) t.length with
  | none => rw [hscan] at h; exact Option.noConfusion h
  | some j =>
    rw [hscan] at h
    obtain ⟨j1, hj1, hfj⟩ := scanFrom_some _ _ _ _ hscan
    have hjj : twoAt '*' t j1 = true ∧ j1 = j := by
      by_cases h2 : twoAt '*' t j1 = true
      · rw [if_pos h2] at hfj
        exact ⟨h2, Option.some.inj hfj⟩
      · rw [if_neg h2] at hfj
        exact Option.noConfusion hfj
    obtain ⟨htwoj, rfl⟩ := hjj
    obtain ⟨hci, hci1⟩ := (twoAt_iff '*' t i).mp htwo
    obtain ⟨hcj, hcj1⟩ := (twoAt_iff '*' t j1).mp htwoj
    have hm : m = ⟨i, slice t (i+2) j1, j1+2⟩ := (Option.some.inj h).symm
    subst hm
    refine ⟨rfl, ?_, ?_, show i + 2 < j1 + 2 by omega⟩
    · show t.drop i = markWrap MKind.b (slice t (i+2) j1) ++ t.drop (j1+2)
      rw [charAt_drop_cons t i '*' hci, charAt_drop_cons t (i+1) '*' hci1]
      have hij : i + 1 + 1 = i + 2 := by omega
      rw [hij]
      rw [← slice_append_drop t (i+2) j1 (by omega)]
      rw [charAt_drop_cons t j1 '*' hcj, charAt_drop_cons t (j1+1) '*' hcj1]
      simp [markWrap]
    · show slice t (i+2) j1 ≠ []
      have hjlen := charAt_lt_length t j1 '*' hcj
      have := slice_length t (i+2) j1 (by omega)
      intro hnil
      rw [hnil] at this
      simp at this
      omega

theorem underlineAt_shape (t : List Char) (i : Nat) (m : PatMatch)
    (h : underlineAt t i = some m) :
    m.mstart = i ∧ t.drop m.mstart = markWrap MKind.u m.group ++ t.drop m.mend ∧
      m.group ≠ [] ∧ m.mstart + 2 < m.mend := by
  unfold underlineAt at h
  by_cases htwo : twoAt '_' t i = true
  case neg => rw [if_neg htwo] at h; exact Option.noConfusion h
  rw [if_pos htwo] at h
  cases hscan : scanFrom (fun j => if twoAt '_' t j then some j else none) (i+3) t.length with
  | none => rw [hscan] at h; exact Option.noConfusion h
  | some j =>
    rw [hscan] at h
    obtain ⟨j1, hj1, hfj⟩ := scanFrom_some _ _ _ _ hscan
    have hjj : twoAt '_' t j1 = true ∧ j1 = j := by
      by_cases h2 : twoAt '_' t j1 = true
      · rw [if_pos h2] at hfj
        exact ⟨h2, Option.some.inj hfj⟩
      · rw [if_neg h2] at hfj
        exact Option.noConfusion hfj
    obtain ⟨htwoj, rfl⟩ := hjj
    obtain ⟨hci, hci1⟩ := (twoAt_iff '_' t i).mp htwo
    obtain ⟨hcj, hcj1⟩ := (twoAt_iff '_' t j1).mp htwoj
    have hm : m = ⟨i, slice t (i+2) j1, j1+2⟩ := (Option.some.inj h).symm
    subst hm
    refine ⟨rfl, ?_, ?_, show i + 2 < j1 + 2 by omega⟩
    · show t.drop i = markWrap MKind.u (slice t (i+2) j1) ++ t.drop (j1+2)
      rw [charAt_drop_cons t i '_' hci, charAt_drop_cons t (i+1) '_' hci1]
      have hij : i + 1 + 1 = i + 2 := by omega
      rw [hij]
      rw [← slice_append_drop t (i+2) j1 (by omega)]
      rw [charAt_drop_cons t j1 '_' hcj, charAt_drop_cons t (j1+1) '_' hcj1]
      simp [markWrap]
    · show slice t (i+2) j1 ≠ []
      have hjlen := charAt_lt_length t j1 '_' hcj
      have := slice_length t (i+2) j1 (by omega)
      intro hnil
      rw [hnil] at this
      simp at this
      omega

theorem loneStarAt_star (t : List Char) (i : Nat) (h : loneStarAt t i = true) :
    charAt t i = some '*' := by
  simp only [loneStarAt, Bool.and_eq_true, beq_iff_eq] at h
  exact h.1.1

theorem italicAt_shape (t : List Char) (i : Nat) (m : PatMatch)
    (h : italicAt t i = some m) :
    m.mstart = i ∧ t.drop m.mstart = markWrap MKind.i m.group ++ t.drop m.mend ∧
      m.group ≠ [] ∧ m.mstart + 1 < m.mend := by
  unfold italicAt at h
  by_cases hlone : loneStarAt t i = true
  case neg => rw [if_neg hlone] at h; exact Option.noConfusion h
  rw [if_pos hlone] at h
  cases hscan : scanFrom (fun j => if loneStarAt t j then some j else none) (i+2) t.length with
  | none => rw [hscan] at h; exact Option.noConfusion h
  | some j =>
    rw [hscan] at h
    obtain ⟨j1, hj1, hfj⟩ := scanFrom_some _ _ _ _ hscan
    have hjj : loneStarAt t j1 = true ∧ j1 = j := by
      by_cases h2 : loneStarAt t j1 = true
      · rw [if_pos h2] at hfj
        exact ⟨h2, Option.some.inj hfj⟩
      · rw [if_neg h2] at hfj
        exact Option.noConfusion hfj
    obtain ⟨hlonej, rfl⟩ := hjj
    have hci := loneStarAt_star t i hlone
    have hcj := loneStarAt_star t j1 hlonej
    have hm : m = ⟨i, slice t (i+1) j1, j1+1⟩ := (Option.some.inj h).symm
    subst hm
    refine ⟨rfl, ?_, ?_, show i + 1 < j1 + 1 by omega⟩
    · show t.drop i = markWrap MKind.i (slice t (i+1) j1) ++ t.drop (j1+1)
      rw [charAt_drop_cons t i '*' hci]
      rw [← slice_append_drop t (i+1) j1 (by omega)]
      rw [charAt_drop_cons t j1 '*' hcj]
      simp [markWrap]
    · show slice t (i+1) j1 ≠ []
      have hjlen := charAt_lt_length t j1 '*' hcj
      have := slice_length t (i+1) j1 (by omega)
      intro hnil
      rw [hnil] at this
      simp at this
      omega

theorem minByStart_mem (l : List (MKind × PatMatch)) (x : MKind × PatMatch)
    (h : minByStart l = some x) : x ∈ l := by
  induction l with
  | nil => exact Option.noConfusion h
  | cons y ys ih =>
    rw [minByStart] at h
    cases hm : minByStart ys with
    | none =>
      rw [hm] at h
      have h2 : some y = some x := h
      exact (Option.some.inj h2) ▸ List.mem_cons_self y ys
    | some z =>
      rw [hm] at h
      have h2 : (if y.2.mstart ≤ z.2.mstart then some y else some z) = some x := h
      by_cases hle : y.2.mstart ≤ z.2.mstart
      · rw [if_pos hle] at h2
        exact (Option.some.inj h2) ▸ List.mem_cons_self y ys
      · rw [if_neg hle] at h2
        exact List.mem_cons_of_mem y (ih ((Option.some.inj h2) ▸ hm))

theorem pickEarliest_shape (t : List Char) (k : MKind) (m : PatMatch)
    (h : pickEarliest t = some (k, m)) :
    t.drop m.mstart = markWrap k m.group ++ t.drop m.mend ∧
      m.group ≠ [] ∧ m.mstart + 1 < m.mend := by
  have hmem := minByStart_mem _ _ h
  unfold candidates at hmem
  rcases List.mem_append.mp hmem with hmem2 | hi
  · rcases List.mem_append.mp hmem2 with hb | hu
    · cases hfb : findBold t with
      | none => rw [hfb] at hb; simp at hb
      | some m0 =>
        rw [hfb] at hb
        simp at hb
        obtain ⟨hk, hm⟩ := hb
        subst hk
        subst hm
        obtain ⟨j, hj, hbj⟩ := scanFrom_some _ _ _ _ hfb
        obtain ⟨h1, h2, h3, h4⟩ := boldAt_shape t j m hbj
        exact ⟨h2, h3, by omega⟩
    · cases hfu : findUnderline t with
      | none => rw [hfu] at hu; simp at hu
      | some m0 =>
        rw [hfu] at hu
        simp at hu
        obtain ⟨hk, hm⟩ := hu
        subst hk
        subst hm
        obtain ⟨j, hj, huj⟩ := scanFrom_some _ _ _ _ hfu
        obtain ⟨h1, h2, h3, h4⟩ := underlineAt_shape t j m huj
        exact ⟨h2, h3, by omega⟩
  · cases hfi : findItalic t with
    | none => rw [hfi] at hi; simp at hi
    | some m0 =>
      rw [hfi] at hi
      simp at hi
      obtain ⟨hk, hm⟩ := hi
      subst hk
      subst hm
      obtain ⟨j, hj, hij⟩ := scanFrom_some _ _ _ _ hfi
      obtain ⟨h1, h2, h3, h4⟩ := italicAt_shape t j m hij
      exact ⟨h2, h3, by omega⟩

/-! ## The extractor's inline rendering of a run, and the render identity -/

/-- Lines 262-268 of `extract_text_from_docx`: wrap a run's text in its
    inline style markers (`**…**` if bold, then `*…*` if italic, then
    `__…__` if underline — applied in that order, so bold is innermost). -/
def styleWrapText (r : MRun) : List Char :=
  let t1 := if r.bold then '*' :: '*' :: (r.rtext ++ ['*', '*']) else r.rtext
  let t2 := if r.italic then '*' :: (t1 ++ ['*']) else t1
  if r.underline then '_' :: '_' :: (t2 ++ ['_', '_']) else t2

theorem styleWrapText_fmtRun (k : MKind) (g : List Char) (c : Option Rgb) :
    styleWrapText (fmtRun k g c) = markWrap k g := by
  cases k <;> simp [styleWrapText, fmtRun, markWrap]

theorem styleWrapText_plainRun (t : List Char) (c : Option Rgb) :
    styleWrapText (plainRun t c) = t := by
  simp [styleWrapText, plainRun]

/-- Render identity: re-rendering the runs produced by
    `_add_runs_from_text` reproduces the input text exactly, for every
    input (each match consumes precisely the marker-wrapped group it
    reports, and plain gaps are kept verbatim). -/
theorem addRunsFuel_render (c : Option Rgb) :
    ∀ fuel t, t.length < fuel →
      ((addRunsFuel c fuel t).map styleWrapText).flatten = t := by
  intro fuel
  induction fuel with
  | zero => intro t h; omega
  | succ fuel ih =>
    intro t h
    rw [addRunsFuel]
    by_cases ht : t = []
    · rw [if_pos ht, ht]
      rfl
    rw [if_neg ht]
    cases hp : pickEarliest t with
    | none => simp [styleWrapText_plainRun]
    | some km =>
      obtain ⟨k, m⟩ := km
      obtain ⟨hshape, hg, hlt⟩ := pickEarliest_shape t k m hp
      have htlen : 0 < t.length := List.length_pos.mpr ht
      have hrec : ((addRunsFuel c fuel (t.drop m.mend)).map styleWrapText).flatten
          = t.drop m.mend := by
        apply ih
        simp only [List.length_drop]
        omega
      show (List.map styleWrapText
          ((if 0 < m.mstart then [plainRun (t.take m.mstart) c] else []) ++
            fmtRun k m.group c :: addRunsFuel c fuel (t.drop m.mend))).flatten = t
      by_cases hms : 0 < m.mstart
      · rw [if_pos hms]
        simp only [List.map_append, List.map_cons, List.flatten_append, List.flatten_cons,
          List.map_nil, List.flatten_nil, List.append_nil,
          styleWrapText_plainRun, styleWrapText_fmtRun, hrec]
        rw [← hshape, List.take_append_drop]
      · rw [if_neg hms]
        simp only [List.nil_append, List.map_cons, List.flatten_cons,
          styleWrapText_fmtRun, hrec]
        have hms0 : m.mstart = 0 := by omega
        rw [hms0] at hshape
        simp only [List.drop_zero] at hshape
        exact hshape.symm

/-- The render identity at the `addRuns` entry point. -/
theorem addRuns_render (c : Option Rgb) (t : List Char) :
    ((addRuns c t).map styleWrapText).flatten = t :=
  addRunsFuel_render c (t.length + 1) t (by omega)

theorem markWrap_mem (k : MKind) (g : List Char) (ch : Char) (h : ch ∈ markWrap k g)
    (h1 : ch ≠ '*') (h2 : ch ≠ '_') : ch ∈ g := by
  cases k <;> simp [markWrap] at h <;> tauto

/-- Character coverage: every character of the input that is not a marker
    character (`*` or `_`) survives into some run's text. -/
theorem addRunsFuel_chars (c : Option Rgb) :
    ∀ fuel t, t.length < fuel → ∀ ch ∈ t, ch ≠ '*' → ch ≠ '_' →
      ch ∈ ((addRunsFuel c fuel t).map MRun.rtext).flatten := by
  intro fuel
  induction fuel with
  | zero => intro t h; omega
  | succ fuel ih =>
    intro t h ch hch h1 h2
    rw [addRunsFuel]
    by_cases ht : t = []
    · rw [ht] at hch
      exact absurd hch (List.not_mem_nil ch)
    rw [if_neg ht]
    cases hp : pickEarliest t with
    | none => simp [plainRun, hch]
    | some km =>
      obtain ⟨k, m⟩ := km
      obtain ⟨hshape, hg, hlt⟩ := pickEarliest_shape t k m hp
      have htlen : 0 < t.length := List.length_pos.mpr ht
      show ch ∈ (List.map MRun.rtext
          ((if 0 < m.mstart then [plainRun (t.take m.mstart) c] else []) ++
            fmtRun k m.group c :: addRunsFuel c fuel (t.drop m.mend))).flatten
      have hsplit : t = t.take m.mstart ++ (markWrap k m.group ++ t.drop m.mend) := by
        rw [← hshape, List.take_append_drop]
      rw [hsplit] at hch
      have hrtext : MRun.rtext (fmtRun k m.group c) = m.group := by
        cases k <;> rfl
      rcases List.mem_append.mp hch with htake | hrest
    
      · have hms : 0 < m.mstart := by
          rcases Nat.eq_zero_or_pos m.mstart with h0 | h0
          · rw [h0] at htake
            simp at htake
          · exact h0
        rw [if_pos hms]
        simp only [List.map_append, List.map_cons, List.flatten_append, List.flatten_cons,
          List.map_nil, List.flatten_nil, List.append_nil, plainRun]
        exact List.mem_append.mpr (Or.inl htake)
      · rcases List.mem_append.mp hrest with hmark | hdrop
        · have hgmem := markWrap_mem k m.group ch hmark h1 h2
          by_cases hms : 0 < m.mstart
          · rw [if_pos hms]
            simp only [List.map_append, List.map_cons, List.flatten_append, List.flatten_cons,
              hrtext]
            exact List.mem_append.mpr (Or.inr (List.mem_append.mpr (Or.inl hgmem)))
          · rw [if_neg hms]
            simp only [List.nil_append, List.map_cons, List.flatten_cons, hrtext]
            exact List.mem_append.mpr (Or.inl hgmem)
        · have hrec := ih (t.drop m.mend) (by simp only [List.length_drop]; omega) ch hdrop h1 h2
          by_cases hms : 0 < m.mstart
          · rw [if_pos hms]
            simp only [List.map_append, List.map_cons, List.flatten_append, List.flatten_cons,
              hrtext]
            exact List.mem_append.mpr (Or.inr (List.mem_append.mpr (Or.inr hrec)))
          · rw [if_neg hms]
            simp only [List.nil_append, List.map_cons, List.flatten_cons, hrtext]
            exact List.mem_append.mpr (Or.inr hrec)

theorem addRuns_chars (c : Option Rgb) (t : List Char) (ch : Char) (hch : ch ∈ t)
    (h1 : ch ≠ '*') (h2 : ch ≠ '_') :
    ch ∈ ((addRuns c t).map MRun.rtext).flatten :=
  addRunsFuel_chars c (t.length + 1) t (by omega) ch hch h1 h2

/-! ## Behavior of the finders on single rendered units -/

/-- Characters that cannot interfere with any inline marker or tag. -/
def safeChar (ch : Char) : Bool :=
  !(ch == '*' || ch == '_' || ch == '<' || ch == '\n')

theorem safeChar_spec (ch : Char) (h : safeChar ch = true) :
    ch ≠ '*' ∧ ch ≠ '_' ∧ ch ≠ '<' ∧ ch ≠ '\n' := by
  simp [safeChar] at h
  tauto

theorem twoAt_false_of_not_mem (c : Char) (t : List Char) (h : c ∉ t) (i : Nat) :
    twoAt c t i = false := by
  by_contra hc
  rw [Bool.not_eq_false] at hc
  exact h (charAt_mem t i c ((twoAt_iff c t i).mp hc).1)

theorem loneStarAt_false_of_not_mem (t : List Char) (h : '*' ∉ t) (i : Nat) :
    loneStarAt t i = false := by
  by_contra hc
  rw [Bool.not_eq_false] at hc
  exact h (charAt_mem t i '*' (loneStarAt_star t i hc))

theorem findBold_none (t : List Char) (h : '*' ∉ t) : findBold t = none := by
  apply scanFrom_none
  intro k _
  unfold boldAt
  rw [if_neg (by rw [twoAt_false_of_not_mem '*' t h k]; exact Bool.false_ne_true)]

theorem findUnderline_none (t : List Char) (h : '_' ∉ t) : findUnderline t = none := by
  apply scanFrom_none
  intro k _
  unfold underlineAt
  rw [if_neg (by rw [twoAt_false_of_not_mem '_' t h k]; exact Bool.false_ne_true)]

theorem findItalic_none (t : List Char) (h : '*' ∉ t) : findItalic t = none := by
  apply scanFrom_none
  intro k _
  unfold italicAt
  rw [if_neg (by rw [loneStarAt_false_of_not_mem t h k]; exact Bool.false_ne_true)]

theorem not_star_mem_of_safe (g : List Char) (hs : ∀ ch ∈ g, safeChar ch = true) :
    '*' ∉ g := by
  intro hmem
  exact (safeChar_spec '*' (hs '*' hmem)).1 rfl

theorem not_underscore_mem_of_safe (g : List Char) (hs : ∀ ch ∈ g, safeChar ch = true) :
    '_' ∉ g := by
  intro hmem
  exact (safeChar_spec '_' (hs '_' hmem)).2.1 rfl

theorem not_lt_mem_of_safe (g : List Char) (hs : ∀ ch ∈ g, safeChar ch = true) :
    '<' ∉ g := by
  intro hmem
  exact (safeChar_spec '<' (hs '<' hmem)).2.2.1 rfl

theorem charAt_wrapB (g : List Char) (i : Nat) :
    charAt (markWrap MKind.b g) i =
      if i < 2 then some '*'
      else if i < g.length + 2 then charAt g (i - 2)
      else if i < g.length + 4 then some '*'
      else none := by
  show charAt ('*' :: '*' :: (g ++ ['*', '*'])) i = _
  rcases i with _ | _ | i
  · rw [charAt_cons_zero]
    rw [if_pos (by omega)]
  · rw [charAt_cons_succ, charAt_cons_zero]
    rw [if_pos (by omega)]
  · rw [charAt_cons_succ, charAt_cons_succ]
    rcases Nat.lt_or_ge i g.length with hlt | hge
    · rw [charAt_append_lt g ['*', '*'] i hlt]
      rw [if_neg (by omega), if_pos (by omega)]
      congr 1
    · rw [charAt_append_ge g ['*', '*'] i hge]
      rcases Nat.lt_or_ge i (g.length + 2) with h2 | h2
      · have : i - g.length = 0 ∨ i - g.length = 1 := by omega
        rcases this with h3 | h3 <;> rw [h3]
        · rw [charAt_cons_zero, if_neg (by omega), if_neg (by omega), if_pos (by omega)]
        · rw [charAt_cons_succ, charAt_cons_zero,
            if_neg (by omega), if_neg (by omega), if_pos (by omega)]
      · rw [charAt_eq_none _ _ (by simp; omega)]
        rw [if_neg (by omega), if_neg (by omega), if_neg (by omega)]

theorem charAt_wrapU (g : List Char) (i : Nat) :
    charAt (markWrap MKind.u g) i =
      if i < 2 then some '_'
      else if i < g.length + 2 then charAt g (i - 2)
      else if i < g.length + 4 then some '_'
      else none := by
  show charAt ('_' :: '_' :: (g ++ ['_', '_'])) i = _
  rcases i with _ | _ | i
  · rw [charAt_cons_zero]
    rw [if_pos (by omega)]
  · rw [charAt_cons_succ, charAt_cons_zero]
    rw [if_pos (by omega)]
  · rw [charAt_cons_succ, charAt_cons_succ]
    rcases Nat.lt_or_ge i g.length with hlt | hge
    · rw [charAt_append_lt g ['_', '_'] i hlt]
      rw [if_neg (by omega), if_pos (by omega)]
      congr 1
    · rw [charAt_append_ge g ['_', '_'] i hge]
      rcases Nat.lt_or_ge i (g.length + 2) with h2 | h2
      · have : i - g.length = 0 ∨ i - g.length = 1 := by omega
        rcases this with h3 | h3 <;> rw [h3]
        · rw [charAt_cons_zero, if_neg (by omega), if_neg (by omega), if_pos (by omega)]
        · rw [charAt_cons_succ, charAt_cons_zero,
            if_neg (by omega), if_neg (by omega), if_pos (by omega)]
      · rw [charAt_eq_none _ _ (by simp; omega)]
        rw [if_neg (by omega), if_neg (by omega), if_neg (by omega)]

theorem charAt_wrapI (g : List Char) (i : Nat) :
    charAt (markWrap MKind.i g) i =
      if i = 0 then some '*'
      else if i < g.length + 1 then charAt g (i - 1)
      else if i = g.length + 1 then some '*'
      else none := by
  show charAt ('*' :: (g ++ ['*'])) i = _
  rcases i with _ | i
  · rw [charAt_cons_zero]
    rw [if_pos rfl]
  · rw [charAt_cons_succ]
    rcases Nat.lt_or_ge i g.length with hlt | hge
    · rw [charAt_append_lt g ['*'] i hlt]
      rw [if_neg (by omega), if_pos (by omega)]
      congr 1
    · rcases Nat.eq_or_lt_of_le hge with heq | hgt
      · have h0 : i - g.length = 0 := by omega
        rw [charAt_append_ge g ['*'] i hge, h0, charAt_cons_zero]
        rw [if_neg (by omega), if_neg (by omega), if_pos (by omega)]
      · rw [charAt_append_ge g ['*'] i hge]
        rw [charAt_eq_none ['*'] _ (by simp; omega)]
        rw [if_neg (by omega), if_neg (by omega), if_neg (by omega)]

theorem charAt_exists (t : List Char) (j : Nat) (h : j < t.length) :
    ∃ ch, charAt t j = some ch ∧ ch ∈ t :=
  ⟨t[j], by simp [charAt, List.getElem?_eq_getElem h], List.getElem_mem h⟩

theorem addRunsFuel_nil (c : Option Rgb) (fuel : Nat) : addRunsFuel c fuel [] = [] := by
  cases fuel <;> simp [addRunsFuel]

theorem twoAt_wrapB_mid (g : List Char) (hs : ∀ ch ∈ g, safeChar ch = true)
    (k : Nat) (h2 : 2 ≤ k) (h3 : k < g.length + 2) :
    twoAt '*' (markWrap MKind.b g) k = false := by
  obtain ⟨ch, hch, hmem⟩ := charAt_exists g (k-2) (by omega)
  have hck : charAt (markWrap MKind.b g) k = some ch := by
    rw [charAt_wrapB, if_neg (by omega), if_pos (by omega), hch]
  have hne : ch ≠ '*' := (safeChar_spec ch (hs ch hmem)).1
  simp [twoAt, hck, hne]

theorem findBold_wrapB (g : List Char) (hg : g ≠ [])
    (hs : ∀ ch ∈ g, safeChar ch = true) :
    findBold (markWrap MKind.b g) = some ⟨0, g, g.length + 4⟩ := by
  have hglen : 0 < g.length := List.length_pos.mpr hg
  have hslen : (markWrap MKind.b g).length = g.length + 4 := by simp [markWrap]
  have htwo0 : twoAt '*' (markWrap MKind.b g) 0 = true := by
    simp [twoAt, charAt_wrapB]
  have htwoc : twoAt '*' (markWrap MKind.b g) (g.length + 2) = true := by
    have hc1 : charAt (markWrap MKind.b g) (g.length + 2) = some '*' := by
      rw [charAt_wrapB, if_neg (by omega), if_neg (by omega), if_pos (by omega)]
    have hc2 : charAt (markWrap MKind.b g) (g.length + 3) = some '*' := by
      rw [charAt_wrapB, if_neg (by omega), if_neg (by omega), if_pos (by omega)]
    have hgc : g.length + 2 + 1 = g.length + 3 := by omega
    simp [twoAt, hc1, hgc, hc2]
  have hclose : scanFrom
      (fun j => if twoAt '*' (markWrap MKind.b g) j then some j else none)
      3 (markWrap MKind.b g).length = some (g.length + 2) := by
    rw [hslen]
    have hfuel : g.length + 4 = (g.length - 1) + 5 := by omega
    rw [hfuel]
    rw [scanFrom_skip _ (g.length - 1) 5 3 ?hnone]
    case hnone =>
      intro k hk1 hk2
      rw [if_neg (by rw [twoAt_wrapB_mid g hs k (by omega) (by omega)]; exact Bool.false_ne_true)]
    have h32 : 3 + (g.length - 1) = g.length + 2 := by omega
    rw [h32]
    exact scanFrom_hit _ _ 4 _ (by rw [if_pos htwoc])
  have hslice : slice (markWrap MKind.b g) 2 (g.length + 2) = g := by
    show slice ('*' :: '*' :: (g ++ ['*', '*'])) 2 (g.length + 2) = g
    unfold slice
    have : ('*' :: '*' :: (g ++ ['*', '*'])).take (g.length + 2)
        = '*' :: '*' :: g := by
      simp only [List.take_succ_cons]
      rw [List.take_left]
    rw [this]
    rfl
  have hbold0 : boldAt (markWrap MKind.b g) 0 = some ⟨0, g, g.length + 4⟩ := by
    unfold boldAt
    rw [if_pos htwo0]
    have h03 : (0:Nat) + 3 = 3 := by omega
    rw [h03, hclose]
    have h22 : g.length + 2 + 2 = g.length + 4 := by omega
    show some (⟨0, slice (markWrap MKind.b g) (0 + 2) (g.length + 2), g.length + 2 + 2⟩ : PatMatch)
      = some ⟨0, g, g.length + 4⟩
    rw [h22, show (0:Nat) + 2 = 2 from rfl, hslice]
  unfold findBold
  rw [hslen]
  exact scanFrom_hit _ 0 (g.length + 4) _ hbold0

theorem mem_wrapB (g : List Char) (ch : Char) :
    ch ∈ markWrap MKind.b g ↔ ch = '*' ∨ ch ∈ g := by
  simp [markWrap]
  tauto

theorem mem_wrapU (g : List Char) (ch : Char) :
    ch ∈ markWrap MKind.u g ↔ ch = '_' ∨ ch ∈ g := by
  simp [markWrap]
  tauto

theorem mem_wrapI (g : List Char) (ch : Char) :
    ch ∈ markWrap MKind.i g ↔ ch = '*' ∨ ch ∈ g := by
  simp [markWrap]
  tauto

theorem findUnderline_wrapB (g : List Char) (hs : ∀ ch ∈ g, safeChar ch = true) :
    findUnderline (markWrap MKind.b g) = none := by
  apply findUnderline_none
  intro hmem
  rcases (mem_wrapB g '_').mp hmem with h | h
  · exact absurd h (by decide)
  · exact not_underscore_mem_of_safe g hs h

theorem loneStarAt_next (t : List Char) (i : Nat) (h : loneStarAt t i = true) :
    charAt t (i+1) ≠ some '*' := by
  have hb : ¬ (charAt t (i+1) == some '*') = true := by
    intro hb
    simp [loneStarAt, hb] at h
  simpa using hb

theorem loneStarAt_prev (t : List Char) (i : Nat) (h : loneStarAt t i = true)
    (hi : i ≠ 0) : charAt t (i-1) ≠ some '*' := by
  have hb : ¬ (charAt t (i-1) == some '*') = true := by
    intro hb
    simp [loneStarAt, hb, hi] at h
  simpa using hb

theorem findItalic_wrapB (g : List Char) (hg : g ≠ [])
    (hs : ∀ ch ∈ g, safeChar ch = true) :
    findItalic (markWrap MKind.b g) = none := by
  have hglen : 0 < g.length := List.length_pos.mpr hg
  apply scanFrom_none
  intro i _
  unfold italicAt
  rw [if_neg ?hLone]
  case hLone =>
    intro hc
    have hstar := loneStarAt_star _ i hc
    have hnext := loneStarAt_next _ i hc
    rw [charAt_wrapB] at hstar
    split_ifs at hstar with h1 h2 h3
    · have h01 : i = 0 ∨ i = 1 := by omega
      rcases h01 with h0 | h0 <;> subst h0
      · exact hnext (by rw [charAt_wrapB]; rw [if_pos (by omega)])
      · have hprev := loneStarAt_prev _ 1 hc (by omega)
        exact hprev (by rw [charAt_wrapB]; rw [if_pos (by omega)])
    · exact (safeChar_spec _ (hs _ (charAt_mem g (i-2) '*' hstar))).1 rfl
    · have hcase : i = g.length + 2 ∨ i = g.length + 3 := by omega
      rcases hcase with h4 | h4 <;> subst h4
      · refine hnext ?_
        rw [charAt_wrapB]
        rw [if_neg (by omega), if_neg (by omega), if_pos (by omega)]
      · have hprev := loneStarAt_prev _ (g.length + 3) hc (by omega)
        refine hprev ?_
        have hsub : g.length + 3 - 1 = g.length + 2 := by omega
        rw [hsub, charAt_wrapB]
        rw [if_neg (by omega), if_neg (by omega), if_pos (by omega)]

theorem twoAt_wrapU_mid (g : List Char) (hs : ∀ ch ∈ g, safeChar ch = true)
    (k : Nat) (h2 : 2 ≤ k) (h3 : k < g.length + 2) :
    twoAt '_' (markWrap MKind.u g) k = false := by
  obtain ⟨ch, hch, hmem⟩ := charAt_exists g (k-2) (by omega)
  have hck : charAt (markWrap MKind.u g) k = some ch := by
    rw [charAt_wrapU, if_neg (by omega), if_pos (by omega), hch]
  have hne : ch ≠ '_' := (safeChar_spec ch (hs ch hmem)).2.1
  simp [twoAt, hck, hne]

theorem findUnderline_wrapU (g : List Char) (hg : g ≠ [])
    (hs : ∀ ch ∈ g, safeChar ch = true) :
    findUnderline (markWrap MKind.u g) = some ⟨0, g, g.length + 4⟩ := by
  have hglen : 0 < g.length := List.length_pos.mpr hg
  have hslen : (markWrap MKind.u g).length = g.length + 4 := by simp [markWrap]
  have htwo0 : twoAt '_' (markWrap MKind.u g) 0 = true := by
    simp [twoAt, charAt_wrapU]
  have htwoc : twoAt '_' (markWrap MKind.u g) (g.length + 2) = true := by
    have hc1 : charAt (markWrap MKind.u g) (g.length + 2) = some '_' := by
      rw [charAt_wrapU, if_neg (by omega), if_neg (by omega), if_pos (by omega)]
    have hc2 : charAt (markWrap MKind.u g) (g.length + 3) = some '_' := by
      rw [charAt_wrapU, if_neg (by omega), if_neg (by omega), if_pos (by omega)]
    have hgc : g.length + 2 + 1 = g.length + 3 := by omega
    simp [twoAt, hc1, hgc, hc2]
  have hclose : scanFrom
      (fun j => if twoAt '_' (markWrap MKind.u g) j then some j else none)
      3 (markWrap MKind.u g).length = some (g.length + 2) := by
    rw [hslen]
    have hfuel : g.length + 4 = (g.length - 1) + 5 := by omega
    rw [hfuel]
    rw [scanFrom_skip _ (g.length - 1) 5 3 ?hnone]
    case hnone =>
      intro k hk1 hk2
      rw [if_neg (by rw [twoAt_wrapU_mid g hs k (by omega) (by omega)]; exact Bool.false_ne_true)]
    have h32 : 3 + (g.length - 1) = g.length + 2 := by omega
    rw [h32]
    exact scanFrom_hit _ _ 4 _ (by rw [if_pos htwoc])
  have hslice : slice (markWrap MKind.u g) 2 (g.length + 2) = g := by
    show slice ('_' :: '_' :: (g ++ ['_', '_'])) 2 (g.length + 2) = g
    unfold slice
    have : ('_' :: '_' :: (g ++ ['_', '_'])).take (g.length + 2)
        = '_' :: '_' :: g := by
      simp only [List.take_succ_cons]
      rw [List.take_left]
    rw [this]
    rfl
  have hund0 : underlineAt (markWrap MKind.u g) 0 = some ⟨0, g, g.length + 4⟩ := by
    unfold underlineAt
    rw [if_pos htwo0]
    have h03 : (0:Nat) + 3 = 3 := by omega
    rw [h03, hclose]
    have h22 : g.length + 2 + 2 = g.length + 4 := by omega
    show some (⟨0, slice (markWrap MKind.u g) (0 + 2) (g.length + 2), g.length + 2 + 2⟩ : PatMatch)
      = some ⟨0, g, g.length + 4⟩
    rw [h22, show (0:Nat) + 2 = 2 from rfl, hslice]
  unfold findUnderline
  rw [hslen]
  exact scanFrom_hit _ 0 (g.length + 4) _ hund0

theorem findBold_wrapU (g : List Char) (hs : ∀ ch ∈ g, safeChar ch = true) :
    findBold (markWrap MKind.u g) = none := by
  apply findBold_none
  intro hmem
  rcases (mem_wrapU g '*').mp hmem with h | h
  · exact absurd h (by decide)
  · exact not_star_mem_of_safe g hs h

theorem findItalic_wrapU (g : List Char) (hs : ∀ ch ∈ g, safeChar ch = true) :
    findItalic (markWrap MKind.u g) = none := by
  apply findItalic_none
  intro hmem
  rcases (mem_wrapU g '*').mp hmem with h | h
  · exact absurd h (by decide)
  · exact not_star_mem_of_safe g hs h

theorem findBold_wrapI (g : List Char) (hg : g ≠ [])
    (hs : ∀ ch ∈ g, safeChar ch = true) :
    findBold (markWrap MKind.i g) = none := by
  have hglen : 0 < g.length := List.length_pos.mpr hg
  apply scanFrom_none
  intro i _
  unfold boldAt
  rw [if_neg ?h]
  case h =>
    intro hc
    obtain ⟨hstar, hstar1⟩ := (twoAt_iff '*' _ i).mp hc
    rw [charAt_wrapI] at hstar
    split_ifs at hstar with h1 h2 h3
    · subst h1
      rw [charAt_wrapI] at hstar1
      rw [if_neg (by omega), if_pos (by omega)] at hstar1
      exact (safeChar_spec _ (hs _ (charAt_mem g _ '*' hstar1))).1 rfl
    · exact (safeChar_spec _ (hs _ (charAt_mem g _ '*' hstar))).1 rfl
    · subst h3
      rw [charAt_wrapI] at hstar1
      rw [if_neg (by omega), if_neg (by omega), if_neg (by omega)] at hstar1
      exact Option.noConfusion hstar1

theorem findUnderline_wrapI (g : List Char) (hs : ∀ ch ∈ g, safeChar ch = true) :
    findUnderline (markWrap MKind.i g) = none := by
  apply findUnderline_none
  intro hmem
  rcases (mem_wrapI g '_').mp hmem with h | h
  · exact absurd h (by decide)
  · exact not_underscore_mem_of_safe g hs h

theorem findItalic_wrapI (g : List Char) (hg : g ≠ [])
    (hs : ∀ ch ∈ g, safeChar ch = true) :
    findItalic (markWrap MKind.i g) = some ⟨0, g, g.length + 2⟩ := by
  have hglen : 0 < g.length := List.length_pos.mpr hg
  have hslen : (markWrap MKind.i g).length = g.length + 2 := by simp [markWrap]
  obtain ⟨c0, hc0, hm0⟩ := charAt_exists g 0 (by omega)
  obtain ⟨cl, hcl, hml⟩ := charAt_exists g (g.length - 1) (by omega)
  have hlone0 : loneStarAt (markWrap MKind.i g) 0 = true := by
    have h1 : charAt (markWrap MKind.i g) 0 = some '*' := by
      rw [charAt_wrapI, if_pos rfl]
    have h2 : charAt (markWrap MKind.i g) 1 = some c0 := by
      rw [charAt_wrapI, if_neg (by omega), if_pos (by omega)]
      simpa using hc0
    have hne : c0 ≠ '*' := (safeChar_spec c0 (hs c0 hm0)).1
    simp [loneStarAt, h1, h2, hne]
  have hlonec : loneStarAt (markWrap MKind.i g) (g.length + 1) = true := by
    have h1 : charAt (markWrap MKind.i g) (g.length + 1) = some '*' := by
      rw [charAt_wrapI, if_neg (by omega), if_neg (by omega), if_pos rfl]
    have h2 : charAt (markWrap MKind.i g) (g.length + 1 + 1) = none := by
      apply charAt_eq_none
      omega
    have h3 : charAt (markWrap MKind.i g) g.length = some cl := by
      rw [charAt_wrapI, if_neg (by omega), if_pos (by omega)]
      have : g.length - 1 + 1 - 1 = g.length - 1 := by omega
      simpa [this] using hcl
    have hne : cl ≠ '*' := (safeChar_spec cl (hs cl hml)).1
    simp [loneStarAt, h1, h2, h3, hne]
  have hmid : ∀ k, 2 ≤ k → k < g.length + 1 →
      loneStarAt (markWrap MKind.i g) k = false := by
    intro k hk1 hk2
    obtain ⟨ch, hch, hmem⟩ := charAt_exists g (k-1) (by omega)
    have hck : charAt (markWrap MKind.i g) k = some ch := by
      rw [charAt_wrapI, if_neg (by omega), if_pos (by omega), hch]
    have hne : ch ≠ '*' := (safeChar_spec ch (hs ch hmem)).1
    simp [loneStarAt, hck, hne]
  have hclose : scanFrom
      (fun j => if loneStarAt (markWrap MKind.i g) j then some j else none)
      2 (markWrap MKind.i g).length = some (g.length + 1) := by
    rw [hslen]
    have hfuel : g.length + 2 = (g.length - 1) + 3 := by omega
    rw [hfuel]
    rw [scanFrom_skip _ (g.length - 1) 3 2 ?hnone]
    case hnone =>
      intro k hk1 hk2
      rw [if_neg (by rw [hmid k (by omega) (by omega)]; exact Bool.false_ne_true)]
    have h21 : 2 + (g.length - 1) = g.length + 1 := by omega
    rw [h21]
    exact scanFrom_hit _ _ 2 _ (by rw [if_pos hlonec])
  have hslice : slice (markWrap MKind.i g) 1 (g.length + 1) = g := by
    show slice ('*' :: (g ++ ['*'])) 1 (g.length + 1) = g
    unfold slice
    have : ('*' :: (g ++ ['*'])).take (g.length + 1) = '*' :: g := by
      simp only [List.take_succ_cons]
      rw [List.take_left]
    rw [this]
    rfl
  have hital0 : italicAt (markWrap MKind.i g) 0 = some ⟨0, g, g.length + 2⟩ := by
    unfold italicAt
    rw [if_pos hlone0]
    have h02 : (0:Nat) + 2 = 2 := by omega
    rw [h02, hclose]
    have h11 : g.length + 1 + 1 = g.length + 2 := by omega
    show some (⟨0, slice (markWrap MKind.i g) (0 + 1) (g.length + 1), g.length + 1 + 1⟩ : PatMatch)
      = some ⟨0, g, g.length + 2⟩
    rw [h11, show (0:Nat) + 1 = 1 from rfl, hslice]
  unfold findItalic
  rw [hslen]
  exact scanFrom_hit _ 0 (g.length + 2) _ hital0

/-! ## `pickEarliest` and `addRuns` on single rendered units -/

theorem pickEarliest_only_b (t : List Char) (m : PatMatch)
    (hb : findBold t = some m) (hu : findUnderline t = none)
    (hi : findItalic t = none) : pickEarliest t = some (MKind.b, m) := by
  unfold pickEarliest candidates
  rw [hb, hu, hi]
  rfl

theorem pickEarliest_only_u (t : List Char) (m : PatMatch)
    (hb : findBold t = none) (hu : findUnderline t = some m)
    (hi : findItalic t = none) : pickEarliest t = some (MKind.u, m) := by
  unfold pickEarliest candidates
  rw [hb, hu, hi]
  rfl

theorem pickEarliest_only_i (t : List Char) (m : PatMatch)
    (hb : findBold t = none) (hu : findUnderline t = none)
    (hi : findItalic t = some m) : pickEarliest t = some (MKind.i, m) := by
  unfold pickEarliest candidates
  rw [hb, hu, hi]
  rfl

theorem pickEarliest_none_of (t : List Char)
    (hb : findBold t = none) (hu : findUnderline t = none)
    (hi : findItalic t = none) : pickEarliest t = none := by
  unfold pickEarliest candidates
  rw [hb, hu, hi]
  rfl

theorem addRuns_markWrap (k : MKind) (c : Option Rgb) (g : List Char) (hg : g ≠ [])
    (hs : ∀ ch ∈ g, safeChar ch = true) :
    addRuns c (markWrap k g) = [fmtRun k g c] := by
  have hglen : 0 < g.length := List.length_pos.mpr hg
  have hslen2 : (markWrap MKind.i g).length = g.length + 2 := by simp [markWrap]
  have hslen4b : (markWrap MKind.b g).length = g.length + 4 := by simp [markWrap]
  have hslen4u : (markWrap MKind.u g).length = g.length + 4 := by simp [markWrap]
  have hpick : pickEarliest (markWrap k g)
      = some (k, ⟨0, g, (markWrap k g).length⟩) := by
    cases k
    · rw [hslen4b]
      exact pickEarliest_only_b _ _ (findBold_wrapB g hg hs)
        (findUnderline_wrapB g hs) (findItalic_wrapB g hg hs)
    · rw [hslen4u]
      exact pickEarliest_only_u _ _ (findBold_wrapU g hs)
        (findUnderline_wrapU g hg hs) (findItalic_wrapU g hs)
    · rw [hslen2]
      exact pickEarliest_only_i _ _ (findBold_wrapI g hg hs)
        (findUnderline_wrapI g hs) (findItalic_wrapI g hg hs)
  have hne : markWrap k g ≠ [] := by
    cases k <;> simp [markWrap]
  unfold addRuns
  rw [addRunsFuel, if_neg hne, hpick]
  show (if 0 < (0:Nat) then [plainRun ((markWrap k g).take 0) c] else []) ++
      fmtRun k g c :: addRunsFuel c (markWrap k g).length
        ((markWrap k g).drop (markWrap k g).length) = [fmtRun k g c]
  rw [if_neg (by omega), List.drop_length, addRunsFuel_nil]
  rfl

theorem addRuns_plain_safe (c : Option Rgb) (g : List Char) (hg : g ≠ [])
    (hs : ∀ ch ∈ g, safeChar ch = true) :
    addRuns c g = [plainRun g c] := by
  have hpick : pickEarliest g = none :=
    pickEarliest_none_of g (findBold_none g (not_star_mem_of_safe g hs))
      (findUnderline_none g (not_underscore_mem_of_safe g hs))
      (findItalic_none g (not_star_mem_of_safe g hs))
  unfold addRuns
  rw [addRunsFuel, if_neg hg, hpick]

/-! ## Hex color parsing (`utils._hex_to_rgbcolor`, lines 309-325) -/

/-- One hexadecimal digit of `int(s, 16)`. -/
def hexDigitVal (ch : Char) : Option Nat :=
  if '0' ≤ ch ∧ ch ≤ '9' then some (ch.toNat - '0'.toNat)
  else if 'a' ≤ ch ∧ ch ≤ 'f' then some (ch.toNat - 'a'.toNat + 10)
  else if 'A' ≤ ch ∧ ch ≤ 'F' then some (ch.toNat - 'A'.toNat + 10)
  else none

/-- Python `int(s, 16)` on the two-character slices `_hex_to_rgbcolor`
    feeds it; a non-digit raises `ValueError` (`none` here). -/
def hexPair (s : List Char) : Option Nat :=
  match s with
  | [a, b] => do
    let x ← hexDigitVal a
    let y ← hexDigitVal b
    pure (16 * x + y)
  | _ => none

/-- `_hex_to_rgbcolor(hexstr)`; `none` models the raised `ValueError`
    (the error the spec calls `InvalidColorFormat`). -/
def hex_to_rgbcolor (hexstr : List Char) : Option Rgb :=
  let h := pyStrip hexstr
  if h.length ≠ 6 then none
  else do
    let r ← hexPair (slice h 0 2)
    let g ← hexPair (slice h 2 4)
    let b ← hexPair (slice h 4 6)
    pure ⟨r, g, b⟩

/-! ## DOCX extractor run rendering (`extract_text_from_docx`, lines 201-276) -/

/-- Uppercase hex digit (as `str(RGBColor)` produces). -/
def hexDigitUp (n : Nat) : Char :=
  if n < 10 then Char.ofNat ('0'.toNat + n) else Char.ofNat ('A'.toNat + n - 10)

def hexByte (n : Nat) : List Char := [hexDigitUp (n / 16), hexDigitUp (n % 16)]

/-- `str(RGBColor(r,g,b))`: six uppercase hex digits. -/
def rgbHex (c : Rgb) : List Char := hexByte c.r ++ hexByte c.g ++ hexByte c.b

/-- `get_color_tag(run)` (lines 201-227): named buckets by RGB
    thresholding, hex fallback `f"#{rgb}"`. -/
def get_color_tag (c : Option Rgb) : Option (List Char) :=
  match c with
  | none => none
  | some ⟨r, g, b⟩ =>
    if r > 200 ∧ g < 80 ∧ b < 80 then some ("red".toList)
    else if b > 200 ∧ r < 80 ∧ g < 80 then some ("blue".toList)
    else if g > 150 ∧ r < 100 then some ("green".toList)
    else if r > 200 ∧ g > 200 ∧ b < 100 then some ("yellow".toList)
    else if r > 100 ∧ g > 100 ∧ b > 100 then some ("gray".toList)
    else some ('#' :: rgbHex ⟨r, g, b⟩)

/-- Lines 253-274 of `extract_text_from_docx`: render one run back to
    markup — empty runs contribute nothing; bold, italic, underline wraps
    are applied in that order (so bold is innermost); the color tag, when a
    color is detected, wraps the whole result. -/
def renderMRun (r : MRun) : List Char :=
  if r.rtext = [] then []
  else
    match get_color_tag r.color with
    | none => styleWrapText r
    | some tag => '<' :: (tag ++ ['>'] ++ styleWrapText r ++ ('<' :: '/' :: (tag ++ ['>'])))

/-! ## Color-tag splitting (`_hex_color_tag_re` and `_process_block_into_para`) -/

def isHexDigitChar (ch : Char) : Bool := (hexDigitVal ch).isSome

/-- `</#` ++ hex ++ `>` present at position `j` (the backreference `\1`
    matches the exact open-tag hex text). -/
def colorCloseAt (t : List Char) (hex : List Char) (j : Nat) : Bool :=
  charAt t j == some '<' && charAt t (j+1) == some '/' && charAt t (j+2) == some '#' &&
    slice t (j+3) (j+9) == hex && charAt t (j+9) == some '>'

/-- Match attempt of `<#([0-9A-Fa-f]{6})>(.*?)</#\1>` (DOTALL) at start
    `i`: the open tag, then the nearest matching close tag (non-greedy
    group 2). Returns (hex, inner, end). -/
def colorTagAt (t : List Char) (i : Nat) : Option (List Char × List Char × Nat) :=
  if charAt t i == some '<' && charAt t (i+1) == some '#' &&
      slice t (i+2) (i+8) == (slice t (i+2) (i+8)) &&
      (slice t (i+2) (i+8)).length == 6 && (slice t (i+2) (i+8)).all isHexDigitChar &&
      charAt t (i+8) == some '>' then
    match scanFrom (fun j => if colorCloseAt t (slice t (i+2) (i+8)) j then some j else none)
        (i+9) (t.length + 1) with
    | some j => some (slice t (i+2) (i+8), slice t (i+9) j, j + 10)
    | none => none
  else none

/-- `_hex_color_tag_re.finditer`: leftmost match with start position. -/
def findColorTag (t : List Char) : Option (Nat × List Char × List Char × Nat) :=
  scanFrom (fun i => (colorTagAt t i).map (fun r => (i, r))) 0 (t.length + 1)

/-- The per-match loop of `_process_block_into_para` (lines 426-444):
    plain gaps are tokenized colorless; each color group's inner text is
    tokenized with the parsed color, where a parse failure is caught and
    treated as no color (`except Exception: rgb = None`). -/
def colorLoopFuel : Nat → List Char → List MRun
  | 0, _ => []
  | fuel+1, t =>
    match findColorTag t with
    | none => addRuns none t
    | some (i, hex, inner, e) =>
      (if 0 < i then addRuns none (t.take i) else []) ++
      addRuns (hex_to_rgbcolor hex) inner ++
      colorLoopFuel fuel (t.drop e)

def colorLoop (t : List Char) : List MRun := colorLoopFuel (t.length + 1) t

/-! ## Document model and the save / extract pipelines -/

/-- Paragraph styles `save_docx_text` can create (python-docx names:
    `Normal`, `List Bullet`, `List Number`, `Heading {level}`). -/
inductive PStyle
  | normal
  | listBullet
  | listNumber
  | heading (level : Nat)
deriving DecidableEq, Repr

structure DPara where
  style : PStyle
  runs : List MRun
deriving DecidableEq, Repr

/-- A word-processing document: paragraphs and tables (each table is a
    list of rows of cell texts). `save_docx_text` never creates tables, so
    reconstructed documents carry `tables = []`. -/
structure DDoc where
  paras : List DPara
  tables : List (List (List (List Char)))
deriving DecidableEq, Repr

/-- `_process_block_into_para(doc, block)` (lines 392-446). `add_heading`
    creates a `Heading {level}` paragraph with one plain run (no run when
    the text is empty). -/
def process_block_into_para (block : List Char) : DPara :=
  if block.take 1 = ['#'] then
    ⟨PStyle.heading (block.length - (block.dropWhile (· == '#')).length),
     if pyStrip (block.dropWhile (· == '#')) = [] then []
     else [plainRun (pyStrip (block.dropWhile (· == '#'))) none]⟩
  else if block.take 2 = "• ".toList then
    ⟨PStyle.listBullet, colorLoop (pyStrip (block.drop 2))⟩
  else if block.take 3 = "1. ".toList then
    ⟨PStyle.listNumber, colorLoop (pyStrip (block.drop 3))⟩
  else
    ⟨PStyle.normal, colorLoop block⟩

/-- Leftmost match of `\n\s*\n` starting at `i`: the greedy `\s*` with
    backtracking ends the separator at the LAST newline of the whitespace
    run that follows position `i`. Returns the end index of the match. -/
def lastIdxOf (c : Char) (l : List Char) : Option Nat :=
  (List.range l.length).foldl (fun acc k => if charAt l k == some c then some k else acc) none

def sepAt (t : List Char) (i : Nat) : Option Nat :=
  if charAt t i == some '\n' then
    match lastIdxOf '\n' ((t.drop (i+1)).takeWhile pyIsSpace) with
    | some k => some (i + k + 2)
    | none => none
  else none

/-- `re.split(r"\n\s*\n", text)` (fueled like the other loops). -/
def splitSepFuel : Nat → List Char → List (List Char)
  | 0, t => [t]
  | fuel+1, t =>
    match scanFrom (fun i => (sepAt t i).map (fun e => (i, e))) 0 (t.length + 1) with
    | none => [t]
    | some (i, e) => t.take i :: splitSepFuel fuel (t.drop e)

def splitBlocks (t : List Char) : List (List Char) := splitSepFuel (t.length + 1) t

/-- `save_docx_text(path, text)` (lines 448-473): split the stripped text
    on blank lines, strip each block, skip empties, and build one
    paragraph per block. -/
def save_docx_text (text : List Char) : DDoc :=
  ⟨(((splitBlocks (pyStrip text)).map pyStrip).filter (fun b => b ≠ [])).map
      process_block_into_para, []⟩

/-- `getattr(para.style, "name", "").lower()` for the styles above. -/
def styleNameLower (st : PStyle) : List Char :=
  match st with
  | .normal => "normal".toList
  | .listBullet => "list bullet".toList
  | .listNumber => "list number".toList
  | .heading n => "heading ".toList ++ Nat.toDigits 10 n

def paraText (p : DPara) : List Char := (p.runs.map MRun.rtext).flatten

def natFromDigits (s : List Char) : Nat :=
  s.foldl (fun acc ch => 10 * acc + (ch.toNat - '0'.toNat)) 0

/-- Python `in` on strings: substring containment. -/
def containsSub (needle hay : List Char) : Bool := decide (needle <:+: hay)

/-- One paragraph's line in `extract_text_from_docx` (lines 232-276);
    `none` when the paragraph is skipped (`not para.text.strip()`). -/
def paraLine (p : DPara) : Option (List Char) :=
  if pyStrip (paraText p) = [] then none
  else if (styleNameLower p.style).take 7 = "heading".toList then
    some (List.replicate
        (if (styleNameLower p.style).filter (·.isDigit) = [] then 1
         else natFromDigits ((styleNameLower p.style).filter (·.isDigit))) '#'
      ++ ' ' :: pyStrip (paraText p))
  else
    (if containsSub ("list bullet".toList) (styleNameLower p.style)
        || containsSub ("list paragraph".toList) (styleNameLower p.style) then
      some ("• ".toList ++ pyStrip ((p.runs.map renderMRun).flatten))
    else if containsSub ("list number".toList) (styleNameLower p.style) then
      some ("1. ".toList ++ pyStrip ((p.runs.map renderMRun).flatten))
    else
      some (pyStrip ((p.runs.map renderMRun).flatten)))

/-- Lines 279-283: a table contributes one `" | "`-joined line per row and
    one empty line. -/
def tableLines (table : List (List (List Char))) : List (List Char) :=
  table.map (fun row => List.intercalate " | ".toList (row.map pyStrip)) ++ [[]]

/-- `extract_text_from_docx(path)` on the document model. -/
def extract_text_from_docx (doc : DDoc) : List Char :=
  pyStrip (List.intercalate "\n\n".toList
    ((doc.paras.filterMap paraLine) ++ (doc.tables.map tableLines).flatten))

/-! ## Claims C4, C6, C8 -/

/-- C4 — Tag tokenizer segmentation: the tokenizer repeatedly takes the
earliest-starting match among bold, underline and italic (preferring bold,
then underline, then italic on exact start-position ties — second
conjunct), and in particular `"**a** and *b*"` tokenizes to exactly three
segments: bold `"a"`, plain `" and "`, italic `"b"` (first conjunct, with
the spec's two smaller examples included). -/
theorem c4_tokenizer_segmentation :
    (addRuns none ("**a** and *b*".toList) =
        [fmtRun MKind.b "a".toList none,
         plainRun " and ".toList none,
         fmtRun MKind.i "b".toList none] ∧
      addRuns none ("**bold**".toList) = [fmtRun MKind.b "bold".toList none] ∧
      addRuns none ("*x*".toList) = [fmtRun MKind.i "x".toList none]) ∧
    (∀ (t : List Char) (mb mu mi : PatMatch),
      findBold t = some mb → findUnderline t = some mu → findItalic t = some mi →
      mb.mstart ≤ mu.mstart → mb.mstart ≤ mi.mstart →
      pickEarliest t = some (MKind.b, mb)) := by
  constructor
  · exact ⟨by decide, by decide, by decide⟩
  · intro t mb mu mi hb hu hi h1 h2
    unfold pickEarliest candidates
    rw [hb, hu, hi]
    show minByStart [(MKind.b, mb), (MKind.u, mu), (MKind.i, mi)] = some (MKind.b, mb)
    have hinner : minByStart [(MKind.u, mu), (MKind.i, mi)]
        = if mu.mstart ≤ mi.mstart then some (MKind.u, mu) else some (MKind.i, mi) := by
      simp [minByStart]
    rw [minByStart, hinner]
    by_cases h3 : mu.mstart ≤ mi.mstart
    · rw [if_pos h3]
      show (if mb.mstart ≤ mu.mstart then some (MKind.b, mb) else some (MKind.u, mu))
        = some (MKind.b, mb)
      rw [if_pos h1]
    · rw [if_neg h3]
      show (if mb.mstart ≤ mi.mstart then some (MKind.b, mb) else some (MKind.i, mi))
        = some (MKind.b, mb)
      rw [if_pos h2]

theorem c4_tokenizer_segmentation_witness :
    pickEarliest ("**a**__b__*c*".toList) =
      some (MKind.b, ⟨0, "a".toList, 5⟩) :=
  c4_tokenizer_segmentation.2 ("**a**__b__*c*".toList)
    ⟨0, "a".toList, 5⟩ ⟨5, "b".toList, 10⟩ ⟨10, "c".toList, 13⟩
    (by decide) (by decide) (by decide) (by decide) (by decide)

/-- Counterexample to C6 as stated: with all three flags set and no color,
the extractor renders `__***t***__` (bold innermost), not the claimed
bold-outermost `***__t__***`. -/
theorem c6_counterexample :
    renderMRun ⟨"t".toList, true, true, true, none⟩ = "__***t***__".toList ∧
    "__***t***__".toList ≠ "***__t__***".toList := by
  decide

/-- C6 (amended) — DOCX extractor run wrapping order: for a run with bold,
italic and underline all set, the wraps are applied bold first, then
italic, then underline — inner to outer, so the bold markers are innermost
and the underline markers outermost — and the color tag (when a color is
detected) wraps the whole result. -/
theorem c6_run_wrap_order (t : List Char) (c : Option Rgb) (h : t ≠ []) :
    styleWrapText ⟨t, true, true, true, c⟩ =
      "__***".toList ++ t ++ "***__".toList ∧
    renderMRun ⟨t, true, true, true, some ⟨0, 0, 128⟩⟩ =
      "<#000080>__***".toList ++ t ++ "***__</#000080>".toList := by
  constructor
  · simp [styleWrapText]
  · rw [renderMRun, if_neg h]
    have htag : get_color_tag (some ⟨0, 0, 128⟩) = some ("#000080".toList) := by decide
    rw [htag]
    simp [styleWrapText]

theorem c6_run_wrap_order_witness :
    styleWrapText ⟨"t".toList, true, true, true, none⟩ =
      "__***".toList ++ "t".toList ++ "***__".toList ∧
    renderMRun ⟨"t".toList, true, true, true, some ⟨0, 0, 128⟩⟩ =
      "<#000080>__***".toList ++ "t".toList ++ "***__</#000080>".toList :=
  c6_run_wrap_order "t".toList none (by decide)

/-- C8 — Hex-to-color conversion and its error path: `"FF0000"` converts
to RGB(255,0,0); the malformed `"GG0000"` signals an error (`none`, the
raised `ValueError` the spec calls `InvalidColorFormat`) to the caller;
and the reconstructor's segment handler (lines 432-438: `try/except` and
`_add_runs_from_text(para, inner, color_rgb=rgb)`) treats that failure as
no color and still appends the segment's runs. -/
theorem c8_hex_color_error_path :
    hex_to_rgbcolor "FF0000".toList = some ⟨255, 0, 0⟩ ∧
    hex_to_rgbcolor "GG0000".toList = none ∧
    addRuns (hex_to_rgbcolor "GG0000".toList) "x".toList =
      [plainRun "x".toList none] := by
  refine ⟨by decide, by decide, by decide⟩

/-! ## Helper lemmas for the round-trip proof -/

theorem dropWhile_eq_self_of_head (p : Char → Bool) (t : List Char)
    (h : ∀ c, t.head? = some c → p c = false) : t.dropWhile p = t := by
  cases t with
  | nil => rfl
  | cons a l =>
    rw [List.dropWhile_cons, h a rfl]
    simp

theorem head_of_dropWhile_eq_self (p : Char → Bool) (t : List Char)
    (h : t.dropWhile p = t) : ∀ c, t.head? = some c → p c = false := by
  intro c hc
  cases t with
  | nil => exact Option.noConfusion hc
  | cons a l =>
    have ha : a = c := by simpa using hc
    subst ha
    by_contra hp
    rw [Bool.not_eq_false] at hp
    rw [List.dropWhile_cons, hp] at h
    simp only [if_true] at h
    have hle : (l.dropWhile p).length ≤ l.length := (List.dropWhile_sublist p).length_le
    have hlen := congrArg List.length h
    simp only [List.length_cons] at hlen
    omega

theorem pyStrip_eq_self_of (t : List Char)
    (hhead : ∀ c, t.head? = some c → pyIsSpace c = false)
    (hlast : ∀ c, t.getLast? = some c → pyIsSpace c = false) : pyStrip t = t := by
  unfold pyStrip
  rw [dropWhile_eq_self_of_head _ _ hhead]
  rw [dropWhile_eq_self_of_head _ _ (by
    intro c hc
    apply hlast
    rwa [← List.head?_reverse])]
  exact List.reverse_reverse t

theorem dropWhile_front_of_pyStrip (t : List Char) (h : pyStrip t = t) :
    t.dropWhile pyIsSpace = t := by
  have hlen : (pyStrip t).length = t.length := by rw [h]
  have hle1 : (((t.dropWhile pyIsSpace).reverse.dropWhile pyIsSpace)).length
      ≤ (t.dropWhile pyIsSpace).reverse.length :=
    (List.dropWhile_sublist pyIsSpace).length_le
  have hle2 : (t.dropWhile pyIsSpace).length ≤ t.length :=
    (List.dropWhile_sublist pyIsSpace).length_le
  unfold pyStrip at hlen
  simp only [List.length_reverse] at hlen hle1
  exact (List.dropWhile_sublist pyIsSpace).eq_of_length (by omega)

theorem pyStrip_head (t : List Char) (ht : t ≠ []) (h : pyStrip t = t) :
    ∀ c, t.head? = some c → pyIsSpace c = false :=
  head_of_dropWhile_eq_self _ _ (dropWhile_front_of_pyStrip t h)

theorem pyStrip_last (t : List Char) (ht : t ≠ []) (h : pyStrip t = t) :
    ∀ c, t.getLast? = some c → pyIsSpace c = false := by
  have h1 := dropWhile_front_of_pyStrip t h
  have h2 : (t.reverse.dropWhile pyIsSpace).reverse = t := by
    conv_rhs => rw [← h]
    unfold pyStrip
    rw [h1]
  have h3 : t.reverse.dropWhile pyIsSpace = t.reverse := by
    have := congrArg List.reverse h2
    rwa [List.reverse_reverse] at this
  intro c hc
  apply head_of_dropWhile_eq_self _ _ h3
  rwa [List.head?_reverse]

theorem charAt_append_off (A rest : List Char) (k : Nat) :
    charAt (A ++ rest) (A.length + k) = charAt rest k := by
  rw [charAt_append_ge A rest _ (by omega)]
  congr 1
  omega

theorem slice_of_append (A B C : List Char) :
    slice (A ++ (B ++ C)) A.length (A.length + B.length) = B := by
  unfold slice
  rw [List.take_append_eq_append_take]
  rw [List.take_all_of_le (by omega)]
  have h1 : A.length + B.length - A.length = B.length := by omega
  rw [h1, List.take_append_eq_append_take, List.take_all_of_le (by omega)]
  simp only [Nat.sub_self, List.take_zero, List.append_nil]
  exact List.drop_left A B

/-! ## Colorless rendering of tokenizer output -/

theorem addRunsFuel_color (c : Option Rgb) :
    ∀ fuel t r, r ∈ addRunsFuel c fuel t → r.color = c := by
  intro fuel
  induction fuel with
  | zero => intro t r hr; exact absurd hr (List.not_mem_nil r)
  | succ fuel ih =>
    intro t r hr
    rw [addRunsFuel] at hr
    by_cases ht : t = []
    · rw [if_pos ht] at hr
      exact absurd hr (List.not_mem_nil r)
    rw [if_neg ht] at hr
    cases hp : pickEarliest t with
    | none =>
      rw [hp] at hr
      have : r = plainRun t c := by simpa using hr
      rw [this]
      rfl
    | some km =>
      obtain ⟨k, m⟩ := km
      rw [hp] at hr
      have hr2 : r ∈ (if 0 < m.mstart then [plainRun (t.take m.mstart) c] else []) ++
          fmtRun k m.group c :: addRunsFuel c fuel (t.drop m.mend) := hr
      rcases List.mem_append.mp hr2 with h1 | h1
      · by_cases hms : 0 < m.mstart
        · rw [if_pos hms] at h1
          have : r = plainRun (t.take m.mstart) c := by simpa using h1
          rw [this]
          rfl
        · rw [if_neg hms] at h1
          exact absurd h1 (List.not_mem_nil r)
      · rcases List.mem_cons.mp h1 with h2 | h2
        · rw [h2]
          cases k <;> rfl
        · exact ih _ r h2

theorem addRunsFuel_ne_nil (c : Option Rgb) :
    ∀ fuel t r, r ∈ addRunsFuel c fuel t → r.rtext ≠ [] := by
  intro fuel
  induction fuel with
  | zero => intro t r hr; exact absurd hr (List.not_mem_nil r)
  | succ fuel ih =>
    intro t r hr
    rw [addRunsFuel] at hr
    by_cases ht : t = []
    · rw [if_pos ht] at hr
      exact absurd hr (List.not_mem_nil r)
    rw [if_neg ht] at hr
    cases hp : pickEarliest t with
    | none =>
      rw [hp] at hr
      have : r = plainRun t c := by simpa using hr
      rw [this]
      exact ht
    | some km =>
      obtain ⟨k, m⟩ := km
      obtain ⟨hshape, hg, hlt⟩ := pickEarliest_shape t k m hp
      rw [hp] at hr
      have hr2 : r ∈ (if 0 < m.mstart then [plainRun (t.take m.mstart) c] else []) ++
          fmtRun k m.group c :: addRunsFuel c fuel (t.drop m.mend) := hr
      rcases List.mem_append.mp hr2 with h1 | h1
      · by_cases hms : 0 < m.mstart
        · rw [if_pos hms] at h1
          have hre : r = plainRun (t.take m.mstart) c := by simpa using h1
          rw [hre]
          show t.take m.mstart ≠ []
          simp only [ne_eq, List.take_eq_nil_iff, not_or]
          exact ⟨by omega, ht⟩
        · rw [if_neg hms] at h1
          exact absurd h1 (List.not_mem_nil r)
      · rcases List.mem_cons.mp h1 with h2 | h2
        · rw [h2]
          show (fmtRun k m.group c).rtext ≠ []
          cases k <;> exact hg
        · exact ih _ r h2

/-- For colorless nonempty runs, `renderMRun` is just the style wrap. -/
theorem renderMRun_no_color (r : MRun) (h1 : r.rtext ≠ []) (h2 : r.color = none) :
    renderMRun r = styleWrapText r := by
  rw [renderMRun, if_neg h1, h2]
  rfl

/-- Rendering the runs of a colorless tokenization reproduces the text. -/
theorem renderMRun_addRuns_none (t : List Char) :
    ((addRuns none t).map renderMRun).flatten = t := by
  have hmap : (addRuns none t).map renderMRun = (addRuns none t).map styleWrapText := by
    apply List.map_congr_left
    intro r hr
    exact renderMRun_no_color r (addRunsFuel_ne_nil none _ t r hr)
      (addRunsFuel_color none _ t r hr)
  rw [hmap]
  exact addRuns_render none t

/-! ## C1 grammar: DOCX-extraction-image markup -/

/-- One inline unit: one run's text with at most one style marker, exactly
    as the DOCX extractor emits a run (`none` = plain). -/
structure GUnit where
  kind : Option MKind
  utext : List Char
deriving DecidableEq, Repr

def renderGUnit (u : GUnit) : List Char :=
  match u.kind with
  | none => u.utext
  | some k => markWrap k u.utext

def tagOpen (h : List Char) : List Char := '<' :: '#' :: (h ++ ['>'])

def tagClose (h : List Char) : List Char := '<' :: '/' :: '#' :: (h ++ ['>'])

/-- One extracted item: a unit, optionally wrapped in its own hex color
    tag (the extractor wraps each run separately). -/
structure GItem where
  unit : GUnit
  hex : Option (List Char)
deriving DecidableEq, Repr

def renderGItem (it : GItem) : List Char :=
  match it.hex with
  | none => renderGUnit it.unit
  | some h => tagOpen h ++ (renderGUnit it.unit ++ tagClose h)

def renderInline (items : List GItem) : List Char := (items.map renderGItem).flatten

inductive GBlock
  | heading (level : Nat) (text : List Char)
  | bullet (items : List GItem)
  | numbered (items : List GItem)
  | par (items : List GItem)
deriving DecidableEq, Repr

def renderGBlock (b : GBlock) : List Char :=
  match b with
  | .heading n t => List.replicate n '#' ++ ' ' :: t
  | .bullet its => "• ".toList ++ renderInline its
  | .numbered its => "1. ".toList ++ renderInline its
  | .par its => renderInline its

def renderGDoc (blocks : List GBlock) : List Char :=
  List.intercalate "\n\n".toList (blocks.map renderGBlock)

/-- Unit texts: nonempty, free of marker/tag/newline characters, and with
    at least one non-whitespace character. -/
def textOK (g : List Char) : Bool :=
  !g.isEmpty && g.all safeChar && g.any (fun ch => !pyIsSpace ch)

/-- Hex values as extraction emits them: 6 hex digits that parse to an RGB
    triple whose color tag is exactly `#` ++ the same 6 digits (uppercase,
    outside every named-color bucket). -/
def hexOK (h : List Char) : Bool :=
  h.length == 6 && h.all isHexDigitChar &&
    (match hex_to_rgbcolor h with
     | some rgb => get_color_tag (some rgb) == some ('#' :: h)
     | none => false)

def itemOK (it : GItem) : Bool :=
  textOK it.unit.utext &&
    (match it.hex with
     | none => true
     | some h => hexOK h)

def stripInvB (s : List Char) : Bool := pyStrip s == s

def blockOK (b : GBlock) : Bool :=
  match b with
  | .heading n t =>
      decide (1 ≤ n) && decide (n ≤ 9) && !t.isEmpty &&
        t.all (fun ch => ch != '\n') && stripInvB t
  | .bullet its => !its.isEmpty && its.all itemOK && stripInvB (renderInline its)
  | .numbered its => !its.isEmpty && its.all itemOK && stripInvB (renderInline its)
  | .par its =>
      !its.isEmpty && its.all itemOK && stripInvB (renderInline its) &&
        !((renderInline its).take 1 == ['#']) &&
        !((renderInline its).take 2 == "• ".toList) &&
        !((renderInline its).take 3 == "1. ".toList)

def docOK (blocks : List GBlock) : Bool := blocks.all blockOK

/-! ## Structural facts about rendered markup -/

theorem textOK_spec (g : List Char) (h : textOK g = true) :
    g ≠ [] ∧ (∀ ch ∈ g, safeChar ch = true) ∧ ∃ ch ∈ g, pyIsSpace ch = false := by
  unfold textOK at h
  rw [Bool.and_eq_true, Bool.and_eq_true] at h
  obtain ⟨⟨h1, h2⟩, h3⟩ := h
  refine ⟨?_, List.all_eq_true.mp h2, ?_⟩
  · intro hnil
    rw [hnil] at h1
    exact absurd h1 (by decide)
  · obtain ⟨ch, hm, hs⟩ := List.any_eq_true.mp h3
    exact ⟨ch, hm, by simpa using hs⟩

theorem hexOK_spec (h : List Char) (hh : hexOK h = true) :
    h.length = 6 ∧ (∀ ch ∈ h, isHexDigitChar ch = true) ∧
      ∃ rgb, hex_to_rgbcolor h = some rgb ∧
        get_color_tag (some rgb) = some ('#' :: h) := by
  unfold hexOK at hh
  rw [Bool.and_eq_true, Bool.and_eq_true] at hh
  obtain ⟨⟨h1, h2⟩, h3⟩ := hh
  refine ⟨by simpa using h1, List.all_eq_true.mp h2, ?_⟩
  cases hc : hex_to_rgbcolor h with
  | none => rw [hc] at h3; exact absurd h3 (by simp)
  | some rgb =>
    rw [hc] at h3
    exact ⟨rgb, rfl, by simpa using h3⟩

theorem mem_renderGUnit (u : GUnit) (ch : Char) (h : ch ∈ renderGUnit u) :
    ch ∈ u.utext ∨ ch = '*' ∨ ch = '_' := by
  cases hk : u.kind with
  | none => rw [renderGUnit, hk] at h; exact Or.inl h
  | some k =>
    rw [renderGUnit, hk] at h
    cases k <;> simp [markWrap] at h <;> tauto

theorem mem_renderGItem (it : GItem) (ch : Char) (h : ch ∈ renderGItem it) :
    ch ∈ renderGUnit it.unit ∨
      ∃ hx, it.hex = some hx ∧ (ch ∈ hx ∨ ch = '<' ∨ ch = '#' ∨ ch = '>' ∨ ch = '/') := by
  cases hk : it.hex with
  | none => rw [renderGItem, hk] at h; exact Or.inl h
  | some hx =>
    rw [renderGItem, hk] at h
    by_cases hu : ch ∈ renderGUnit it.unit
    · exact Or.inl hu
    · refine Or.inr ⟨hx, rfl, ?_⟩
      simp only [tagOpen, tagClose, List.mem_append, List.mem_cons,
        List.not_mem_nil, or_false] at h
      tauto

theorem mem_renderInline (items : List GItem) (ch : Char) (h : ch ∈ renderInline items) :
    ∃ it ∈ items, ch ∈ renderGItem it := by
  unfold renderInline at h
  rw [List.mem_flatten] at h
  obtain ⟨l, hl, hch⟩ := h
  rw [List.mem_map] at hl
  obtain ⟨it, hit, rfl⟩ := hl
  exact ⟨it, hit, hch⟩

theorem isHexDigitChar_spec (ch : Char) (h : isHexDigitChar ch = true) :
    ch ≠ '\n' ∧ ch ≠ '<' ∧ ch ≠ '>' ∧ ch ≠ '#' ∧ ch ≠ '/' ∧ ch ≠ '*' ∧ ch ≠ '_' ∧
      pyIsSpace ch = false := by
  refine ⟨?_, ?_, ?_, ?_, ?_, ?_, ?_, ?_⟩
  · intro hc; rw [hc] at h; exact absurd h (by decide)
  · intro hc; rw [hc] at h; exact absurd h (by decide)
  · intro hc; rw [hc] at h; exact absurd h (by decide)
  · intro hc; rw [hc] at h; exact absurd h (by decide)
  · intro hc; rw [hc] at h; exact absurd h (by decide)
  · intro hc; rw [hc] at h; exact absurd h (by decide)
  · intro hc; rw [hc] at h; exact absurd h (by decide)
  · by_contra hsp
    rw [Bool.not_eq_false] at hsp
    simp only [pyIsSpace, Bool.or_eq_true, beq_iff_eq] at hsp
    rcases hsp with ((((hc | hc) | hc) | hc) | hc) | hc <;> rw [hc] at h <;>
      exact absurd h (by decide)

theorem itemOK_spec (it : GItem) (h : itemOK it = true) :
    textOK it.unit.utext = true ∧ ∀ hx, it.hex = some hx → hexOK hx = true := by
  unfold itemOK at h
  rw [Bool.and_eq_true] at h
  refine ⟨h.1, ?_⟩
  intro hx hhx
  have := h.2
  rw [hhx] at this
  exact this

theorem renderGUnit_ne_nil (u : GUnit) (ht : textOK u.utext = true) :
    renderGUnit u ≠ [] := by
  obtain ⟨h1, _, _⟩ := textOK_spec _ ht
  cases hk : u.kind with
  | none => rw [renderGUnit, hk]; exact h1
  | some k => rw [renderGUnit, hk]; cases k <;> simp [markWrap]

theorem renderGItem_ne_nil (it : GItem) (h : itemOK it = true) :
    renderGItem it ≠ [] := by
  obtain ⟨ht, _⟩ := itemOK_spec it h
  cases hk : it.hex with
  | none => rw [renderGItem, hk]; exact renderGUnit_ne_nil _ ht
  | some hx => rw [renderGItem, hk]; simp [tagOpen]

theorem renderGItem_no_newline (it : GItem) (h : itemOK it = true) :
    ∀ ch ∈ renderGItem it, ch ≠ '\n' := by
  obtain ⟨ht, hhex⟩ := itemOK_spec it h
  obtain ⟨_, hsafe, _⟩ := textOK_spec _ ht
  intro ch hch
  rcases mem_renderGItem it ch hch with hu | ⟨hx, hhx, hcase⟩
  · rcases mem_renderGUnit _ ch hu with h1 | h1 | h1
    · exact (safeChar_spec ch (hsafe ch h1)).2.2.2
    · rw [h1]; decide
    · rw [h1]; decide
  · rcases hcase with h1 | h1 | h1 | h1 | h1
    · obtain ⟨_, hdig, _⟩ := hexOK_spec hx (hhex hx hhx)
      exact (isHexDigitChar_spec ch (hdig ch h1)).1
    all_goals (rw [h1]; decide)

theorem renderInline_facts (items : List GItem) (hne : items ≠ [])
    (hall : ∀ it ∈ items, itemOK it = true) :
    renderInline items ≠ [] ∧ ∀ ch ∈ renderInline items, ch ≠ '\n' := by
  constructor
  · cases items with
    | nil => exact absurd rfl hne
    | cons it rest =>
      have h1 := renderGItem_ne_nil it (hall it (List.mem_cons_self it rest))
      unfold renderInline
      simp only [List.map_cons, List.flatten_cons, ne_eq, List.append_eq_nil, not_and]
      intro hc
      exact absurd hc h1
  · intro ch hch
    obtain ⟨it, hit, hchit⟩ := mem_renderInline items ch hch
    exact renderGItem_no_newline it (hall it hit) ch hchit

theorem blockOK_heading_spec (n : Nat) (t : List Char)
    (h : blockOK (GBlock.heading n t) = true) :
    1 ≤ n ∧ n ≤ 9 ∧ t ≠ [] ∧ (∀ ch ∈ t, ch ≠ '\n') ∧ pyStrip t = t := by
  unfold blockOK at h
  rw [Bool.and_eq_true, Bool.and_eq_true, Bool.and_eq_true, Bool.and_eq_true] at h
  obtain ⟨⟨⟨⟨h1, h2⟩, h3⟩, h4⟩, h5⟩ := h
  refine ⟨of_decide_eq_true h1, of_decide_eq_true h2, ?_, ?_, by simpa [stripInvB] using h5⟩
  · intro hnil
    rw [hnil] at h3
    exact absurd h3 (by decide)
  · intro ch hch
    have := List.all_eq_true.mp h4 ch hch
    simpa using this

theorem blockOK_inline_spec (its : List GItem) (b : GBlock)
    (hb : b = GBlock.bullet its ∨ b = GBlock.numbered its ∨ b = GBlock.par its)
    (h : blockOK b = true) :
    its ≠ [] ∧ (∀ it ∈ its, itemOK it = true) ∧
      pyStrip (renderInline its) = renderInline its := by
  have hcore : (!its.isEmpty && its.all itemOK && stripInvB (renderInline its)) = true := by
    rcases hb with rfl | rfl | rfl
    · exact h
    · exact h
    · unfold blockOK at h
      rw [Bool.and_eq_true, Bool.and_eq_true, Bool.and_eq_true] at h
      exact h.1.1.1
  rw [Bool.and_eq_true, Bool.and_eq_true] at hcore
  obtain ⟨⟨h1, h2⟩, h3⟩ := hcore
  refine ⟨?_, List.all_eq_true.mp h2, by simpa [stripInvB] using h3⟩
  intro hnil
  rw [hnil] at h1
  exact absurd h1 (by decide)

theorem renderGBlock_facts (b : GBlock) (h : blockOK b = true) :
    renderGBlock b ≠ [] ∧ (∀ ch ∈ renderGBlock b, ch ≠ '\n') ∧
      pyStrip (renderGBlock b) = renderGBlock b := by
  cases b with
  | heading n t =>
    obtain ⟨h1, h2, h3, h4, h5⟩ := blockOK_heading_spec n t h
    have hrender : renderGBlock (GBlock.heading n t)
        = List.replicate n '#' ++ ' ' :: t := rfl
    have hrep_ne : List.replicate n '#' ≠ [] := by
      intro hc
      have := congrArg List.length hc
      simp at this
      omega
    refine ⟨?_, ?_, ?_⟩
    · rw [hrender]
      simp only [ne_eq, List.append_eq_nil, not_and]
      intro hc
      exact absurd hc hrep_ne
    · intro ch hch
      rw [hrender] at hch
      rcases List.mem_append.mp hch with hc | hc
      · rw [List.eq_of_mem_replicate hc]
        decide
      · rcases List.mem_cons.mp hc with hc2 | hc2
        · rw [hc2]; decide
        · exact h4 ch hc2
    · rw [hrender]
      apply pyStrip_eq_self_of
      · intro c hc
        rw [List.head?_append_of_ne_nil _ hrep_ne] at hc
        obtain ⟨m, rfl⟩ : ∃ m, n = m + 1 := ⟨n - 1, by omega⟩
        rw [List.replicate_succ] at hc
        rw [← Option.some.inj hc]
        decide
      · intro c hc
        rw [List.getLast?_append_of_ne_nil _ (by simp)] at hc
        rw [← List.singleton_append, List.getLast?_append_of_ne_nil _ h3] at hc
        exact pyStrip_last t h3 h5 c hc
  | bullet its =>
    obtain ⟨h1, h2, h3⟩ := blockOK_inline_spec its _ (Or.inl rfl) h
    obtain ⟨hne, hnl⟩ := renderInline_facts its h1 h2
    have hrender : renderGBlock (GBlock.bullet its)
        = "• ".toList ++ renderInline its := rfl
    refine ⟨?_, ?_, ?_⟩
    · rw [hrender]
      simp
    · intro ch hch
      rw [hrender] at hch
      rcases List.mem_append.mp hch with hc | hc
      · rcases (by simpa using hc : ch = '•' ∨ ch = ' ') with hc2 | hc2 <;>
          (rw [hc2]; decide)
      · exact hnl ch hc
    · rw [hrender]
      apply pyStrip_eq_self_of
      · intro c hc
        rw [List.head?_append_of_ne_nil _ (by decide)] at hc
        have : c = '•' := by
          have := Option.some.inj hc
          exact this.symm
        rw [this]
        decide
      · intro c hc
        rw [List.getLast?_append_of_ne_nil _ hne] at hc
        exact pyStrip_last _ hne h3 c hc
  | numbered its =>
    obtain ⟨h1, h2, h3⟩ := blockOK_inline_spec its _ (Or.inr (Or.inl rfl)) h
    obtain ⟨hne, hnl⟩ := renderInline_facts its h1 h2
    have hrender : renderGBlock (GBlock.numbered its)
        = "1. ".toList ++ renderInline its := rfl
    refine ⟨?_, ?_, ?_⟩
    · rw [hrender]
      simp
    · intro ch hch
      rw [hrender] at hch
      rcases List.mem_append.mp hch with hc | hc
      · rcases (by simpa using hc : ch = '1' ∨ ch = '.' ∨ ch = ' ') with hc2 | hc2 | hc2 <;>
          (rw [hc2]; decide)
      · exact hnl ch hc
    · rw [hrender]
      apply pyStrip_eq_self_of
      · intro c hc
        rw [List.head?_append_of_ne_nil _ (by decide)] at hc
        have : c = '1' := by
          have := Option.some.inj hc
          exact this.symm
        rw [this]
        decide
      · intro c hc
        rw [List.getLast?_append_of_ne_nil _ hne] at hc
        exact pyStrip_last _ hne h3 c hc
  | par its =>
    obtain ⟨h1, h2, h3⟩ := blockOK_inline_spec its _ (Or.inr (Or.inr rfl)) h
    obtain ⟨hne, hnl⟩ := renderInline_facts its h1 h2
    exact ⟨hne, hnl, h3⟩

/-! ## Behavior of the color-tag finder on rendered inline markup -/

theorem findColorTag_none (t : List Char) (h : '<' ∉ t) : findColorTag t = none := by
  apply scanFrom_none
  intro k _
  have hA : (charAt t k == some '<') = false := by
    cases hc : charAt t k with
    | none => rfl
    | some c =>
      have hne : c ≠ '<' := fun hcc => h (hcc ▸ charAt_mem t k c hc)
      simpa using hne
  unfold colorTagAt
  rw [if_neg (by simp only [hA, Bool.false_and]; exact Bool.false_ne_true)]
  rfl

theorem renderGUnit_no_lt (u : GUnit) (htext : textOK u.utext = true) :
    '<' ∉ renderGUnit u := by
  obtain ⟨_, hsafe, _⟩ := textOK_spec _ htext
  intro hmem
  rcases mem_renderGUnit u '<' hmem with h1 | h1 | h1
  · exact not_lt_mem_of_safe _ hsafe h1
  · exact absurd h1 (by decide)
  · exact absurd h1 (by decide)

/-- The uncolored prefix of an item list renders without `<`. -/
theorem renderInline_uncolored_no_lt (items : List GItem)
    (hOK : ∀ it ∈ items, itemOK it = true)
    (huncol : ∀ it ∈ items, it.hex = none) : '<' ∉ renderInline items := by
  intro hmem
  obtain ⟨it, hit, hchit⟩ := mem_renderInline items '<' hmem
  rw [renderGItem, huncol it hit] at hchit
  exact renderGUnit_no_lt it.unit (itemOK_spec it (hOK it hit)).1 hchit

theorem findColorTag_at_gap (gap hx inner rest : List Char)
    (hgap : '<' ∉ gap) (hinner : '<' ∉ inner)
    (hlen : hx.length = 6) (hdig : ∀ ch ∈ hx, isHexDigitChar ch = true) :
    findColorTag (gap ++ (tagOpen hx ++ (inner ++ (tagClose hx ++ rest))))
      = some (gap.length, hx, inner, gap.length + 9 + inner.length + 10) := by
  set s := gap ++ (tagOpen hx ++ (inner ++ (tagClose hx ++ rest))) with hsdef
  have hopenlen : (tagOpen hx).length = 9 := by simp [tagOpen, hlen]
  have hcloselen : (tagClose hx).length = 10 := by simp [tagClose, hlen]
  have hslen : s.length = gap.length + 9 + inner.length + (10 + rest.length) := by
    simp only [hsdef, List.length_append, hopenlen, hcloselen]
    omega
  -- open-tag character facts at offset gap.length
  have hc0 : charAt s gap.length = some '<' := by
    have h := charAt_append_off gap (tagOpen hx ++ (inner ++ (tagClose hx ++ rest))) 0
    rw [← hsdef, Nat.add_zero] at h
    rw [h]
    rfl
  have hc1 : charAt s (gap.length + 1) = some '#' := by
    have h := charAt_append_off gap (tagOpen hx ++ (inner ++ (tagClose hx ++ rest))) 1
    rw [← hsdef] at h
    rw [h]
    simp [charAt, tagOpen]
  have hslice8 : slice s (gap.length + 2) (gap.length + 8) = hx := by
    have hsA : s = (gap ++ ['<', '#']) ++
        (hx ++ ('>' :: (inner ++ (tagClose hx ++ rest)))) := by
      simp [hsdef, tagOpen]
    have h := slice_of_append (gap ++ ['<', '#']) hx
      ('>' :: (inner ++ (tagClose hx ++ rest)))
    rw [← hsA] at h
    have hAlen : (gap ++ ['<', '#']).length = gap.length + 2 := by simp
    rw [hAlen, hlen] at h
    have he : gap.length + 2 + 6 = gap.length + 8 := by omega
    rw [he] at h
    exact h
  have hc8 : charAt s (gap.length + 8) = some '>' := by
    have hsB : s = ((gap ++ ['<', '#']) ++ hx) ++
        ('>' :: (inner ++ (tagClose hx ++ rest))) := by
      simp [hsdef, tagOpen]
    have h := charAt_append_off ((gap ++ ['<', '#']) ++ hx)
      ('>' :: (inner ++ (tagClose hx ++ rest))) 0
    rw [← hsB, Nat.add_zero] at h
    have hBlen : ((gap ++ ['<', '#']) ++ hx).length = gap.length + 8 := by
      simp [hlen]
    rw [hBlen] at h
    rw [h]
    exact charAt_cons_zero _ _
  -- close-tag character facts at offset jc = gap.length + 9 + inner.length
  have hsC : s = (gap ++ tagOpen hx) ++ (inner ++ (tagClose hx ++ rest)) := by
    simp [hsdef]
  have hClen : (gap ++ tagOpen hx).length = gap.length + 9 := by
    simp [hopenlen]
  have hsD : s = ((gap ++ tagOpen hx) ++ inner) ++ (tagClose hx ++ rest) := by
    simp [hsdef]
  have hDlen : ((gap ++ tagOpen hx) ++ inner).length = gap.length + 9 + inner.length := by
    simp [hopenlen]
    omega
  have hmidchar : ∀ k, k < inner.length →
      charAt s (gap.length + 9 + k) = charAt inner k := by
    intro k hk
    have h := charAt_append_off (gap ++ tagOpen hx) (inner ++ (tagClose hx ++ rest)) k
    rw [← hsC, hClen] at h
    rw [h, charAt_append_lt inner _ k hk]
  have hd0 : charAt s (gap.length + 9 + inner.length) = some '<' := by
    have h := charAt_append_off ((gap ++ tagOpen hx) ++ inner) (tagClose hx ++ rest) 0
    rw [← hsD, Nat.add_zero, hDlen] at h
    rw [h]
    simp [charAt, tagClose]
  have hd1 : charAt s (gap.length + 9 + inner.length + 1) = some '/' := by
    have h := charAt_append_off ((gap ++ tagOpen hx) ++ inner) (tagClose hx ++ rest) 1
    rw [← hsD, hDlen] at h
    rw [h]
    simp [charAt, tagClose]
  have hd2 : charAt s (gap.length + 9 + inner.length + 2) = some '#' := by
    have h := charAt_append_off ((gap ++ tagOpen hx) ++ inner) (tagClose hx ++ rest) 2
    rw [← hsD, hDlen] at h
    rw [h]
    simp [charAt, tagClose]
  have hdslice : slice s (gap.length + 9 + inner.length + 3)
      (gap.length + 9 + inner.length + 9) = hx := by
    have hsE : s = (((gap ++ tagOpen hx) ++ inner) ++ ['<', '/', '#']) ++
        (hx ++ ('>' :: rest)) := by
      simp [hsdef, tagClose]
    have h := slice_of_append (((gap ++ tagOpen hx) ++ inner) ++ ['<', '/', '#']) hx
      ('>' :: rest)
    rw [← hsE] at h
    have hElen : (((gap ++ tagOpen hx) ++ inner) ++ ['<', '/', '#']).length
        = gap.length + 9 + inner.length + 3 := by
      simp [hopenlen]
      omega
    rw [hElen, hlen] at h
    have he : gap.length + 9 + inner.length + 3 + 6
        = gap.length + 9 + inner.length + 9 := by omega
    rw [he] at h
    exact h
  have hd9 : charAt s (gap.length + 9 + inner.length + 9) = some '>' := by
    have hsF : s = ((((gap ++ tagOpen hx) ++ inner) ++ ['<', '/', '#']) ++ hx) ++
        ('>' :: rest) := by
      simp [hsdef, tagClose]
    have h := charAt_append_off ((((gap ++ tagOpen hx) ++ inner) ++ ['<', '/', '#']) ++ hx)
      ('>' :: rest) 0
    rw [← hsF, Nat.add_zero] at h
    have hFlen : (((((gap ++ tagOpen hx) ++ inner) ++ ['<', '/', '#'])) ++ hx).length
        = gap.length + 9 + inner.length + 9 := by
      simp [hopenlen, hlen]
      omega
    rw [hFlen] at h
    rw [h]
    exact charAt_cons_zero _ _
  -- the close test succeeds exactly at jc
  have hcloseTrue : colorCloseAt s hx (gap.length + 9 + inner.length) = true := by
    unfold colorCloseAt
    rw [hd0, hd1, hd2, hdslice, hd9]
    simp
  have hcloseMid : ∀ k, gap.length + 9 ≤ k → k < gap.length + 9 + inner.length →
      colorCloseAt s hx k = false := by
    intro k hk1 hk2
    obtain ⟨ch, hch, hchmem⟩ := charAt_exists inner (k - (gap.length + 9)) (by omega)
    have hck : charAt s k = some ch := by
      have h := hmidchar (k - (gap.length + 9)) (by omega)
      have he : gap.length + 9 + (k - (gap.length + 9)) = k := by omega
      rw [he] at h
      rw [h, hch]
    have hne : ch ≠ '<' := fun hcc => hinner (hcc ▸ hchmem)
    unfold colorCloseAt
    rw [hck]
    simp [hne]
  -- close scan
  have hclosescan : scanFrom (fun j => if colorCloseAt s hx j then some j else none)
      (gap.length + 9) (s.length + 1) = some (gap.length + 9 + inner.length) := by
    have hfuel : s.length + 1 = inner.length + (gap.length + 20 + rest.length) := by
      omega
    rw [hfuel]
    rw [scanFrom_skip _ inner.length (gap.length + 20 + rest.length) (gap.length + 9) ?hmid]
    case hmid =>
      intro k hk1 hk2
      rw [if_neg (by rw [hcloseMid k hk1 (by omega)]; exact Bool.false_ne_true)]
    have hfuel2 : gap.length + 20 + rest.length = (gap.length + 19 + rest.length) + 1 := by
      omega
    rw [hfuel2]
    exact scanFrom_hit _ _ _ _ (by rw [if_pos hcloseTrue])
  -- the open-tag attempt at gap.length succeeds
  have hopenAt : colorTagAt s gap.length = some (hx, inner, gap.length + 9 + inner.length + 10) := by
    unfold colorTagAt
    have hg2 : gap.length + 2 = gap.length + 2 := rfl
    rw [if_pos ?hguard]
    case hguard =>
      rw [hc0, hc1, hslice8, hc8]
      simp only [beq_self_eq_true, Bool.and_true, Bool.true_and, Bool.and_self]
      rw [hlen]
      simp only [beq_self_eq_true, Bool.true_and, Bool.and_true]
      exact List.all_eq_true.mpr hdig
    rw [hslice8, hclosescan]
    have hinner9 : slice s (gap.length + 9) (gap.length + 9 + inner.length) = inner := by
      have h := slice_of_append (gap ++ tagOpen hx) inner (tagClose hx ++ rest)
      rw [← hsC, hClen] at h
      exact h
    show some (hx, slice s (gap.length + 9) (gap.length + 9 + inner.length),
        gap.length + 9 + inner.length + 10) = _
    rw [hinner9]
  -- positions before gap.length fail
  have hpre : ∀ i, i < gap.length → colorTagAt s i = none := by
    intro i hi
    obtain ⟨ch, hch, hchmem⟩ := charAt_exists gap i hi
    have hci : charAt s i = some ch := by
      rw [hsdef, charAt_append_lt gap _ i hi, hch]
    have hne : ch ≠ '<' := fun hcc => hgap (hcc ▸ hchmem)
    unfold colorTagAt
    rw [if_neg ?hng]
    case hng =>
      rw [hci]
      simp [hne]
  -- assemble the leftmost scan
  unfold findColorTag
  have hfuel : s.length + 1 = gap.length + (9 + inner.length + 11 + rest.length) := by
    omega
  rw [hfuel]
  rw [scanFrom_skip _ gap.length (9 + inner.length + 11 + rest.length) 0 ?hpre2]
  case hpre2 =>
    intro k hk1 hk2
    rw [hpre k (by omega)]
    rfl
  have hfuel2 : 9 + inner.length + 11 + rest.length
      = (8 + inner.length + 11 + rest.length) + 1 := by omega
  rw [Nat.zero_add, hfuel2]
  exact scanFrom_hit _ _ _ _ (by rw [hopenAt]; rfl)

/-! ## colorLoop reproduces rendered inline markup -/

/-- Split an item list at its first color-tagged item. -/
def splitAtColored : List GItem → List GItem × Option (GItem × List GItem)
  | [] => ([], none)
  | it :: rest =>
    match it.hex with
    | some _ => ([], some (it, rest))
    | none =>
      ((it :: (splitAtColored rest).1), (splitAtColored rest).2)

theorem splitAtColored_none (items : List GItem)
    (h : (splitAtColored items).2 = none) :
    items = (splitAtColored items).1 ∧ ∀ it ∈ (splitAtColored items).1, it.hex = none := by
  induction items with
  | nil =>
    exact ⟨rfl, by intro it hit; exact absurd hit (List.not_mem_nil it)⟩
  | cons it rest ih =>
    cases hx : it.hex with
    | some v =>
      have h2 : splitAtColored (it :: rest) = ([], some (it, rest)) := by
        rw [splitAtColored, hx]
      rw [h2] at h
      exact Option.noConfusion h
    | none =>
      have h2 : splitAtColored (it :: rest)
          = (it :: (splitAtColored rest).1, (splitAtColored rest).2) := by
        rw [splitAtColored, hx]
      rw [h2] at h ⊢
      simp only at h ⊢
      obtain ⟨h1, hall⟩ := ih h
      refine ⟨by rw [← h1], ?_⟩
      intro x hxmem
      rcases List.mem_cons.mp hxmem with h3 | h3
      · rw [h3]; exact hx
      · exact hall x h3

theorem splitAtColored_some (items : List GItem) (it0 : GItem) (post : List GItem)
    (h : (splitAtColored items).2 = some (it0, post)) :
    items = (splitAtColored items).1 ++ it0 :: post ∧
      (∀ it ∈ (splitAtColored items).1, it.hex = none) ∧ it0.hex.isSome = true ∧
      post.length < items.length := by
  induction items with
  | nil => exact Option.noConfusion h
  | cons it rest ih =>
    cases hx : it.hex with
    | some v =>
      have h2 : splitAtColored (it :: rest) = ([], some (it, rest)) := by
        rw [splitAtColored, hx]
      rw [h2] at h ⊢
      simp only at h ⊢
      obtain ⟨h1, h2b⟩ := Prod.mk.injEq .. ▸ Option.some.inj h
      subst h1
      subst h2b
      refine ⟨rfl, ?_, by rw [hx]; rfl, by simp⟩
      intro x hxmem
      exact absurd hxmem (List.not_mem_nil x)
    | none =>
      have h2 : splitAtColored (it :: rest)
          = (it :: (splitAtColored rest).1, (splitAtColored rest).2) := by
        rw [splitAtColored, hx]
      rw [h2] at h ⊢
      simp only at h ⊢
      obtain ⟨h1, hall, h3, h4⟩ := ih h
      refine ⟨?_, ?_, h3, by simp; omega⟩
      · rw [List.cons_append, ← h1]
      · intro x hxmem
        rcases List.mem_cons.mp hxmem with h5 | h5
        · rw [h5]; exact hx
        · exact hall x h5

theorem renderInline_append (a b : List GItem) :
    renderInline (a ++ b) = renderInline a ++ renderInline b := by
  unfold renderInline
  rw [List.map_append, List.flatten_append]

theorem renderInline_cons (it : GItem) (rest : List GItem) :
    renderInline (it :: rest) = renderGItem it ++ renderInline rest := by
  unfold renderInline
  rw [List.map_cons, List.flatten_cons]

/-- Tokenizing one colored inner text yields one run, which renders back
    to the original color-tagged item. -/
theorem renderMRun_colored_unit (u : GUnit) (hx : List Char)
    (htext : textOK u.utext = true) (hhex : hexOK hx = true) :
    ((addRuns (hex_to_rgbcolor hx) (renderGUnit u)).map renderMRun).flatten
      = tagOpen hx ++ (renderGUnit u ++ tagClose hx) := by
  obtain ⟨hne, hsafe, _⟩ := textOK_spec _ htext
  obtain ⟨_, _, rgb, hrgb, htag⟩ := hexOK_spec hx hhex
  rw [hrgb]
  cases hk : u.kind with
  | none =>
    have hrender : renderGUnit u = u.utext := by rw [renderGUnit, hk]
    rw [hrender, addRuns_plain_safe (some rgb) u.utext hne hsafe]
    simp only [List.map_cons, List.map_nil, List.flatten_cons, List.flatten_nil,
      List.append_nil]
    have hne2 : ¬ (plainRun u.utext (some rgb)).rtext = [] := hne
    rw [renderMRun, if_neg hne2]
    show (match get_color_tag (some rgb) with
      | none => styleWrapText (plainRun u.utext (some rgb))
      | some tag => '<' :: (tag ++ ['>'] ++ styleWrapText (plainRun u.utext (some rgb)) ++
          ('<' :: '/' :: (tag ++ ['>'])))) = _
    rw [htag, styleWrapText_plainRun]
    simp [tagOpen, tagClose]
  | some k =>
    have hrender : renderGUnit u = markWrap k u.utext := by rw [renderGUnit, hk]
    rw [hrender, addRuns_markWrap k (some rgb) u.utext hne hsafe]
    simp only [List.map_cons, List.map_nil, List.flatten_cons, List.flatten_nil,
      List.append_nil]
    have hrne : ¬ (fmtRun k u.utext (some rgb)).rtext = [] := by
      cases k <;> exact hne
    have hcol : (fmtRun k u.utext (some rgb)).color = some rgb := by cases k <;> rfl
    rw [renderMRun, if_neg hrne, hcol, htag]
    show '<' :: (('#' :: hx) ++ ['>'] ++ styleWrapText (fmtRun k u.utext (some rgb)) ++
        ('<' :: '/' :: (('#' :: hx) ++ ['>'])))
      = tagOpen hx ++ (markWrap k u.utext ++ tagClose hx)
    rw [styleWrapText_fmtRun]
    simp [tagOpen, tagClose]

theorem colorLoopFuel_render :
    ∀ fuel (items : List GItem), (renderInline items).length < fuel →
      (∀ it ∈ items, itemOK it = true) →
      ((colorLoopFuel fuel (renderInline items)).map renderMRun).flatten
        = renderInline items := by
  intro fuel
  induction fuel with
  | zero => intro items h _; omega
  | succ fuel ih =>
    intro items hlen hOK
    rw [colorLoopFuel]
    cases hsplit : (splitAtColored items).2 with
    | none =>
      obtain ⟨h1, h2⟩ := splitAtColored_none items hsplit
      have hnolt : '<' ∉ renderInline items := by
        rw [h1]
        exact renderInline_uncolored_no_lt _ (fun it hit => hOK it (h1 ▸ hit)) h2
      rw [findColorTag_none _ hnolt]
      exact renderMRun_addRuns_none _
    | some pr =>
      obtain ⟨it0, post⟩ := pr
      obtain ⟨h1, hpre0, hsome, hlt⟩ := splitAtColored_some items it0 post hsplit
      obtain ⟨hx, hhx⟩ := Option.isSome_iff_exists.mp hsome
      have hOKpre : ∀ it ∈ (splitAtColored items).1, itemOK it = true :=
        fun it hit => hOK it (by rw [h1]; exact List.mem_append.mpr (Or.inl hit))
      have hOKit : itemOK it0 = true := hOK it0 (by rw [h1]; simp)
      have hOKpost : ∀ it ∈ post, itemOK it = true :=
        fun it hit => hOK it (by rw [h1]; simp [hit])
      have hitem : renderGItem it0 = tagOpen hx ++ (renderGUnit it0.unit ++ tagClose hx) := by
        rw [renderGItem, hhx]
      have hr : renderInline items
          = renderInline (splitAtColored items).1 ++
            (tagOpen hx ++ (renderGUnit it0.unit ++
              (tagClose hx ++ renderInline post))) := by
        conv_lhs => rw [h1]
        rw [renderInline_append, renderInline_cons, hitem]
        simp [List.append_assoc]
      obtain ⟨htext0, hhex0⟩ := itemOK_spec it0 hOKit
      have hhexOK := hhex0 hx hhx
      obtain ⟨hlen6, hdig, rgb, hrgb, htag⟩ := hexOK_spec hx hhexOK
      have hgapnolt : '<' ∉ renderInline (splitAtColored items).1 :=
        renderInline_uncolored_no_lt _ hOKpre hpre0
      have hinnernolt : '<' ∉ renderGUnit it0.unit := renderGUnit_no_lt it0.unit htext0
      have hfind := findColorTag_at_gap (renderInline (splitAtColored items).1) hx
        (renderGUnit it0.unit) (renderInline post)
        hgapnolt hinnernolt hlen6 hdig
      rw [hr, hfind]
      set gap := renderInline (splitAtColored items).1 with hgapdef
      set inner := renderGUnit it0.unit with hinnerdef
      set rrest := renderInline post with hrrestdef
      set whole := gap ++ (tagOpen hx ++ (inner ++ (tagClose hx ++ rrest))) with hwholedef
      show (List.map renderMRun
          ((if 0 < gap.length then addRuns none (whole.take gap.length) else []) ++
            addRuns (hex_to_rgbcolor hx) inner ++
              colorLoopFuel fuel (whole.drop (gap.length + 9 + inner.length + 10)))).flatten
        = whole
      have htake : whole.take gap.length = gap := by
        rw [hwholedef]
        exact List.take_left gap _
      have hwlen : whole.length = gap.length + 9 + inner.length + 10 + rrest.length := by
        simp only [hwholedef, List.length_append, tagOpen, tagClose,
          List.length_cons, List.length_nil, hlen6]
        omega
      have hdrop : whole.drop (gap.length + 9 + inner.length + 10) = rrest := by
        have hD2 : whole = (gap ++ (tagOpen hx ++ (inner ++ tagClose hx))) ++ rrest := by
          simp [hwholedef]
        have hD2len : (gap ++ (tagOpen hx ++ (inner ++ tagClose hx))).length
            = gap.length + 9 + inner.length + 10 := by
          simp only [List.length_append, tagOpen, tagClose, List.length_cons,
            List.length_nil, hlen6]
          omega
        rw [hD2, ← hD2len]
        exact List.drop_left _ _
      have hreclen : rrest.length < fuel := by
        have h2 := hlen
        rw [hr, hwlen] at h2
        omega
      have hrec := ih post hreclen hOKpost
      rw [htake, hdrop]
      rw [List.map_append, List.flatten_append, List.map_append, List.flatten_append]
      rw [← hrrestdef] at hrec
      rw [hrec]
      have hinner_render := renderMRun_colored_unit it0.unit hx htext0 hhexOK
      rw [← hinnerdef] at hinner_render
      rw [hinner_render]
      by_cases hg : 0 < gap.length
      · rw [if_pos hg]
        rw [renderMRun_addRuns_none gap]
        rw [hwholedef]
        simp [List.append_assoc]
      · rw [if_neg hg]
        have hgnil : gap = [] := by
          cases hgap2 : gap with
          | nil => rfl
          | cons a l => rw [hgap2] at hg; simp at hg
        rw [hwholedef, hgnil]
        simp [List.append_assoc]

/-- `colorLoop` (the reconstructor's color-splitting pass followed by the
    tokenizer) reproduces every well-formed rendered inline string. -/
theorem colorLoop_render (items : List GItem) (hOK : ∀ it ∈ items, itemOK it = true) :
    ((colorLoop (renderInline items)).map renderMRun).flatten = renderInline items :=
  colorLoopFuel_render ((renderInline items).length + 1) items (by omega) hOK

/-! ## Per-block round trip -/

theorem dropWhile_back_of_pyStrip (t : List Char) (h : pyStrip t = t) :
    t.reverse.dropWhile pyIsSpace = t.reverse := by
  have h1 := dropWhile_front_of_pyStrip t h
  have h2 : (t.reverse.dropWhile pyIsSpace).reverse = t := by
    conv_rhs => rw [← h]
    unfold pyStrip
    rw [h1]
  have h3 := congrArg List.reverse h2
  rwa [List.reverse_reverse] at h3

theorem pyStrip_space_cons (t : List Char) (h : pyStrip t = t) (ht : t ≠ []) :
    pyStrip (' ' :: t) = t := by
  unfold pyStrip
  rw [List.dropWhile_cons]
  rw [if_pos (by decide)]
  rw [dropWhile_front_of_pyStrip t h, dropWhile_back_of_pyStrip t h]
  exact List.reverse_reverse t

theorem dropWhile_replicate_append (n : Nat) (c : Char) (x : List Char)
    (hx : ∀ d, x.head? = some d → d ≠ c) :
    (List.replicate n c ++ x).dropWhile (· == c) = x := by
  induction n with
  | zero =>
    simp only [List.replicate_zero, List.nil_append]
    apply dropWhile_eq_self_of_head
    intro d hd
    simpa using hx d hd
  | succ n ih =>
    rw [List.replicate_succ, List.cons_append, List.dropWhile_cons]
    rw [if_pos (by simp)]
    exact ih

theorem process_block_heading (n : Nat) (t : List Char) (h1 : 1 ≤ n)
    (ht : t ≠ []) (hstrip : pyStrip t = t) :
    process_block_into_para (renderGBlock (GBlock.heading n t))
      = ⟨PStyle.heading n, [plainRun t none]⟩ := by
  have hrender : renderGBlock (GBlock.heading n t)
      = List.replicate n '#' ++ ' ' :: t := rfl
  obtain ⟨m, rfl⟩ : ∃ m, n = m + 1 := ⟨n - 1, by omega⟩
  have htake1 : (List.replicate (m+1) '#' ++ ' ' :: t).take 1 = ['#'] := by
    rw [List.replicate_succ, List.cons_append]
    rfl
  have hdrop : (List.replicate (m+1) '#' ++ ' ' :: t).dropWhile (· == '#') = ' ' :: t := by
    apply dropWhile_replicate_append
    intro d hd
    have : d = ' ' := by simpa using hd.symm
    rw [this]
    decide
  unfold process_block_into_para
  rw [hrender, if_pos htake1, hdrop]
  have hlevel : (List.replicate (m+1) '#' ++ ' ' :: t).length - (' ' :: t).length
      = m + 1 := by
    simp
  have hstext : pyStrip (' ' :: t) = t := pyStrip_space_cons t hstrip ht
  rw [hlevel, hstext, if_neg ht]

theorem heading_level_parse (n : Nat) (h1 : 1 ≤ n) (h2 : n ≤ 9) :
    (if (styleNameLower (PStyle.heading n)).filter (·.isDigit) = [] then 1
     else natFromDigits ((styleNameLower (PStyle.heading n)).filter (·.isDigit))) = n := by
  interval_cases n <;> decide

theorem styleNameLower_heading_take7 (n : Nat) :
    (styleNameLower (PStyle.heading n)).take 7 = "heading".toList := by
  show ("heading ".toList ++ Nat.toDigits 10 n).take 7 = "heading".toList
  rw [List.take_append_of_le_length (by decide)]
  decide

theorem paraLine_heading (n : Nat) (t : List Char) (h1 : 1 ≤ n) (h2 : n ≤ 9)
    (ht : t ≠ []) (hstrip : pyStrip t = t) :
    paraLine ⟨PStyle.heading n, [plainRun t none]⟩
      = some (List.replicate n '#' ++ ' ' :: t) := by
  have hptext : paraText ⟨PStyle.heading n, [plainRun t none]⟩ = t := by
    simp [paraText, plainRun]
  unfold paraLine
  rw [hptext, hstrip, if_neg ht]
  rw [if_pos (styleNameLower_heading_take7 n)]
  rw [heading_level_parse n h1 h2]

theorem para_round_trip_heading (n : Nat) (t : List Char)
    (h : blockOK (GBlock.heading n t) = true) :
    paraLine (process_block_into_para (renderGBlock (GBlock.heading n t)))
      = some (renderGBlock (GBlock.heading n t)) := by
  obtain ⟨h1, h2, h3, h4, h5⟩ := blockOK_heading_spec n t h
  rw [process_block_heading n t h1 h3 h5, paraLine_heading n t h1 h2 h3 h5]
  rfl

theorem mem_renderGUnit_of_text (u : GUnit) (ch : Char) (h : ch ∈ u.utext) :
    ch ∈ renderGUnit u := by
  cases hk : u.kind with
  | none => rw [renderGUnit, hk]; exact h
  | some k =>
    rw [renderGUnit, hk]
    cases k <;> simp [markWrap] <;> tauto

/-- Character coverage through the color loop: a marker-free character of
    some unit's text survives into the produced runs' texts. -/
theorem colorLoopFuel_chars :
    ∀ fuel (items : List GItem), (renderInline items).length < fuel →
      (∀ it ∈ items, itemOK it = true) →
      ∀ it0 ∈ items, ∀ ch ∈ it0.unit.utext, ch ≠ '*' → ch ≠ '_' →
      ch ∈ ((colorLoopFuel fuel (renderInline items)).map MRun.rtext).flatten := by
  intro fuel
  induction fuel with
  | zero => intro items h _; omega
  | succ fuel ih =>
    intro items hlen hOK it0 hit0 ch hch hs1 hs2
    rw [colorLoopFuel]
    cases hsplit : (splitAtColored items).2 with
    | none =>
      obtain ⟨h1, h2⟩ := splitAtColored_none items hsplit
      have hnolt : '<' ∉ renderInline items := by
        rw [h1]
        exact renderInline_uncolored_no_lt _ (fun it hit => hOK it (h1 ▸ hit)) h2
      rw [findColorTag_none _ hnolt]
      apply addRuns_chars none _ ch _ hs1 hs2
      obtain ⟨itx, hitx, hhx⟩ : ∃ it ∈ items, ch ∈ renderGItem it := by
        refine ⟨it0, hit0, ?_⟩
        have hu : it0.hex = none := h2 it0 (h1 ▸ hit0)
        rw [renderGItem, hu]
        exact mem_renderGUnit_of_text it0.unit ch hch
      unfold renderInline
      rw [List.mem_flatten]
      exact ⟨renderGItem itx, List.mem_map.mpr ⟨itx, hitx, rfl⟩, hhx⟩
    | some pr =>
      obtain ⟨itc, post⟩ := pr
      obtain ⟨h1, hpre0, hsome, hlt⟩ := splitAtColored_some items itc post hsplit
      obtain ⟨hx, hhx⟩ := Option.isSome_iff_exists.mp hsome
      have hOKpre : ∀ it ∈ (splitAtColored items).1, itemOK it = true :=
        fun it hit => hOK it (by rw [h1]; exact List.mem_append.mpr (Or.inl hit))
      have hOKitc : itemOK itc = true := hOK itc (by rw [h1]; simp)
      have hOKpost : ∀ it ∈ post, itemOK it = true :=
        fun it hit => hOK it (by rw [h1]; simp [hit])
      have hitem : renderGItem itc = tagOpen hx ++ (renderGUnit itc.unit ++ tagClose hx) := by
        rw [renderGItem, hhx]
      have hr : renderInline items
          = renderInline (splitAtColored items).1 ++
            (tagOpen hx ++ (renderGUnit itc.unit ++
              (tagClose hx ++ renderInline post))) := by
        conv_lhs => rw [h1]
        rw [renderInline_append, renderInline_cons, hitem]
        simp [List.append_assoc]
      obtain ⟨htextc, hhexc⟩ := itemOK_spec itc hOKitc
      have hhexOK := hhexc hx hhx
      obtain ⟨hlen6, hdig, rgb, hrgb, htag⟩ := hexOK_spec hx hhexOK
      have hgapnolt : '<' ∉ renderInline (splitAtColored items).1 :=
        renderInline_uncolored_no_lt _ hOKpre hpre0
      have hinnernolt : '<' ∉ renderGUnit itc.unit := renderGUnit_no_lt itc.unit htextc
      have hfind := findColorTag_at_gap (renderInline (splitAtColored items).1) hx
        (renderGUnit itc.unit) (renderInline post)
        hgapnolt hinnernolt hlen6 hdig
      rw [hr, hfind]
      set gap := renderInline (splitAtColored items).1 with hgapdef
      set inner := renderGUnit itc.unit with hinnerdef
      set rrest := renderInline post with hrrestdef
      set whole := gap ++ (tagOpen hx ++ (inner ++ (tagClose hx ++ rrest))) with hwholedef
      show ch ∈ (List.map MRun.rtext
          ((if 0 < gap.length then addRuns none (whole.take gap.length) else []) ++
            addRuns (hex_to_rgbcolor hx) inner ++
              colorLoopFuel fuel (whole.drop (gap.length + 9 + inner.length + 10)))).flatten
      have htake : whole.take gap.length = gap := by
        rw [hwholedef]
        exact List.take_left gap _
      have hwlen : whole.length = gap.length + 9 + inner.length + 10 + rrest.length := by
        simp only [hwholedef, List.length_append, tagOpen, tagClose,
          List.length_cons, List.length_nil, hlen6]
        omega
      have hdrop : whole.drop (gap.length + 9 + inner.length + 10) = rrest := by
        have hD2 : whole = (gap ++ (tagOpen hx ++ (inner ++ tagClose hx))) ++ rrest := by
          simp [hwholedef]
        have hD2len : (gap ++ (tagOpen hx ++ (inner ++ tagClose hx))).length
            = gap.length + 9 + inner.length + 10 := by
          simp only [List.length_append, tagOpen, tagClose, List.length_cons,
            List.length_nil, hlen6]
          omega
        rw [hD2, ← hD2len]
        exact List.drop_left _ _
      have hreclen : rrest.length < fuel := by
        have h2 := hlen
        rw [hr, hwlen] at h2
        omega
      rw [htake, hdrop]
      rw [List.map_append, List.flatten_append, List.map_append, List.flatten_append]
      -- where does it0 live?
      rw [h1] at hit0
      rcases List.mem_append.mp hit0 with hin | hin
      · -- in the uncolored prefix: its text is inside the gap
        have hchgap : ch ∈ gap := by
          rw [hgapdef]
          unfold renderInline
          rw [List.mem_flatten]
          refine ⟨renderGItem it0, List.mem_map.mpr ⟨it0, hin, rfl⟩, ?_⟩
          rw [renderGItem, hpre0 it0 hin]
          exact mem_renderGUnit_of_text it0.unit ch hch
        have hg : 0 < gap.length := by
          cases hgap2 : gap with
          | nil => rw [hgap2] at hchgap; exact absurd hchgap (List.not_mem_nil ch)
          | cons a l => simp [hgap2]
        rw [if_pos hg]
        apply List.mem_append.mpr
        apply Or.inl
        apply List.mem_append.mpr
        apply Or.inl
        exact addRuns_chars none gap ch hchgap hs1 hs2
      · rcases List.mem_cons.mp hin with hin2 | hin2
        · -- the colored item itself: its text is the single inner run's text
          subst hin2
          apply List.mem_append.mpr
          apply Or.inl
          apply List.mem_append.mpr
          apply Or.inr
          rw [hrgb]
          obtain ⟨hne, hsafe, _⟩ := textOK_spec _ htextc
          cases hk : it0.unit.kind with
          | none =>
            have hrend : inner = it0.unit.utext := by
              rw [hinnerdef, renderGUnit, hk]
            rw [hrend, addRuns_plain_safe (some rgb) _ hne hsafe]
            simpa [plainRun] using hch
          | some k =>
            have hrend : inner = markWrap k it0.unit.utext := by
              rw [hinnerdef, renderGUnit, hk]
            rw [hrend, addRuns_markWrap k (some rgb) _ hne hsafe]
            have : MRun.rtext (fmtRun k it0.unit.utext (some rgb)) = it0.unit.utext := by
              cases k <;> rfl
            simpa [this] using hch
        · -- in the suffix: recurse
          apply List.mem_append.mpr
          apply Or.inr
          rw [hrrestdef]
          exact ih post hreclen hOKpost it0 hin2 ch hch hs1 hs2

theorem mem_dropWhile_of_not (p : Char → Bool) (ch : Char) :
    ∀ s : List Char, ch ∈ s → p ch = false → ch ∈ s.dropWhile p := by
  intro s
  induction s with
  | nil => intro h _; exact absurd h (List.not_mem_nil ch)
  | cons a l ih =>
    intro h hp
    rw [List.dropWhile_cons]
    by_cases hpa : p a = true
    · rw [if_pos hpa]
      rcases List.mem_cons.mp h with h1 | h1
      · rw [h1] at hp
        rw [hp] at hpa
        exact absurd hpa (by decide)
      · exact ih h1 hp
    · rw [if_neg hpa]
      exact h

theorem mem_pyStrip (s : List Char) (ch : Char) (h : ch ∈ s)
    (hp : pyIsSpace ch = false) : ch ∈ pyStrip s := by
  unfold pyStrip
  rw [List.mem_reverse]
  apply mem_dropWhile_of_not _ _ _ _ hp
  rw [List.mem_reverse]
  exact mem_dropWhile_of_not _ _ _ h hp

theorem pyStrip_ne_nil_of_mem (s : List Char) (ch : Char) (h : ch ∈ s)
    (hp : pyIsSpace ch = false) : pyStrip s ≠ [] := by
  intro hc
  exact absurd (hc ▸ mem_pyStrip s ch h hp) (List.not_mem_nil ch)

/-- The skip check of the extractor accepts every well-formed reconstructed
    inline paragraph: some unit character is non-whitespace and survives. -/
theorem colorLoop_paraText_ne (st : PStyle) (its : List GItem) (h1 : its ≠ [])
    (h2 : ∀ it ∈ its, itemOK it = true) :
    pyStrip (paraText ⟨st, colorLoop (renderInline its)⟩) ≠ [] := by
  obtain ⟨it0, hit0⟩ : ∃ it, it ∈ its := by
    cases its with
    | nil => exact absurd rfl h1
    | cons a l => exact ⟨a, List.mem_cons_self a l⟩
  obtain ⟨htext, _⟩ := itemOK_spec it0 (h2 it0 hit0)
  obtain ⟨_, hsafe, ch, hch, hsp⟩ := textOK_spec _ htext
  have hs := safeChar_spec ch (hsafe ch hch)
  have hcov := colorLoopFuel_chars ((renderInline its).length + 1) its (by omega) h2
    it0 hit0 ch hch hs.1 hs.2.1
  exact pyStrip_ne_nil_of_mem _ ch hcov hsp

theorem process_block_bullet (its : List GItem)
    (hstrip : pyStrip (renderInline its) = renderInline its) :
    process_block_into_para (renderGBlock (GBlock.bullet its))
      = ⟨PStyle.listBullet, colorLoop (renderInline its)⟩ := by
  have hrender : renderGBlock (GBlock.bullet its)
      = '•' :: ' ' :: renderInline its := rfl
  unfold process_block_into_para
  rw [hrender]
  have hne1 : ¬ (('•' :: ' ' :: renderInline its).take 1 = ['#']) := by
    intro hcon
    have ht : ('•' :: ' ' :: renderInline its).take 1 = ['•'] := rfl
    rw [ht] at hcon
    exact absurd hcon (by decide)
  rw [if_neg hne1]
  rw [if_pos (show ('•' :: ' ' :: renderInline its).take 2 = "• ".toList from rfl)]
  have hdrop : ('•' :: ' ' :: renderInline its).drop 2 = renderInline its := rfl
  rw [hdrop, hstrip]

theorem process_block_numbered (its : List GItem)
    (hstrip : pyStrip (renderInline its) = renderInline its) :
    process_block_into_para (renderGBlock (GBlock.numbered its))
      = ⟨PStyle.listNumber, colorLoop (renderInline its)⟩ := by
  have hrender : renderGBlock (GBlock.numbered its)
      = '1' :: '.' :: ' ' :: renderInline its := rfl
  unfold process_block_into_para
  rw [hrender]
  have hne1 : ¬ (('1' :: '.' :: ' ' :: renderInline its).take 1 = ['#']) := by
    intro hcon
    have ht : ('1' :: '.' :: ' ' :: renderInline its).take 1 = ['1'] := rfl
    rw [ht] at hcon
    exact absurd hcon (by decide)
  rw [if_neg hne1]
  have hne2 : ¬ (('1' :: '.' :: ' ' :: renderInline its).take 2 = "• ".toList) := by
    intro hcon
    have ht : ('1' :: '.' :: ' ' :: renderInline its).take 2 = ['1', '.'] := rfl
    rw [ht] at hcon
    exact absurd hcon (by decide)
  rw [if_neg hne2]
  rw [if_pos (show ('1' :: '.' :: ' ' :: renderInline its).take 3 = "1. ".toList from rfl)]
  have hdrop : ('1' :: '.' :: ' ' :: renderInline its).drop 3 = renderInline its := rfl
  rw [hdrop, hstrip]

theorem blockOK_par_prefixes (its : List GItem) (h : blockOK (GBlock.par its) = true) :
    ¬((renderInline its).take 1 = ['#']) ∧
      ¬((renderInline its).take 2 = "• ".toList) ∧
      ¬((renderInline its).take 3 = "1. ".toList) := by
  unfold blockOK at h
  rw [Bool.and_eq_true, Bool.and_eq_true, Bool.and_eq_true, Bool.and_eq_true,
    Bool.and_eq_true] at h
  obtain ⟨⟨⟨⟨⟨_, _⟩, _⟩, h4⟩, h5⟩, h6⟩ := h
  refine ⟨?_, ?_, ?_⟩
  · simpa using h4
  · simpa using h5
  · simpa using h6

theorem process_block_par (its : List GItem)
    (hpre : ¬((renderInline its).take 1 = ['#']) ∧
      ¬((renderInline its).take 2 = "• ".toList) ∧
      ¬((renderInline its).take 3 = "1. ".toList)) :
    process_block_into_para (renderGBlock (GBlock.par its))
      = ⟨PStyle.normal, colorLoop (renderInline its)⟩ := by
  have hrender : renderGBlock (GBlock.par its) = renderInline its := rfl
  unfold process_block_into_para
  rw [hrender, if_neg hpre.1, if_neg hpre.2.1, if_neg hpre.2.2]

theorem paraLine_bullet (its : List GItem) (h1 : its ≠ [])
    (h2 : ∀ it ∈ its, itemOK it = true)
    (hstrip : pyStrip (renderInline its) = renderInline its) :
    paraLine ⟨PStyle.listBullet, colorLoop (renderInline its)⟩
      = some ("• ".toList ++ renderInline its) := by
  unfold paraLine
  rw [if_neg (colorLoop_paraText_ne PStyle.listBullet its h1 h2)]
  rw [if_neg (show ¬((styleNameLower PStyle.listBullet).take 7 = "heading".toList)
    from by decide)]
  rw [if_pos (show (containsSub ("list bullet".toList) (styleNameLower PStyle.listBullet)
      || containsSub ("list paragraph".toList) (styleNameLower PStyle.listBullet)) = true
    from by decide)]
  have hfmt : ((colorLoop (renderInline its)).map renderMRun).flatten
      = renderInline its := colorLoop_render its h2
  show some ("• ".toList ++ pyStrip (((colorLoop (renderInline its)).map renderMRun).flatten))
    = some ("• ".toList ++ renderInline its)
  rw [hfmt, hstrip]

theorem paraLine_numbered (its : List GItem) (h1 : its ≠ [])
    (h2 : ∀ it ∈ its, itemOK it = true)
    (hstrip : pyStrip (renderInline its) = renderInline its) :
    paraLine ⟨PStyle.listNumber, colorLoop (renderInline its)⟩
      = some ("1. ".toList ++ renderInline its) := by
  unfold paraLine
  rw [if_neg (colorLoop_paraText_ne PStyle.listNumber its h1 h2)]
  rw [if_neg (show ¬((styleNameLower PStyle.listNumber).take 7 = "heading".toList)
    from by decide)]
  rw [if_neg (show ¬((containsSub ("list bullet".toList) (styleNameLower PStyle.listNumber)
      || containsSub ("list paragraph".toList) (styleNameLower PStyle.listNumber)) = true)
    from by decide)]
  rw [if_pos (show containsSub ("list number".toList) (styleNameLower PStyle.listNumber) = true
    from by decide)]
  have hfmt : ((colorLoop (renderInline its)).map renderMRun).flatten
      = renderInline its := colorLoop_render its h2
  show some ("1. ".toList ++ pyStrip (((colorLoop (renderInline its)).map renderMRun).flatten))
    = some ("1. ".toList ++ renderInline its)
  rw [hfmt, hstrip]

theorem paraLine_par (its : List GItem) (h1 : its ≠ [])
    (h2 : ∀ it ∈ its, itemOK it = true)
    (hstrip : pyStrip (renderInline its) = renderInline its) :
    paraLine ⟨PStyle.normal, colorLoop (renderInline its)⟩
      = some (renderInline its) := by
  unfold paraLine
  rw [if_neg (colorLoop_paraText_ne PStyle.normal its h1 h2)]
  rw [if_neg (show ¬((styleNameLower PStyle.normal).take 7 = "heading".toList)
    from by decide)]
  rw [if_neg (show ¬((containsSub ("list bullet".toList) (styleNameLower PStyle.normal)
      || containsSub ("list paragraph".toList) (styleNameLower PStyle.normal)) = true)
    from by decide)]
  rw [if_neg (show ¬(containsSub ("list number".toList) (styleNameLower PStyle.normal) = true)
    from by decide)]
  have hfmt : ((colorLoop (renderInline its)).map renderMRun).flatten
      = renderInline its := colorLoop_render its h2
  show some (pyStrip (((colorLoop (renderInline its)).map renderMRun).flatten))
    = some (renderInline its)
  rw [hfmt, hstrip]

/-- Per-block round trip: reconstructing a well-formed block and
    re-extracting its paragraph reproduces the block verbatim. -/
theorem para_round_trip (b : GBlock) (h : blockOK b = true) :
    paraLine (process_block_into_para (renderGBlock b)) = some (renderGBlock b) := by
  cases b with
  | heading n t => exact para_round_trip_heading n t h
  | bullet its =>
    obtain ⟨h1, h2, h3⟩ := blockOK_inline_spec its _ (Or.inl rfl) h
    rw [process_block_bullet its h3, paraLine_bullet its h1 h2 h3]
    rfl
  | numbered its =>
    obtain ⟨h1, h2, h3⟩ := blockOK_inline_spec its _ (Or.inr (Or.inl rfl)) h
    rw [process_block_numbered its h3, paraLine_numbered its h1 h2 h3]
    rfl
  | par its =>
    obtain ⟨h1, h2, h3⟩ := blockOK_inline_spec its _ (Or.inr (Or.inr rfl)) h
    rw [process_block_par its (blockOK_par_prefixes its h), paraLine_par its h1 h2 h3]
    rfl

/-! ## Document-level assembly -/

theorem renderGDoc_single (b : GBlock) : renderGDoc [b] = renderGBlock b := by
  simp [renderGDoc, List.intercalate]

theorem renderGDoc_cons (b : GBlock) (b2 : GBlock) (bs : List GBlock) :
    renderGDoc (b :: b2 :: bs)
      = renderGBlock b ++ ('\n' :: '\n' :: renderGDoc (b2 :: bs)) := by
  unfold renderGDoc
  rw [List.map_cons]
  rw [List.intercalate, List.intercalate]
  rw [List.map_cons, List.intersperse_cons_cons]
  rw [List.flatten_cons, List.flatten_cons]
  rfl

theorem renderGDoc_head (b : GBlock) (bs : List GBlock) (hOK : blockOK b = true) :
    ∃ c cs, renderGDoc (b :: bs) = c :: cs ∧ pyIsSpace c = false := by
  obtain ⟨hne, _, hstrip⟩ := renderGBlock_facts b hOK
  obtain ⟨c, cs0, hrb⟩ : ∃ c cs0, renderGBlock b = c :: cs0 := by
    cases hcase : renderGBlock b with
    | nil => exact absurd hcase hne
    | cons c cs0 => exact ⟨c, cs0, rfl⟩
  have hc : pyIsSpace c = false := by
    apply pyStrip_head _ hne hstrip
    rw [hrb]
    rfl
  cases bs with
  | nil =>
    rw [renderGDoc_single, hrb]
    exact ⟨c, cs0, rfl, hc⟩
  | cons b2 bs2 =>
    rw [renderGDoc_cons, hrb]
    exact ⟨c, cs0 ++ ('\n' :: '\n' :: renderGDoc (b2 :: bs2)), rfl, hc⟩

theorem renderGDoc_last :
    ∀ (bs : List GBlock) (b : GBlock), (∀ x ∈ b :: bs, blockOK x = true) →
    ∀ c, (renderGDoc (b :: bs)).getLast? = some c → pyIsSpace c = false := by
  intro bs
  induction bs with
  | nil =>
    intro b hOK c hc
    rw [renderGDoc_single] at hc
    obtain ⟨hne, _, hstrip⟩ := renderGBlock_facts b (hOK b (by simp))
    exact pyStrip_last _ hne hstrip c hc
  | cons b2 bs2 ih =>
    intro b hOK c hc
    rw [renderGDoc_cons] at hc
    have hdocne : renderGDoc (b2 :: bs2) ≠ [] := by
      obtain ⟨d, ds, hd, _⟩ := renderGDoc_head b2 bs2 (hOK b2 (by simp))
      rw [hd]
      simp
    rw [List.getLast?_append_of_ne_nil _ (by simp)] at hc
    have h2 : ('\n' :: '\n' :: renderGDoc (b2 :: bs2))
        = ['\n', '\n'] ++ renderGDoc (b2 :: bs2) := rfl
    rw [h2, List.getLast?_append_of_ne_nil _ hdocne] at hc
    exact ih b2 (fun x hx => hOK x (by simp at hx ⊢; tauto)) c hc

theorem renderGDoc_strip (b : GBlock) (bs : List GBlock)
    (hOK : ∀ x ∈ b :: bs, blockOK x = true) :
    pyStrip (renderGDoc (b :: bs)) = renderGDoc (b :: bs) := by
  apply pyStrip_eq_self_of
  · intro c hc
    obtain ⟨d, ds, hd, hdns⟩ := renderGDoc_head b bs (hOK b (by simp))
    rw [hd] at hc
    have : d = c := by simpa using hc
    rw [← this]
    exact hdns
  · exact renderGDoc_last bs b hOK

theorem sepAt_none_of_no_newline (t : List Char) (h : ∀ ch ∈ t, ch ≠ '\n')
    (i : Nat) : sepAt t i = none := by
  unfold sepAt
  rw [if_neg ?hg]
  case hg =>
    intro hcon
    rw [beq_iff_eq] at hcon
    exact h '\n' (charAt_mem t i '\n' hcon) rfl

theorem splitSepFuel_single (t : List Char) (h : ∀ ch ∈ t, ch ≠ '\n') (fuel : Nat) :
    splitSepFuel (fuel+1) t = [t] := by
  rw [splitSepFuel]
  rw [scanFrom_none _ _ _ (by
    intro k _
    rw [sepAt_none_of_no_newline t h k]
    rfl)]

theorem splitSepFuel_renderGDoc :
    ∀ fuel (b : GBlock) (bs : List GBlock), (∀ x ∈ b :: bs, blockOK x = true) →
      (renderGDoc (b :: bs)).length < fuel →
      splitSepFuel fuel (renderGDoc (b :: bs)) = (b :: bs).map renderGBlock := by
  intro fuel
  induction fuel with
  | zero => intro b bs _ h; omega
  | succ fuel ih =>
    intro b bs hOK hlen
    obtain ⟨hrbne, hrbnl, _⟩ := renderGBlock_facts b (hOK b (by simp))
    cases bs with
    | nil =>
      rw [renderGDoc_single]
      rw [splitSepFuel_single _ hrbnl fuel]
      rfl
    | cons b2 bs2 =>
      rw [renderGDoc_cons]
      set rb := renderGBlock b with hrbdef
      set rds := renderGDoc (b2 :: bs2) with hrdsdef
      obtain ⟨d, ds, hd, hdns⟩ := renderGDoc_head b2 bs2 (hOK b2 (by simp))
      rw [← hrdsdef] at hd
      set s := rb ++ ('\n' :: '\n' :: rds) with hsdef
      have hslen : s.length = rb.length + 2 + rds.length := by
        simp [hsdef]
        omega
      -- the separator match at rb.length
      have hboundary : sepAt s rb.length = some (rb.length + 2) := by
        unfold sepAt
        have hc0 : charAt s rb.length = some '\n' := by
          have h := charAt_append_off rb ('\n' :: '\n' :: rds) 0
          rw [← hsdef, Nat.add_zero] at h
          rw [h]
          exact charAt_cons_zero _ _
        rw [if_pos (by rw [hc0]; rfl)]
        have hdrop1 : s.drop (rb.length + 1) = '\n' :: rds := by
          have hs1 : s = (rb ++ ['\n']) ++ ('\n' :: rds) := by simp [hsdef]
          have hlen1 : (rb ++ ['\n']).length = rb.length + 1 := by simp
          rw [hs1, ← hlen1]
          exact List.drop_left _ _
        rw [hdrop1]
        have hws : ('\n' :: rds).takeWhile pyIsSpace = ['\n'] := by
          rw [List.takeWhile_cons, if_pos (by decide), hd]
          rw [List.takeWhile_cons, if_neg (by rw [hdns]; exact Bool.false_ne_true)]
        rw [hws]
        have hlast : lastIdxOf '\n' ['\n'] = some 0 := by decide
        rw [hlast]
      have hpre : ∀ i, i < rb.length → sepAt s i = none := by
        intro i hi
        obtain ⟨ch, hch, hchmem⟩ := charAt_exists rb i hi
        unfold sepAt
        rw [if_neg ?hg2]
        case hg2 =>
          intro hcon
          rw [beq_iff_eq] at hcon
          rw [hsdef, charAt_append_lt rb _ i hi, hch] at hcon
          exact hrbnl ch hchmem (Option.some.inj hcon)
      -- the leftmost scan finds it
      have hscan : scanFrom (fun i => (sepAt s i).map (fun e => (i, e))) 0 (s.length + 1)
          = some (rb.length, rb.length + 2) := by
        have hfuel : s.length + 1 = rb.length + (rds.length + 3) := by
          omega
        rw [hfuel]
        rw [scanFrom_skip _ rb.length (rds.length + 3) 0 ?hpre2]
        case hpre2 =>
          intro k hk1 hk2
          rw [hpre k (by omega)]
          rfl
        rw [Nat.zero_add]
        have hfuel2 : rds.length + 3 = (rds.length + 2) + 1 := by omega
        rw [hfuel2]
        exact scanFrom_hit _ _ _ _ (by rw [hboundary]; rfl)
      rw [splitSepFuel, hscan]
      have htake : s.take rb.length = rb := by
        rw [hsdef]
        exact List.take_left rb _
      have hdrop2 : s.drop (rb.length + 2) = rds := by
        have hs2 : s = (rb ++ ['\n', '\n']) ++ rds := by simp [hsdef]
        have hlen2 : (rb ++ ['\n', '\n']).length = rb.length + 2 := by simp
        rw [hs2, ← hlen2]
        exact List.drop_left _ _
      show s.take rb.length :: splitSepFuel fuel (s.drop (rb.length + 2))
        = rb :: (b2 :: bs2).map renderGBlock
      rw [htake, hdrop2, hrdsdef]
      have hlenfull : (renderGDoc (b :: b2 :: bs2)).length = rb.length + 2 + rds.length := by
        rw [renderGDoc_cons, ← hrbdef, ← hrdsdef]
        simp
        omega
      have hrb1 : 1 ≤ rb.length := by
        cases hcase : rb with
        | nil => exact absurd hcase hrbne
        | cons x xs => simp [hcase]
      rw [ih b2 bs2 (fun x hx => hOK x (by simp at hx ⊢; tauto)) (by rw [← hrdsdef]; omega)]

theorem filterMap_paraLine_renderGBlock (l : List GBlock) :
    (∀ x ∈ l, blockOK x = true) →
    l.filterMap ((paraLine ∘ process_block_into_para) ∘ renderGBlock)
      = l.map renderGBlock := by
  induction l with
  | nil =>
    intro _
    rfl
  | cons x xs ih =>
    intro hl
    have hpa : ((paraLine ∘ process_block_into_para) ∘ renderGBlock) x
        = some (renderGBlock x) := para_round_trip x (hl x (by simp))
    rw [List.filterMap_cons_some hpa]
    rw [List.map_cons, ih (fun y hy => hl y (List.mem_cons_of_mem x hy))]

/-- C1 — DOCX round trip: saving any well-formed markup document with
`save_docx_text` and re-extracting it with `extract_text_from_docx`
reproduces the text exactly. Well-formed (`docOK`) means: every block is a
heading (level 1-9, nonempty single-line strip-invariant text), a bullet,
a numbered item or a plain paragraph whose inline items carry nonempty
marker-free texts and, optionally, 6-digit hex colors outside the named
buckets, the paragraph not itself starting with a block prefix. -/
theorem c1_docx_round_trip (blocks : List GBlock) (h : docOK blocks = true) :
    extract_text_from_docx (save_docx_text (renderGDoc blocks)) = renderGDoc blocks := by
  cases blocks with
  | nil => rfl
  | cons b bs =>
    have hOK : ∀ x ∈ b :: bs, blockOK x = true := fun x hx => List.all_eq_true.mp h x hx
    have h1 : pyStrip (renderGDoc (b :: bs)) = renderGDoc (b :: bs) :=
      renderGDoc_strip b bs hOK
    have h2 : splitBlocks (renderGDoc (b :: bs)) = (b :: bs).map renderGBlock :=
      splitSepFuel_renderGDoc _ b bs hOK (by omega)
    have h3 : ((b :: bs).map renderGBlock).map pyStrip = (b :: bs).map renderGBlock := by
      rw [List.map_map]
      apply List.map_congr_left
      intro x hx
      exact (renderGBlock_facts x (hOK x hx)).2.2
    have h4 : (((b :: bs).map renderGBlock).filter (fun t => t ≠ []))
        = (b :: bs).map renderGBlock := by
      apply List.filter_eq_self.mpr
      intro a ha
      obtain ⟨x, hx, hax⟩ := List.mem_map.mp ha
      show decide (a ≠ []) = true
      rw [← hax]
      exact decide_eq_true (renderGBlock_facts x (hOK x hx)).1
    simp only [save_docx_text, extract_text_from_docx]
    rw [h1, h2, h3, h4]
    simp only [List.map_nil, List.flatten_nil, List.append_nil]
    rw [List.filterMap_map, List.filterMap_map]
    rw [filterMap_paraLine_renderGBlock (b :: bs) hOK]
    exact h1

def sampleDoc : List GBlock :=
  [GBlock.heading 2 "Title".toList,
   GBlock.bullet [⟨⟨some MKind.u, "u".toList⟩, none⟩,
                  ⟨⟨some MKind.b, "c".toList⟩, some "000080".toList⟩,
                  ⟨⟨none, "tail".toList⟩, none⟩],
   GBlock.par [⟨⟨some MKind.b, "a".toList⟩, none⟩,
               ⟨⟨none, " and ".toList⟩, none⟩,
               ⟨⟨some MKind.i, "b".toList⟩, none⟩],
   GBlock.numbered [⟨⟨some MKind.i, "x".toList⟩, none⟩]]

/-- The round trip checked on a concrete four-block document mixing a
heading, a colored styled bullet list, a styled paragraph and a numbered
item. -/
theorem c1_docx_round_trip_witness :
    docOK sampleDoc = true ∧
      extract_text_from_docx (save_docx_text (renderGDoc sampleDoc))
        = renderGDoc sampleDoc :=
  ⟨by decide, c1_docx_round_trip sampleDoc (by decide)⟩

/-! ## C5: the HTML renderer `convert_custom_text_to_html` (utils.py 118-166) -/

/-- Match attempt of the open-color pattern (`<#`, six hex digits, `>`)
    at position `i`; on success the hex group is returned, the match
    ending at `i + 9`. -/
def openColorAt (t : List Char) (i : Nat) : Option (List Char) :=
  if charAt t i == some '<' && charAt t (i+1) == some '#' &&
      (slice t (i+2) (i+8)).length == 6 && (slice t (i+2) (i+8)).all isHexDigitChar &&
      charAt t (i+8) == some '>' then
    some (slice t (i+2) (i+8))
  else none

/-- The replacement text the open-tag substitution emits for group `h`. -/
def spanOpen (h : List Char) : List Char :=
  "<span style=\"color:#".toList ++ (h ++ ";\">".toList)

/-- `re.sub` of the open-color pattern: leftmost matches replaced left to
    right, the scan resuming after each match. -/
def subOpenFuel : Nat → List Char → List Char
  | 0, t => t
  | fuel+1, t =>
    match scanFrom (fun i => (openColorAt t i).map (fun h => (i, h))) 0 (t.length + 1) with
    | none => t
    | some (i, h) => t.take i ++ (spanOpen h ++ subOpenFuel fuel (t.drop (i + 9)))

def subOpen (t : List Char) : List Char := subOpenFuel (t.length + 1) t

/-- Match of the close-color pattern (`</#`, six hex digits, `>`) at
    position `i`, ending at `i + 10`; the substitution ignores the hex
    group, replacing every close tag by `</span>`. -/
def closeColorAnyAt (t : List Char) (i : Nat) : Bool :=
  charAt t i == some '<' && charAt t (i+1) == some '/' && charAt t (i+2) == some '#' &&
    (slice t (i+3) (i+9)).length == 6 && (slice t (i+3) (i+9)).all isHexDigitChar &&
    charAt t (i+9) == some '>'

def subCloseFuel : Nat → List Char → List Char
  | 0, t => t
  | fuel+1, t =>
    match scanFrom (fun i => if closeColorAnyAt t i then some i else none) 0 (t.length + 1) with
    | none => t
    | some i => t.take i ++ ("</span>".toList ++ subCloseFuel fuel (t.drop (i + 10)))

def subClose (t : List Char) : List Char := subCloseFuel (t.length + 1) t

/-- Python `str.replace`: all non-overlapping occurrences, left to right. -/
def strReplaceFuel (pat rep : List Char) : Nat → List Char → List Char
  | 0, t => t
  | fuel+1, t =>
    match scanFrom (fun i =>
        if i + pat.length ≤ t.length && slice t i (i + pat.length) == pat then some i
        else none) 0 (t.length + 1) with
    | none => t
    | some i => t.take i ++ (rep ++ strReplaceFuel pat rep fuel (t.drop (i + pat.length)))

def pyReplace (t pat rep : List Char) : List Char := strReplaceFuel pat rep (t.length + 1) t

/-- The fixed HTML template text before the interpolated body. -/
def htmlPre : List Char :=
  "\n    <html>\n    <head>\n        <meta charset=\"utf-8\">\n        <style>\n            body \x7b\n                font-family: Arial, sans-serif;\n                line-height: 1.5;\n                font-size: 12pt;\n                margin: 20px;\n            \x7d\n            b \x7b font-weight: bold; \x7d\n            i \x7b font-style: italic; \x7d\n            p \x7b margin-bottom: 10px; \x7d\n        </style>\n    </head>\n    <body><p>".toList

/-- The fixed HTML template text after the interpolated body. -/
def htmlPost : List Char := "</p></body>\n    </html>\n    ".toList

/-- `convert_custom_text_to_html(text)`: substitute the open and the
    close color tags independently, turn blank lines into paragraph
    breaks and newlines into `<br>`, then wrap in the template. -/
def convert_custom_text_to_html (text : List Char) : List Char :=
  htmlPre ++
    (pyReplace (pyReplace (subClose (subOpen text)) ("\n\n".toList) ("</p><p>".toList))
        ("\n".toList) ("<br>".toList)
      ++ htmlPost)

theorem subOpenFuel_nomatch (t : List Char) (h : ∀ i, openColorAt t i = none) :
    ∀ fuel, subOpenFuel fuel t = t := by
  intro fuel
  cases fuel with
  | zero => rfl
  | succ fuel =>
    rw [subOpenFuel]
    rw [scanFrom_none _ _ _ (by
      intro k _
      rw [h k]
      rfl)]

theorem subCloseFuel_nomatch (t : List Char) (h : ∀ i, closeColorAnyAt t i = false) :
    ∀ fuel, subCloseFuel fuel t = t := by
  intro fuel
  cases fuel with
  | zero => rfl
  | succ fuel =>
    rw [subCloseFuel]
    rw [scanFrom_none _ _ _ (by
      intro k _
      rw [if_neg (by rw [h k]; exact Bool.false_ne_true)])]

theorem mem_slice (t : List Char) (a b : Nat) (c : Char) (h : c ∈ slice t a b) :
    c ∈ t := by
  unfold slice at h
  exact List.mem_of_mem_take (List.mem_of_mem_drop h)

theorem strReplaceFuel_skip (t pat rep : List Char) (c : Char) (hc : c ∈ pat)
    (h : c ∉ t) : ∀ fuel, strReplaceFuel pat rep fuel t = t := by
  intro fuel
  cases fuel with
  | zero => rfl
  | succ fuel =>
    rw [strReplaceFuel]
    rw [scanFrom_none _ _ _ (by
      intro k _
      rw [if_neg ?hng]
      case hng =>
        intro hcon
        rw [Bool.and_eq_true, beq_iff_eq] at hcon
        exact h (mem_slice t k (k + pat.length) c (by rw [hcon.2]; exact hc)))]

theorem pyReplace_skip (t pat rep : List Char) (c : Char) (hc : c ∈ pat)
    (h : c ∉ t) : pyReplace t pat rep = t :=
  strReplaceFuel_skip t pat rep c hc h (t.length + 1)

/-- Positions past `0` of a close tag never hold `<`. -/
theorem charAt_tagClose_pos (h : List Char) (hlen : h.length = 6)
    (hdig : ∀ c ∈ h, isHexDigitChar c = true) (j : Nat) (hj : 1 ≤ j) :
    charAt (tagClose h) j ≠ some '<' := by
  intro hcon
  have hclen : (tagClose h).length = 10 := by simp [tagClose, hlen]
  have hj10 : j < 10 := by
    by_contra hge
    rw [charAt_eq_none (tagClose h) j (by omega)] at hcon
    exact Option.noConfusion hcon
  have htc : tagClose h = ['<', '/', '#'] ++ (h ++ ['>']) := by simp [tagClose]
  rcases Nat.lt_or_ge j 3 with h3 | h3
  · interval_cases j
    · rw [htc] at hcon
      simp [charAt] at hcon
    · rw [htc] at hcon
      simp [charAt] at hcon
  · rcases Nat.lt_or_ge j 9 with h9 | h9
    · have hstep : charAt (tagClose h) j = charAt h (j - 3) := by
        rw [htc, charAt_append_ge _ _ j (by simp; omega)]
        have hidx : j - (['<', '/', '#'] : List Char).length = j - 3 := by simp
        rw [hidx, charAt_append_lt _ _ _ (by omega)]
      rw [hstep] at hcon
      have hmem : '<' ∈ h := charAt_mem h (j - 3) '<' hcon
      exact (isHexDigitChar_spec '<' (hdig '<' hmem)).2.1 rfl
    · have hj9 : j = 9 := by omega
      have hstep : charAt (tagClose h) 9 = some '>' := by
        rw [htc, charAt_append_ge _ _ 9 (by simp)]
        have h6 : (9 : Nat) - (['<', '/', '#'] : List Char).length = 6 := by simp
        rw [h6, charAt_append_ge _ _ 6 (by omega)]
        rw [hlen]
        rfl
      rw [hj9, hstep] at hcon
      simp at hcon

/-- In `g ++ tagClose h` with `<`-free `g`, the only `<` is the tag start. -/
theorem lt_pos_g_tagClose (g h : List Char) (hlen : h.length = 6)
    (hdig : ∀ c ∈ h, isHexDigitChar c = true)
    (hg : ∀ c ∈ g, c ≠ '<') (i : Nat)
    (hc : charAt (g ++ tagClose h) i = some '<') : i = g.length := by
  rcases Nat.lt_or_ge i g.length with hi | hi
  · rw [charAt_append_lt _ _ _ hi] at hc
    exact absurd rfl (hg '<' (charAt_mem g i '<' hc))
  · rw [charAt_append_ge _ _ _ hi] at hc
    by_contra hne
    exact charAt_tagClose_pos h hlen hdig (i - g.length) (by omega) hc

theorem subOpen_pair (h1 h2 g : List Char)
    (hlen1 : h1.length = 6) (hdig1 : ∀ c ∈ h1, isHexDigitChar c = true)
    (hlen2 : h2.length = 6) (hdig2 : ∀ c ∈ h2, isHexDigitChar c = true)
    (hg : ∀ c ∈ g, c ≠ '<') :
    subOpen (tagOpen h1 ++ (g ++ tagClose h2))
      = spanOpen h1 ++ (g ++ tagClose h2) := by
  set s := tagOpen h1 ++ (g ++ tagClose h2) with hsdef
  have hopenlen : (tagOpen h1).length = 9 := by simp [tagOpen, hlen1]
  have hsA : s = (['<', '#'] : List Char) ++ (h1 ++ ('>' :: (g ++ tagClose h2))) := by
    simp [hsdef, tagOpen]
  have hc0 : charAt s 0 = some '<' := by
    rw [hsA]
    rfl
  have hc1 : charAt s 1 = some '#' := by
    rw [hsA]
    simp [charAt]
  have hslice : slice s 2 8 = h1 := by
    have h := slice_of_append (['<', '#'] : List Char) h1 ('>' :: (g ++ tagClose h2))
    rw [← hsA] at h
    simpa [hlen1] using h
  have hc8 : charAt s 8 = some '>' := by
    have hsB : s = ((['<', '#'] : List Char) ++ h1) ++ ('>' :: (g ++ tagClose h2)) := by
      simp [hsdef, tagOpen]
    have h := charAt_append_off ((['<', '#'] : List Char) ++ h1)
      ('>' :: (g ++ tagClose h2)) 0
    rw [← hsB, Nat.add_zero] at h
    have hBlen : ((['<', '#'] : List Char) ++ h1).length = 8 := by simp [hlen1]
    rw [hBlen] at h
    rw [h]
    exact charAt_cons_zero _ _
  have hopen0 : openColorAt s 0 = some h1 := by
    unfold openColorAt
    simp only [Nat.zero_add]
    rw [if_pos ?hguard]
    case hguard =>
      rw [hc0, hc1, hslice, hc8, hlen1]
      simp only [beq_self_eq_true, Bool.true_and, Bool.and_true]
      exact List.all_eq_true.mpr hdig1
    rw [hslice]
  have hdrop9 : s.drop 9 = g ++ tagClose h2 := by
    rw [hsdef, ← hopenlen]
    exact List.drop_left _ _
  have hnom : ∀ i, openColorAt (g ++ tagClose h2) i = none := by
    intro i
    by_cases hi : charAt (g ++ tagClose h2) i = some '<'
    · have hieq := lt_pos_g_tagClose g h2 hlen2 hdig2 hg i hi
      unfold openColorAt
      rw [if_neg ?hng]
      case hng =>
        intro hcon
        rw [Bool.and_eq_true, Bool.and_eq_true, Bool.and_eq_true, Bool.and_eq_true] at hcon
        have h1c := hcon.1.1.1.2
        rw [beq_iff_eq] at h1c
        rw [hieq] at h1c
        rw [charAt_append_ge _ _ _ (by omega)] at h1c
        have hidx : g.length + 1 - g.length = 1 := by omega
        rw [hidx] at h1c
        have hsl : charAt (tagClose h2) 1 = some '/' := by simp [tagClose, charAt]
        rw [hsl] at h1c
        exact absurd h1c (by simp)
    · unfold openColorAt
      rw [if_neg ?hng2]
      case hng2 =>
        intro hcon
        rw [Bool.and_eq_true, Bool.and_eq_true, Bool.and_eq_true, Bool.and_eq_true] at hcon
        have h1c := hcon.1.1.1.1
        rw [beq_iff_eq] at h1c
        exact hi h1c
  show subOpenFuel (s.length + 1) s = spanOpen h1 ++ (g ++ tagClose h2)
  rw [subOpenFuel]
  rw [scanFrom_hit _ 0 s.length (0, h1) (by simp [hopen0])]
  show s.take 0 ++ (spanOpen h1 ++ subOpenFuel s.length (s.drop (0 + 9)))
    = spanOpen h1 ++ (g ++ tagClose h2)
  rw [List.take_zero, Nat.zero_add, hdrop9, subOpenFuel_nomatch _ hnom]
  simp

theorem charAt_spanOpen_pos (h1 : List Char) (hlen1 : h1.length = 6)
    (hdig1 : ∀ c ∈ h1, isHexDigitChar c = true) (j : Nat) (hj : 1 ≤ j) :
    charAt (spanOpen h1) j ≠ some '<' := by
  intro hcon
  have hP : ("<span style=\"color:#".toList).length = 20 := by decide
  have hQ : ((";\">".toList) : List Char).length = 3 := by decide
  have hP5lt : ∀ j, j < 20 → 1 ≤ j →
      charAt ("<span style=\"color:#".toList) j ≠ some '<' := by decide
  have hQ5lt : ∀ j, j < 3 → charAt ((";\">".toList) : List Char) j ≠ some '<' := by decide
  have hsplen : (spanOpen h1).length = 29 := by
    rw [spanOpen]
    simp only [List.length_append, hP, hQ, hlen1]
  rcases Nat.lt_or_ge j 20 with h20 | h20
  · rw [spanOpen, charAt_append_lt _ _ j (by rw [hP]; omega)] at hcon
    exact hP5lt j h20 hj hcon
  · rw [spanOpen, charAt_append_ge _ _ j (by rw [hP]; omega), hP] at hcon
    rcases Nat.lt_or_ge j 26 with h26 | h26
    · rw [charAt_append_lt _ _ _ (by rw [hlen1]; omega)] at hcon
      have hmem : '<' ∈ h1 := charAt_mem h1 (j - 20) '<' hcon
      exact (isHexDigitChar_spec '<' (hdig1 '<' hmem)).2.1 rfl
    · rcases Nat.lt_or_ge j 29 with h29 | h29
      · rw [charAt_append_ge _ _ _ (by rw [hlen1]; omega), hlen1] at hcon
        exact hQ5lt (j - 20 - 6) (by omega) hcon
      · rw [charAt_eq_none _ _ (by rw [List.length_append, hlen1, hQ]; omega)] at hcon
        exact Option.noConfusion hcon

theorem subClose_pair (h1 h2 g : List Char)
    (hlen1 : h1.length = 6) (hdig1 : ∀ c ∈ h1, isHexDigitChar c = true)
    (hlen2 : h2.length = 6) (hdig2 : ∀ c ∈ h2, isHexDigitChar c = true)
    (hg : ∀ c ∈ g, c ≠ '<') :
    subClose (spanOpen h1 ++ (g ++ tagClose h2))
      = spanOpen h1 ++ (g ++ "</span>".toList) := by
  set u := spanOpen h1 ++ (g ++ tagClose h2) with hudef
  have hsplen : (spanOpen h1).length = 29 := by
    have hP : ("<span style=\"color:#".toList).length = 20 := by decide
    have hQ : ((";\">".toList) : List Char).length = 3 := by decide
    rw [spanOpen]
    simp only [List.length_append, hP, hQ, hlen1]
  have hcloselen : (tagClose h2).length = 10 := by simp [tagClose, hlen2]
  set m := 29 + g.length with hmdef
  have hulen : u.length = m + 10 := by
    simp only [hudef, List.length_append, hsplen, hcloselen, hmdef]
    omega
  have hAlen : (spanOpen h1 ++ g).length = m := by
    simp [hsplen, hmdef]
  have huA : u = (spanOpen h1 ++ g) ++ tagClose h2 := by simp [hudef]
  -- the close test fails strictly before m
  have hfalse1 : ∀ k, charAt u k ≠ some '<' → closeColorAnyAt u k = false := by
    intro k hk
    have hb : (charAt u k == some '<') = false := by
      cases hc : charAt u k with
      | none => rfl
      | some c =>
        have hne : c ≠ '<' := fun hcc => hk (by rw [hc, hcc])
        simpa using hne
    unfold closeColorAnyAt
    rw [hb]
    simp
  have hultpos : ∀ k, 1 ≤ k → k < m → charAt u k ≠ some '<' := by
    intro k hk1 hk2
    rcases Nat.lt_or_ge k 29 with h29 | h29
    · rw [hudef, charAt_append_lt _ _ k (by omega)]
      exact charAt_spanOpen_pos h1 hlen1 hdig1 k hk1
    · rw [huA, charAt_append_lt _ _ k (by omega)]
      rw [charAt_append_ge _ _ k (by omega)]
      intro hcon
      have hmem : '<' ∈ g := charAt_mem g (k - (spanOpen h1).length) '<' hcon
      exact hg '<' hmem rfl
  have hc1s : charAt u 1 = some 's' := by
    rw [hudef, charAt_append_lt _ _ 1 (by omega)]
    rw [spanOpen, charAt_append_lt _ _ 1 (by decide)]
    decide
  have hpre : ∀ k, k < m → closeColorAnyAt u k = false := by
    intro k hk
    by_cases hk0 : k = 0
    · subst hk0
      unfold closeColorAnyAt
      rw [show (0:Nat)+1 = 1 from rfl, hc1s]
      simp
    · exact hfalse1 k (hultpos k (by omega) hk)
  -- the close test succeeds at m
  have hd0 : charAt u m = some '<' := by
    have h := charAt_append_off (spanOpen h1 ++ g) (tagClose h2) 0
    rw [← huA, hAlen, Nat.add_zero] at h
    rw [h]
    simp [tagClose, charAt]
  have hd1 : charAt u (m+1) = some '/' := by
    have h := charAt_append_off (spanOpen h1 ++ g) (tagClose h2) 1
    rw [← huA, hAlen] at h
    rw [h]
    simp [tagClose, charAt]
  have hd2 : charAt u (m+2) = some '#' := by
    have h := charAt_append_off (spanOpen h1 ++ g) (tagClose h2) 2
    rw [← huA, hAlen] at h
    rw [h]
    simp [tagClose, charAt]
  have hdslice : slice u (m+3) (m+9) = h2 := by
    have huB : u = ((spanOpen h1 ++ g) ++ ['<', '/', '#']) ++ (h2 ++ ['>']) := by
      simp [hudef, tagClose]
    have h := slice_of_append ((spanOpen h1 ++ g) ++ ['<', '/', '#']) h2 ['>']
    rw [← huB] at h
    have hBlen : ((spanOpen h1 ++ g) ++ ['<', '/', '#']).length = m + 3 := by
      simp [hsplen, hmdef]
      omega
    rw [hBlen, hlen2] at h
    have he : m + 3 + 6 = m + 9 := by omega
    rw [he] at h
    exact h
  have hd9 : charAt u (m+9) = some '>' := by
    have huC : u = (((spanOpen h1 ++ g) ++ ['<', '/', '#']) ++ h2) ++ ['>'] := by
      simp [hudef, tagClose]
    have h := charAt_append_off (((spanOpen h1 ++ g) ++ ['<', '/', '#']) ++ h2) ['>'] 0
    rw [← huC, Nat.add_zero] at h
    have hClen : (((spanOpen h1 ++ g) ++ ['<', '/', '#']) ++ h2).length = m + 9 := by
      simp [hsplen, hlen2, hmdef]
      omega
    rw [hClen] at h
    rw [h]
    exact charAt_cons_zero _ _
  have hhit : closeColorAnyAt u m = true := by
    unfold closeColorAnyAt
    rw [hd0, hd1, hd2, hdslice, hd9, hlen2]
    simp only [beq_self_eq_true, Bool.true_and, Bool.and_true]
    exact List.all_eq_true.mpr hdig2
  have hscan : scanFrom (fun i => if closeColorAnyAt u i then some i else none) 0
      (u.length + 1) = some m := by
    have hfuel : u.length + 1 = m + 11 := by omega
    rw [hfuel]
    rw [scanFrom_skip _ m 11 0 ?hpre2]
    case hpre2 =>
      intro k hk1 hk2
      rw [if_neg (by rw [hpre k (by omega)]; exact Bool.false_ne_true)]
    rw [Nat.zero_add]
    exact scanFrom_hit _ _ _ _ (by rw [if_pos hhit])
  show subCloseFuel (u.length + 1) u = spanOpen h1 ++ (g ++ "</span>".toList)
  rw [subCloseFuel, hscan]
  show u.take m ++ ("</span>".toList ++ subCloseFuel u.length (u.drop (m + 10)))
    = spanOpen h1 ++ (g ++ "</span>".toList)
  have htake : u.take m = spanOpen h1 ++ g := by
    rw [huA, ← hAlen]
    exact List.take_left _ _
  have hdropall : u.drop (m + 10) = [] := by
    rw [show m + 10 = u.length from by omega]
    exact List.drop_length u
  rw [htake, hdropall, subCloseFuel_nomatch [] (by
    intro i
    unfold closeColorAnyAt
    rw [charAt_nil]
    simp)]
  simp

/-- C5 counterexample: on the spec's own mismatched example
`<#FF0000>Hello</#00FF00>` the renderer's output does contain an opening
span (`<span style="color:#FF0000;">`), so the mismatched pair is not
treated as literal text. -/
theorem c5_counterexample :
    containsSub ("<span style=\"color:#FF0000;\">".toList)
      (convert_custom_text_to_html ("<#FF0000>Hello</#00FF00>".toList)) = true := by
  decide

/-- C5 (amended) — HTML renderer color handling: the renderer substitutes
open and close color tags independently of each other. For every pair of
6-hex-digit values `h1`, `h2` (equal or not) and every tag-free,
newline-free text `g`, rendering `<#h1>g</#h2>` yields the template around
`<span style="color:#h1;">` ++ `g` ++ `</span>`: a span is emitted for
every open tag and `</span>` for every close tag, with no matching check. -/
theorem c5_color_tag_rendering (h1 h2 g : List Char)
    (hlen1 : h1.length = 6) (hdig1 : ∀ c ∈ h1, isHexDigitChar c = true)
    (hlen2 : h2.length = 6) (hdig2 : ∀ c ∈ h2, isHexDigitChar c = true)
    (hg : ∀ c ∈ g, c ≠ '<' ∧ c ≠ '\n') :
    convert_custom_text_to_html (tagOpen h1 ++ (g ++ tagClose h2))
      = htmlPre ++ ((spanOpen h1 ++ (g ++ "</span>".toList)) ++ htmlPost) := by
  have hglt : ∀ c ∈ g, c ≠ '<' := fun c hc => (hg c hc).1
  have hbody_nl : '\n' ∉ spanOpen h1 ++ (g ++ "</span>".toList) := by
    intro hmem
    rcases List.mem_append.mp hmem with hm | hm
    · rw [spanOpen] at hm
      rcases List.mem_append.mp hm with hm2 | hm2
      · exact absurd hm2 (by decide)
      · rcases List.mem_append.mp hm2 with hm3 | hm3
        · exact (isHexDigitChar_spec '\n' (hdig1 '\n' hm3)).1 rfl
        · exact absurd hm3 (by decide)
    · rcases List.mem_append.mp hm with hm2 | hm2
      · exact (hg '\n' hm2).2 rfl
      · exact absurd hm2 (by decide)
  unfold convert_custom_text_to_html
  rw [subOpen_pair h1 h2 g hlen1 hdig1 hlen2 hdig2 hglt]
  rw [subClose_pair h1 h2 g hlen1 hdig1 hlen2 hdig2 hglt]
  rw [pyReplace_skip _ _ _ '\n' (by decide) hbody_nl]
  rw [pyReplace_skip _ _ _ '\n' (by decide) hbody_nl]

/-- The amended rendering theorem applied to the spec's mismatched pair. -/
theorem c5_color_tag_rendering_witness :
    convert_custom_text_to_html ("<#FF0000>Hello</#00FF00>".toList)
      = htmlPre ++ ((spanOpen ("FF0000".toList) ++ ("Hello".toList ++ "</span>".toList))
          ++ htmlPost) := by
  have h := c5_color_tag_rendering ("FF0000".toList) ("00FF00".toList) ("Hello".toList)
    (by decide) (by decide) (by decide) (by decide) (by decide)
  have he : tagOpen ("FF0000".toList) ++ ("Hello".toList ++ tagClose ("00FF00".toList))
      = "<#FF0000>Hello</#00FF00>".toList := by decide
  rw [he] at h
  exact h

/-! ## C7: the PDF extractor span rendering (utils.py 84-114) -/

/-- `f"\x7bfont_size:.1f\x7d"` for sizes given in tenths of a point. -/
def fmtSize1 (tenths : Nat) : List Char :=
  Nat.toDigits 10 (tenths / 10) ++ ('.' :: Nat.toDigits 10 (tenths % 10))

/-- `f"#\x7br:02X\x7d\x7bg:02X\x7d\x7bb:02X\x7d"` of the packed color
    integer: shift and mask per channel, two uppercase digits each. -/
def pdfColorHex (colorVal : Nat) : List Char :=
  '#' :: (hexByte ((colorVal >>> 16) &&& 255) ++
    (hexByte ((colorVal >>> 8) &&& 255) ++ hexByte (colorVal &&& 255)))

/-- `font_name.split("-")[0] if "-" in font_name else font_name`. -/
def pdfFontFamily (fontName : List Char) : List Char :=
  if containsSub ("-".toList) fontName then fontName.takeWhile (fun c => c ≠ '-')
  else fontName

/-- The inner `styled` string of the span loop: size, font and color tags
    around the text, innermost first. -/
def pdfStyledCore (text fontName : List Char) (sizeTenths colorVal : Nat) : List Char :=
  "<size=".toList ++ (fmtSize1 sizeTenths ++ ("><font=".toList ++ (pdfFontFamily fontName ++
    ('>' :: ('<' :: (pdfColorHex colorVal ++ ('>' :: (text ++ ("</".toList ++
      (pdfColorHex colorVal ++ "></font></size>".toList))))))))))

/-- The full span rendering: the core, wrapped in `<b>` when the font
    name contains `Bold`, then in `<i>` when it contains `Italic` or
    `Oblique`. -/
def pdfSpanStyled (text fontName : List Char) (sizeTenths colorVal : Nat) : List Char :=
  let s1 := pdfStyledCore text fontName sizeTenths colorVal
  let s2 := if containsSub ("Bold".toList) fontName then
      "<b>".toList ++ (s1 ++ "</b>".toList) else s1
  if containsSub ("Italic".toList) fontName || containsSub ("Oblique".toList) fontName then
    "<i>".toList ++ (s2 ++ "</i>".toList)
  else s2

/-- C7 — PDF extractor span emission: (1) whenever the font name contains
`Bold`, contains `Italic` or `Oblique`, and contains a dash, the emitted
span text is the `<i>` wrapper outside the `<b>` wrapper outside the
size-font-color chain built from the dash-truncated family and the masked
uppercase channel hex; (2) in particular for font `Arial-BoldItalic`,
size 11.5 and color 0xFF0000 the output is exactly
`<i><b><size=11.5><font=Arial><#FF0000>` ++ text ++
`</#FF0000></font></size></b></i>`. -/
theorem c7_pdf_span_emission :
    (∀ (text fontName : List Char) (sizeTenths colorVal : Nat),
      containsSub ("Bold".toList) fontName = true →
      (containsSub ("Italic".toList) fontName = true ∨
        containsSub ("Oblique".toList) fontName = true) →
      pdfSpanStyled text fontName sizeTenths colorVal
        = "<i>".toList ++ (("<b>".toList ++
            (pdfStyledCore text fontName sizeTenths colorVal ++ "</b>".toList))
          ++ "</i>".toList)) ∧
    (∀ text : List Char,
      pdfSpanStyled text ("Arial-BoldItalic".toList) 115 0xFF0000
        = "<i><b><size=11.5><font=Arial><#FF0000>".toList
            ++ (text ++ "</#FF0000></font></size></b></i>".toList)) := by
  constructor
  · intro text fontName sizeTenths colorVal hb hi
    have hi2 : (containsSub ("Italic".toList) fontName
        || containsSub ("Oblique".toList) fontName) = true := by
      rcases hi with h | h
      · rw [h]
        rfl
      · rw [h]
        simp
    show (let s1 := pdfStyledCore text fontName sizeTenths colorVal
      let s2 := if containsSub ("Bold".toList) fontName then
          "<b>".toList ++ (s1 ++ "</b>".toList) else s1
      if containsSub ("Italic".toList) fontName
          || containsSub ("Oblique".toList) fontName then
        "<i>".toList ++ (s2 ++ "</i>".toList)
      else s2) = _
    simp only [hb, hi2, if_true, Bool.or_true, Bool.true_or, if_pos]
  · intro text
    show (let s1 := pdfStyledCore text ("Arial-BoldItalic".toList) 115 0xFF0000
      let s2 := if containsSub ("Bold".toList) ("Arial-BoldItalic".toList) then
          "<b>".toList ++ (s1 ++ "</b>".toList) else s1
      if containsSub ("Italic".toList) ("Arial-BoldItalic".toList)
          || containsSub ("Oblique".toList) ("Arial-BoldItalic".toList) then
        "<i>".toList ++ (s2 ++ "</i>".toList)
      else s2) = _
    rw [show containsSub ("Bold".toList) ("Arial-BoldItalic".toList) = true from by decide]
    rw [show (containsSub ("Italic".toList) ("Arial-BoldItalic".toList)
        || containsSub ("Oblique".toList) ("Arial-BoldItalic".toList)) = true from by decide]
    simp only [if_true]
    rw [show pdfStyledCore text ("Arial-BoldItalic".toList) 115 0xFF0000
        = "<size=11.5><font=Arial><#FF0000>".toList
            ++ (text ++ "</#FF0000></font></size>".toList) from ?hcore]
    case hcore =>
      unfold pdfStyledCore
      rw [show fmtSize1 115 = "11.5".toList from by decide]
      rw [show pdfColorHex 0xFF0000 = "#FF0000".toList from by decide]
      rw [show pdfFontFamily ("Arial-BoldItalic".toList) = "Arial".toList from by decide]
      simp
    simp

/-- The span rendering evaluated on the spec's example values. -/
theorem c7_pdf_span_emission_witness :
    pdfSpanStyled ("Hi".toList) ("Arial-BoldItalic".toList) 115 0xFF0000
      = "<i>".toList ++ (("<b>".toList ++
          (pdfStyledCore ("Hi".toList) ("Arial-BoldItalic".toList) 115 0xFF0000
            ++ "</b>".toList)) ++ "</i>".toList) ∧
    pdfSpanStyled ("Hi".toList) ("Arial-BoldItalic".toList) 115 0xFF0000
      = "<i><b><size=11.5><font=Arial><#FF0000>".toList
          ++ ("Hi".toList ++ "</#FF0000></font></size></b></i>".toList) :=
  ⟨c7_pdf_span_emission.1 ("Hi".toList) ("Arial-BoldItalic".toList) 115 0xFF0000
      (by decide) (Or.inl (by decide)),
   c7_pdf_span_emission.2 ("Hi".toList)⟩

/-! ## C3: the cached LLM-call wrapper (ai_agent.py 75-101) -/

/-- The fingerprint fields of `_call_openai_chat`: model, messages,
    max_tokens, temperature, response_format. The sha256 of their sorted
    JSON dump is modeled by keying the cache on the tuple itself (the
    hash is injective up to collisions, which the model abstracts away). -/
structure ChatParams where
  model : List Char
  messages : List (List Char × List Char)
  maxTokens : Nat
  temperature : Nat
  responseFormat : Option (List Char)
deriving DecidableEq

/-- Python dict membership and lookup on an association list. -/
def lookupA {α β : Type} [DecidableEq α] (cache : List (α × β)) (k : α) : Option β :=
  match cache with
  | [] => none
  | (k2, v) :: rest => if k2 = k then some v else lookupA rest k

/-- The module-level `CACHE` dict together with a count of the API calls
    made so far. -/
structure LLMState where
  cache : List (ChatParams × List Char)
  apiCalls : Nat

/-- `_call_openai_chat`: return the cached content on a fingerprint hit;
    otherwise call the API, store the content under the fingerprint and
    return it. `api` stands for the external OpenAI completion. -/
def callOpenAIChat (api : ChatParams → List Char) (p : ChatParams) (st : LLMState) :
    List Char × LLMState :=
  match lookupA st.cache p with
  | some v => (v, st)
  | none => (api p, ⟨(p, api p) :: st.cache, st.apiCalls + 1⟩)

/-- C3 — Cache at-most-once: from any cache state, calling the wrapper
twice with the same fingerprint returns identical results, the second
call leaves the state untouched (stored result, no recomputation, no
store), and across the pair the underlying API is invoked at most once. -/
theorem c3_cache_at_most_once (api : ChatParams → List Char) (p : ChatParams)
    (st : LLMState) :
    (callOpenAIChat api p (callOpenAIChat api p st).2).1 = (callOpenAIChat api p st).1 ∧
    (callOpenAIChat api p (callOpenAIChat api p st).2).2 = (callOpenAIChat api p st).2 ∧
    (callOpenAIChat api p (callOpenAIChat api p st).2).2.apiCalls ≤ st.apiCalls + 1 := by
  cases hl : lookupA st.cache p with
  | some v =>
    have h1 : callOpenAIChat api p st = (v, st) := by
      rw [callOpenAIChat, hl]
    rw [h1, h1]
    exact ⟨rfl, rfl, Nat.le_succ st.apiCalls⟩
  | none =>
    have h1 : callOpenAIChat api p st
        = (api p, ⟨(p, api p) :: st.cache, st.apiCalls + 1⟩) := by
      rw [callOpenAIChat, hl]
    have h2 : callOpenAIChat api p (⟨(p, api p) :: st.cache, st.apiCalls + 1⟩ : LLMState)
        = (api p, ⟨(p, api p) :: st.cache, st.apiCalls + 1⟩) := by
      rw [callOpenAIChat]
      rw [show lookupA ((p, api p) :: st.cache) p = some (api p) from by
        rw [lookupA, if_pos rfl]]
    rw [h1, h2]
    exact ⟨rfl, rfl, Nat.le_refl (st.apiCalls + 1)⟩

/-! ## C9: per-chunk failure handling in `analyze` and `correct_whole`
    (ai_agent.py 194-213 and 237-269) -/

/-- The per-chunk loop of `analyze`: each chunk is looked up under
    `chunk + "_analysis"`; on a miss the collaborator is called inside a
    try/except, a success is cached and reported, a failure becomes an
    error-shaped report for that chunk only and the loop continues. -/
def analyzeLoop (api : List Char → Except (List Char) (List Char)) :
    List (List Char) → List (List Char × List Char) →
      List (Except (List Char) (List Char)) × List (List Char × List Char)
  | [], cache => ([], cache)
  | chunk :: rest, cache =>
    match lookupA cache (chunk ++ ("_analysis".toList)) with
    | some out =>
      (Except.ok out :: (analyzeLoop api rest cache).1, (analyzeLoop api rest cache).2)
    | none =>
      match api chunk with
      | Except.ok out =>
        (Except.ok out ::
            (analyzeLoop api rest ((chunk ++ ("_analysis".toList), out) :: cache)).1,
          (analyzeLoop api rest ((chunk ++ ("_analysis".toList), out) :: cache)).2)
      | Except.error e =>
        (Except.error e :: (analyzeLoop api rest cache).1,
          (analyzeLoop api rest cache).2)

/-- The per-chunk loop of `correct_whole`: cache key `chunk +
    "_correction"`, but no try/except around the collaborator call — a
    failure propagates out of the whole loop. -/
def correctLoop (api : List Char → Except (List Char) (List Char)) :
    List (List Char) → List (List Char × List Char) →
      Except (List Char) (List (List Char) × List (List Char × List Char))
  | [], cache => Except.ok ([], cache)
  | chunk :: rest, cache =>
    match lookupA cache (chunk ++ ("_correction".toList)) with
    | some corrected =>
      match correctLoop api rest cache with
      | Except.ok (parts, cache2) => Except.ok (pyStrip corrected :: parts, cache2)
      | Except.error e => Except.error e
    | none =>
      match api chunk with
      | Except.ok corrected =>
        match correctLoop api rest
            ((chunk ++ ("_correction".toList), corrected) :: cache) with
        | Except.ok (parts, cache2) => Except.ok (pyStrip corrected :: parts, cache2)
        | Except.error e => Except.error e
      | Except.error e => Except.error e

/-- `correct_whole` after chunking: the joined corrected parts, or the
    uncaught failure. -/
def correct_whole_result (api : List Char → Except (List Char) (List Char))
    (chunks : List (List Char)) (cache : List (List Char × List Char)) :
    Except (List Char) (List Char) :=
  match correctLoop api chunks cache with
  | Except.ok (parts, _) => Except.ok (List.intercalate ("\n\n".toList) parts)
  | Except.error e => Except.error e

/-- C9 counterexample: with a collaborator that fails on chunk `b` and
succeeds on chunk `a`, `correct_whole` on the chunks `[a, b]` aborts
entirely — the successful sibling `a` contributes nothing to any
combined output, because the correction loop has no per-chunk handler. -/
theorem c9_counterexample :
    correct_whole_result
        (fun c => if c = "b".toList then Except.error ("boom".toList) else Except.ok c)
        [("a".toList), ("b".toList)] [] = Except.error ("boom".toList) ∧
    (fun c => if c = "b".toList then Except.error ("boom".toList) else Except.ok c)
        ("a".toList) = Except.ok ("a".toList) :=
  ⟨rfl, rfl⟩

/-- C9 (amended) — Per-chunk failure isolation holds for `analyze` only:
its loop reports exactly one result per chunk, and a report is
error-shaped only when the collaborator itself failed on that very chunk,
so sibling chunks always complete and contribute; `correct_whole` lacks
the per-chunk handler, so a single failure aborts the whole call (see the
counterexample). -/
theorem c9_analyze_isolation (api : List Char → Except (List Char) (List Char)) :
    ∀ (chunks : List (List Char)) (cache : List (List Char × List Char)),
      (analyzeLoop api chunks cache).1.length = chunks.length ∧
      (∀ (i : Nat) (r : Except (List Char) (List Char)),
        (analyzeLoop api chunks cache).1[i]? = some r →
        (∃ out, r = Except.ok out) ∨
        (∃ c e, chunks[i]? = some c ∧ r = Except.error e ∧ api c = Except.error e)) := by
  intro chunks
  induction chunks with
  | nil =>
    intro cache
    constructor
    · rfl
    · intro i r hr
      have h0 : (analyzeLoop api [] cache).1 = [] := rfl
      rw [h0] at hr
      simp at hr
  | cons chunk rest ih =>
    intro cache
    cases hl : lookupA cache (chunk ++ ("_analysis".toList)) with
    | some out =>
      have hred : analyzeLoop api (chunk :: rest) cache
          = (Except.ok out :: (analyzeLoop api rest cache).1,
             (analyzeLoop api rest cache).2) := by
        rw [analyzeLoop, hl]
      constructor
      · rw [hred]
        simp only [List.length_cons]
        rw [(ih cache).1]
      · intro i r hr
        rw [hred] at hr
        cases i with
        | zero =>
          simp only [List.getElem?_cons_zero, Option.some.injEq] at hr
          exact Or.inl ⟨out, hr.symm⟩
        | succ i =>
          rw [show ((Except.ok out :: (analyzeLoop api rest cache).1,
              (analyzeLoop api rest cache).2) :
              List (Except (List Char) (List Char)) × List (List Char × List Char)).1
            = Except.ok out :: (analyzeLoop api rest cache).1 from rfl,
            List.getElem?_cons_succ] at hr
          rcases (ih cache).2 i r hr with h | ⟨c, e, hc, hre, hape⟩
          · exact Or.inl h
          · exact Or.inr ⟨c, e, by rw [List.getElem?_cons_succ]; exact hc, hre, hape⟩
    | none =>
      cases hap : api chunk with
      | ok out =>
        have hred : analyzeLoop api (chunk :: rest) cache
            = (Except.ok out ::
                (analyzeLoop api rest ((chunk ++ ("_analysis".toList), out) :: cache)).1,
              (analyzeLoop api rest ((chunk ++ ("_analysis".toList), out) :: cache)).2) := by
          rw [analyzeLoop, hl, hap]
        constructor
        · rw [hred]
          simp only [List.length_cons]
          rw [(ih ((chunk ++ ("_analysis".toList), out) :: cache)).1]
        · intro i r hr
          rw [hred] at hr
          cases i with
          | zero =>
            simp only [List.getElem?_cons_zero, Option.some.injEq] at hr
            exact Or.inl ⟨out, hr.symm⟩
          | succ i =>
            rw [show ((Except.ok out ::
                (analyzeLoop api rest ((chunk ++ ("_analysis".toList), out) :: cache)).1,
                (analyzeLoop api rest ((chunk ++ ("_analysis".toList), out) :: cache)).2) :
                List (Except (List Char) (List Char)) × List (List Char × List Char)).1
              = Except.ok out ::
                  (analyzeLoop api rest ((chunk ++ ("_analysis".toList), out) :: cache)).1
              from rfl, List.getElem?_cons_succ] at hr
            rcases (ih ((chunk ++ ("_analysis".toList), out) :: cache)).2 i r hr with
              h | ⟨c, e, hc, hre, hape⟩
            · exact Or.inl h
            · exact Or.inr ⟨c, e, by rw [List.getElem?_cons_succ]; exact hc, hre, hape⟩
      | error e =>
        have hred : analyzeLoop api (chunk :: rest) cache
            = (Except.error e :: (analyzeLoop api rest cache).1,
              (analyzeLoop api rest cache).2) := by
          rw [analyzeLoop, hl, hap]
        constructor
        · rw [hred]
          simp only [List.length_cons]
          rw [(ih cache).1]
        · intro i r hr
          rw [hred] at hr
          cases i with
          | zero =>
            simp only [List.getElem?_cons_zero, Option.some.injEq] at hr
            exact Or.inr ⟨chunk, e, List.getElem?_cons_zero, hr.symm, hap⟩
          | succ i =>
            rw [show ((Except.error e :: (analyzeLoop api rest cache).1,
                (analyzeLoop api rest cache).2) :
                List (Except (List Char) (List Char)) × List (List Char × List Char)).1
              = Except.error e :: (analyzeLoop api rest cache).1 from rfl,
              List.getElem?_cons_succ] at hr
            rcases (ih cache).2 i r hr with h | ⟨c, e2, hc, hre, hape⟩
            · exact Or.inl h
            · exact Or.inr ⟨c, e2, by rw [List.getElem?_cons_succ]; exact hc, hre, hape⟩

/-- The isolation theorem applied to the failing-sibling example: the
report list has one entry per chunk, and the failing second chunk's
error-shaped report traces back to the collaborator's own failure. -/
theorem c9_analyze_isolation_witness :
    (∃ out, (Except.error ("boom".toList) : Except (List Char) (List Char))
        = Except.ok out) ∨
    (∃ c e, ([("a".toList), ("b".toList)] : List (List Char))[1]? = some c ∧
      (Except.error ("boom".toList) : Except (List Char) (List Char)) = Except.error e ∧
      (fun c => if c = "b".toList then Except.error ("boom".toList) else Except.ok c) c
        = Except.error e) :=
  (c9_analyze_isolation
      (fun c => if c = "b".toList then Except.error ("boom".toList) else Except.ok c)
      [("a".toList), ("b".toList)] []).2 1 (Except.error ("boom".toList)) rfl

end DocChecker
